import Mathlib

/-!
# Polygon boundary assembly, signed area and orientation (`lib/vector/diglib/poly.c`)

A shallow embedding of the three functions of `poly.c`:

* `dig_get_poly_points`  : concatenates oriented lines into one boundary ring;
* `dig_find_area_poly`   : signed area of a closed ring;
* `dig_find_poly_orientation` : orientation from an extremal vertex, with four fallbacks.

and of the loop over all lines in `main` of `vector/v.build.polylines/main.c`, where the
library calls and the two walk functions, whose code is elsewhere, are parameters.

Conventions of the embedding.

* C `double` is modelled by `ℚ` (exact arithmetic).  Where a statement depends on the
  rounding of `double`, the function is given a second time with IEEE 754 binary64
  arithmetic (`dig_find_area_poly_double`): every operation is the exact result rounded
  to nearest, ties to even.
* A C array is a `List`; reading `a[i]` is `a.getD i 0`, writing is `List.set`.
* `int` values are `Int` or `Nat` without wrap-around; signed overflow and reads outside
  an array are undefined behaviour in C and are outside every theorem's hypotheses.
  `n_points` is a `Nat`, so `n_points - 1` is truncated at `0`; the theorems only speak
  of sequences with at least one point, where this is the C value.
* Loops whose exit test is not a plain counter bound (`j != end`, the `do … while` scans)
  take a fuel argument and return `none` when it runs out.
-/

namespace Diglib

/-! ## Data model -/

/-- The fields of `struct line_pnts` that `poly.c` reads and writes: the coordinate
arrays `x`, `y` and the number of points in use. -/
structure line_pnts where
  x : List ℚ
  y : List ℚ
  n_points : Nat
deriving DecidableEq, Repr

/-- The value of `Points->x[i]`. -/
def line_pnts.xi (Points : line_pnts) (i : Nat) : ℚ := Points.x.getD i 0

/-- The value of `Points->y[i]`. -/
def line_pnts.yi (Points : line_pnts) (i : Nat) : ℚ := Points.y.getD i 0

/-- The point `(x[i], y[i])` of a sequence. -/
def line_pnts.pt (Points : line_pnts) (i : Nat) : ℚ × ℚ := (Points.xi i, Points.yi i)

/-- The points in use: `(x[i], y[i])` for `i = 0 .. n_points - 1`. -/
def line_pnts.pts (Points : line_pnts) : List (ℚ × ℚ) :=
  (List.range Points.n_points).map Points.pt

/-- A sequence built from a list of points, with no spare capacity. -/
def line_pnts.ofList (l : List (ℚ × ℚ)) : line_pnts :=
  ⟨l.map Prod.fst, l.map Prod.snd, l.length⟩

/-- Both coordinate arrays hold at least `n_points` entries. -/
def line_pnts.wf (Points : line_pnts) : Prop :=
  Points.n_points ≤ Points.x.length ∧ Points.n_points ≤ Points.y.length

instance (Points : line_pnts) : Decidable Points.wf := by
  unfold line_pnts.wf; exact inferInstance

/-! ## `dig_get_poly_points` -/

/-- Modelled from the spec: `dig_alloc_points` is called by `poly.c` but defined elsewhere
in the library.  Spec §6: "allocate/grow a point-sequence buffer of a requested capacity
(fails with `AllocationError` on exhaustion)"; §4.1: it fails "when the destination buffer
cannot be sized to the computed point count".  `avail` is the largest capacity the
allocator can provide; on success (`0`) both arrays hold at least `num` entries and keep
their contents, on failure (`-1`) the buffer is unchanged. -/
def dig_alloc_points (avail : Nat) (Points : line_pnts) (num : Int) : Int × line_pnts :=
  if num.toNat ≤ avail then
    (0, { Points with
            x := Points.x ++ List.replicate (num.toNat - Points.x.length) 0,
            y := Points.y ++ List.replicate (num.toNat - Points.y.length) 0 })
  else (-1, Points)

/-- The inner loop `for (j = start; j != end; j += inc) { BPoints[point] = Points[j]; point++; }`
entered with the current `j`, `point` and `BPoints`; one unit of fuel per iteration.
Returns the final `j`, `point` and `BPoints`. -/
def copy_points (Points : line_pnts) (stop inc : Int) :
    Nat → Int → Nat → line_pnts → Option (Int × Nat × line_pnts)
  | 0, j, point, BPoints => if j = stop then some (j, point, BPoints) else none
  | fuel + 1, j, point, BPoints =>
    if j = stop then some (j, point, BPoints)
    else copy_points Points stop inc fuel (j + inc) (point + 1)
      { BPoints with x := BPoints.x.set point (Points.xi j.toNat),
                     y := BPoints.y.set point (Points.yi j.toNat) }

/-- The variables live across the outer loop of `dig_get_poly_points`. -/
structure poly_state where
  Points : line_pnts
  j : Int
  point : Nat
  BPoints : line_pnts
deriving DecidableEq, Repr

/-- One iteration of the outer loop `for (i = 0; i < n_lines; i++)`. -/
def poly_step (fuel : Nat) (LPoints : List line_pnts) (direction : List Int)
    (s : poly_state) (i : Nat) : Option poly_state :=
  let Points := LPoints.getD i ⟨[], [], 0⟩
  let start : Int := if direction.getD i 0 > 0 then 0 else (Points.n_points : Int) - 1
  let stop : Int := if direction.getD i 0 > 0 then (Points.n_points : Int) - 1 else 0
  let inc : Int := if direction.getD i 0 > 0 then 1 else -1
  (copy_points Points stop inc fuel start s.point s.BPoints).map
    fun r => ⟨Points, r.1, r.2.1, r.2.2⟩

/-- The function `dig_get_poly_points(n_lines, LPoints, direction, BPoints)`: the returned
`int` and the final `*BPoints`.  `avail` is the allocator's limit, `fuel` bounds each run
of the inner loop. -/
def dig_get_poly_points (avail fuel : Nat) (n_lines : Int) (LPoints : List line_pnts)
    (direction : List Int) (BPoints : line_pnts) : Option (Int × line_pnts) :=
  let B0 := { BPoints with n_points := 0 }
  if n_lines < 1 then some (0, B0)
  else
    let n_points : Int :=
      (List.range n_lines.toNat).foldl
        (fun n i => n + (((LPoints.getD i ⟨[], [], 0⟩).n_points : Int) - 1)) 0 + 1
    let a := dig_alloc_points avail B0 n_points
    if 0 > a.1 then some (-1, a.2)
    else
      match (List.range n_lines.toNat).foldlM (poly_step fuel LPoints direction)
          (⟨⟨[], [], 0⟩, 0, 0, a.2⟩ : poly_state) with
      | none => none
      | some s =>
        let B1 := { s.BPoints with x := s.BPoints.x.set s.point (s.Points.xi s.j.toNat),
                                   y := s.BPoints.y.set s.point (s.Points.yi s.j.toNat) }
        let B2 := { B1 with n_points := n_points.toNat }
        some ((B2.n_points : Int), B2)

/-! ## `dig_find_area_poly` -/

/-- The function `dig_find_area_poly(Points, &totalarea)`: the returned status and the value
stored in `*totalarea`. -/
def dig_find_area_poly (Points : line_pnts) : Int × ℚ :=
  let n := Points.n_points - 1
  let tot_area :=
    (List.range' 1 (n - 1)).foldl
      (fun tot i => tot + Points.yi i * (Points.xi (i + 1) - Points.xi (i - 1)))
      (Points.yi 0 * (Points.xi 1 - Points.xi (n - 1)))
  (0, 0.5 * tot_area)

/-! ## `dig_find_poly_orientation` -/

/-- Body of the first selection loop (leftmost highest vertex): the new `pcur` after
candidate `pnext`. -/
def leftmost_highest_step (Points : line_pnts) (pcur pnext : Nat) : Nat :=
  if Points.yi pnext < Points.yi pcur then pcur
  else if Points.yi pnext = Points.yi pcur then
    if Points.xi pnext > Points.xi pcur then pcur else pnext
  else pnext

/-- Body of the second selection loop (rightmost highest vertex). -/
def rightmost_highest_step (Points : line_pnts) (pcur pnext : Nat) : Nat :=
  if Points.yi pnext < Points.yi pcur then pcur
  else if Points.yi pnext = Points.yi pcur then
    if Points.xi pnext < Points.xi pcur then pcur else pnext
  else pnext

/-- Body of the third selection loop (leftmost lowest vertex). -/
def leftmost_lowest_step (Points : line_pnts) (pcur pnext : Nat) : Nat :=
  if Points.yi pnext > Points.yi pcur then pcur
  else if Points.yi pnext = Points.yi pcur then
    if Points.xi pnext > Points.xi pcur then pcur else pnext
  else pnext

/-- Body of the fourth selection loop (rightmost lowest vertex). -/
def rightmost_lowest_step (Points : line_pnts) (pcur pnext : Nat) : Nat :=
  if Points.yi pnext > Points.yi pcur then pcur
  else if Points.yi pnext = Points.yi pcur then
    if Points.xi pnext < Points.xi pcur then pcur else pnext
  else pnext

/-- A selection loop `pcur = 0; for (pnext = 1; pnext < lastpoint; pnext++) body`. -/
def select_vertex (step : Nat → Nat → Nat) (lastpoint : Nat) : Nat :=
  (List.range' 1 (lastpoint - 1)).foldl step 0

/-- The loop `do { if (pnext < lastpoint - 1) pnext++; else pnext = 0; }
while (pnext != pcur && x[pcur] == x[pnext] && y[pcur] == y[pnext])`, entered with the
current `pnext`; one unit of fuel per iteration. -/
def find_next (Points : line_pnts) (lastpoint pcur : Nat) : Nat → Nat → Option Nat
  | 0, _ => none
  | fuel + 1, pnext =>
    let pnext := if pnext < lastpoint - 1 then pnext + 1 else 0
    if pnext ≠ pcur ∧ Points.xi pcur = Points.xi pnext ∧ Points.yi pcur = Points.yi pnext then
      find_next Points lastpoint pcur fuel pnext
    else some pnext

/-- The loop `do { if (pprev > 0) pprev--; else pprev = lastpoint - 1; }
while (pprev != pcur && x[pcur] == x[pprev] && y[pcur] == y[pprev])`, entered with the
current `pprev`; one unit of fuel per iteration. -/
def find_prev (Points : line_pnts) (lastpoint pcur : Nat) : Nat → Nat → Option Nat
  | 0, _ => none
  | fuel + 1, pprev =>
    let pprev := if pprev > 0 then pprev - 1 else lastpoint - 1
    if pprev ≠ pcur ∧ Points.xi pcur = Points.xi pprev ∧ Points.yi pcur = Points.yi pprev then
      find_prev Points lastpoint pcur fuel pprev
    else some pprev

/-- The expression
`(x[pnext] - x[pprev]) * (y[pcur] - y[pprev]) - (x[pcur] - x[pprev]) * (y[pnext] - y[pprev])`. -/
def vertex_cross (Points : line_pnts) (pprev pcur pnext : Nat) : ℚ :=
  (Points.xi pnext - Points.xi pprev) * (Points.yi pcur - Points.yi pprev)
    - (Points.xi pcur - Points.xi pprev) * (Points.yi pnext - Points.yi pprev)

/-- The part of each of the four blocks after the selection loop: both neighbour scans
from `pcur`, then the orientation at `pcur`. -/
def orientation_at (fuel : Nat) (Points : line_pnts) (lastpoint pcur : Nat) : Option ℚ :=
  match find_next Points lastpoint pcur fuel pcur with
  | none => none
  | some pnext =>
    match find_prev Points lastpoint pcur fuel pcur with
    | none => none
    | some pprev => some (vertex_cross Points pprev pcur pnext)

/-- The function `dig_find_poly_orientation(Points)`; `fuel` bounds each neighbour scan. -/
def dig_find_poly_orientation (fuel : Nat) (Points : line_pnts) : Option ℚ :=
  let lastpoint := Points.n_points - 1
  match orientation_at fuel Points lastpoint
      (select_vertex (leftmost_highest_step Points) lastpoint) with
  | none => none
  | some orientation =>
    if orientation ≠ 0 then some orientation
    else
      match orientation_at fuel Points lastpoint
          (select_vertex (rightmost_highest_step Points) lastpoint) with
      | none => none
      | some orientation =>
        if orientation ≠ 0 then some orientation
        else
          match orientation_at fuel Points lastpoint
              (select_vertex (leftmost_lowest_step Points) lastpoint) with
          | none => none
          | some orientation =>
            if orientation ≠ 0 then some orientation
            else
              orientation_at fuel Points lastpoint
                (select_vertex (rightmost_lowest_step Points) lastpoint)


/-! ## Expected output of the boundary assembler -/

/-- What the outer loop copies from one line: points `0 .. last-1` in order when the
direction is `> 0`, points `last .. 1` in reverse order otherwise. -/
def line_part (Points : line_pnts) (d : Int) : List (ℚ × ℚ) :=
  if d > 0 then (List.range (Points.n_points - 1)).map fun k => Points.pt k
  else (List.range (Points.n_points - 1)).map fun k => Points.pt (Points.n_points - 1 - k)

/-- The point at which the traversal of a line ends: its last point when the direction is
`> 0`, its point `0` otherwise. -/
def line_end (Points : line_pnts) (d : Int) : ℚ × ℚ :=
  if d > 0 then Points.pt (Points.n_points - 1) else Points.pt 0

/-- The point at which the traversal of a line starts. -/
def line_start (Points : line_pnts) (d : Int) : ℚ × ℚ :=
  if d > 0 then Points.pt 0 else Points.pt (Points.n_points - 1)

/-- The sequence assembled from a list of (line, direction) pairs: every line's part, then
the end point of the last line. -/
def assembled (ring : List (line_pnts × Int)) : List (ℚ × ℚ) :=
  ring.flatMap (fun p => line_part p.1 p.2)
    ++ (ring.getLast?.map fun p => line_end p.1 p.2).toList

/-- The number of points copied by the outer loop: the sum of `n_points - 1`. -/
def parts_len (ring : List (line_pnts × Int)) : Nat :=
  (ring.map fun p => p.1.n_points - 1).sum

/-! ## The assembler's output as the specification describes it -/

/-- Spec §4.1, second rule: "if direction is positive, append points [0 .. last−1] of its
geometry in order; if negative, append points [last .. 1] in reverse order".  Nothing is
said of a direction `0`; the description is empty there. -/
def described_part (Points : line_pnts) (d : Int) : List (ℚ × ℚ) :=
  if 0 < d then (List.range (Points.n_points - 1)).map fun k => Points.pt k
  else if d < 0 then (List.range (Points.n_points - 1)).map fun k => Points.pt (Points.n_points - 1 - k)
  else []

/-- Spec §4.1, third rule: the one final point, the last point of the last line when its
direction is positive and its point `0` when it is negative. -/
def described_final (Points : line_pnts) (d : Int) : List (ℚ × ℚ) :=
  if 0 < d then [Points.pt (Points.n_points - 1)]
  else if d < 0 then [Points.pt 0]
  else []

/-- The whole described output for a list of lines and a list of directions. -/
def described_ring (LPoints : List line_pnts) (direction : List Int) : List (ℚ × ℚ) :=
  (List.zip LPoints direction).flatMap (fun p => described_part p.1 p.2)
    ++ match (List.zip LPoints direction).getLast? with
       | some p => described_final p.1 p.2
       | none => []

/-- Two lines that trace the unit square: `(0,0) → (1,0) → (1,1)` and `(0,0) → (0,1) → (1,1)`,
the second to be traversed backwards. -/
def square_lines : List line_pnts :=
  [line_pnts.ofList [(0, 0), (1, 0), (1, 1)], line_pnts.ofList [(0, 0), (0, 1), (1, 1)]]

/-! ## Closed rings, the shoelace sum, reversal -/

/-- A sequence is closed when its first point is its last point. -/
def line_pnts.closed (Points : line_pnts) : Prop :=
  Points.pt 0 = Points.pt (Points.n_points - 1)

instance (Points : line_pnts) : Decidable Points.closed := by
  unfold line_pnts.closed; exact inferInstance

/-- The standard shoelace area `1/2 * Σ_{i<n} (x[i]*y[i+1] - x[i+1]*y[i])` of a ring of `n + 1`
points; it is positive for a ring traced counterclockwise (with `y` pointing up). -/
def shoelace_area (Points : line_pnts) : ℚ :=
  1 / 2 * ∑ i in Finset.range (Points.n_points - 1),
    (Points.xi i * Points.yi (i + 1) - Points.xi (i + 1) * Points.yi i)

/-- A ring is traced clockwise when its standard shoelace area is negative. -/
def line_pnts.clockwise (Points : line_pnts) : Prop := shoelace_area Points < 0

/-- A ring is traced counterclockwise when its standard shoelace area is positive. -/
def line_pnts.counterclockwise (Points : line_pnts) : Prop := 0 < shoelace_area Points

/-- The same points in reverse order. -/
def line_pnts.reverse (Points : line_pnts) : line_pnts :=
  ⟨(Points.x.take Points.n_points).reverse, (Points.y.take Points.n_points).reverse,
    Points.n_points⟩

/-- The unit square ring `(0,0),(1,0),(1,1),(0,1),(0,0)`. -/
def unit_square : line_pnts :=
  line_pnts.ofList [(0, 0), (1, 0), (1, 1), (0, 1), (0, 0)]

/-! ## The orientation classifier as the specification describes it -/

/-- Spec §4.3: "Scan forward from `cur` (wrapping, excluding the duplicated closing point) to
the first distinct coordinate `next`": the first of the indices `cur+1, cur+2, …` taken
modulo `lastpoint` whose point differs from the point at `cur`; `cur` itself when the other
`lastpoint - 1` indices all carry the point at `cur`. -/
def first_distinct_after (Points : line_pnts) (lastpoint cur : Nat) : Nat :=
  (((List.range (lastpoint - 1)).map fun k => (cur + 1 + k) % lastpoint).find?
    fun i => decide (Points.pt i ≠ Points.pt cur)).getD cur

/-- Spec §4.3: "Scan backward from `cur` (wrapping) to the first distinct coordinate `prev`":
the first of the indices `cur-1, cur-2, …` taken modulo `lastpoint` whose point differs
from the point at `cur`; `cur` itself when there is none. -/
def first_distinct_before (Points : line_pnts) (lastpoint cur : Nat) : Nat :=
  (((List.range (lastpoint - 1)).map fun k => (cur + lastpoint - 1 - k) % lastpoint).find?
    fun i => decide (Points.pt i ≠ Points.pt cur)).getD cur

/-- Spec §9: a strategy is a "(selection predicate, tie-break predicate)" pair.  `sel a b`
says that ordinate `a` is more extreme than ordinate `b`; `tie a b` says that abscissa `a`
wins the tie against abscissa `b`. -/
structure strategy where
  sel : ℚ → ℚ → Bool
  tie : ℚ → ℚ → Bool

/-- Spec §4.3, strategy 1: "maximum y; tie-break: minimum x". -/
def leftmost_highest : strategy := ⟨fun a b => decide (a > b), fun a b => decide (a < b)⟩

/-- Spec §4.3, strategy 2: "maximum y; tie-break: maximum x". -/
def rightmost_highest : strategy := ⟨fun a b => decide (a > b), fun a b => decide (a > b)⟩

/-- Spec §4.3, strategy 3: "minimum y; tie-break: minimum x". -/
def leftmost_lowest : strategy := ⟨fun a b => decide (a < b), fun a b => decide (a < b)⟩

/-- Spec §4.3, strategy 4: "minimum y; tie-break: maximum x". -/
def rightmost_lowest : strategy := ⟨fun a b => decide (a < b), fun a b => decide (a > b)⟩

/-- Spec §4.3 and §9: the four strategies "in fixed order". -/
def strategies : List strategy :=
  [leftmost_highest, rightmost_highest, leftmost_lowest, rightmost_lowest]

/-- The extremal vertex of a strategy, found by a scan of the candidates `1 .. lastpoint-1` in
increasing order starting from vertex `0`: the current vertex stays when it beats the
candidate by the selection predicate, or equals it there and beats it by the tie-break
predicate; otherwise the candidate becomes the current vertex.  (Of several vertices with
the same coordinates this keeps the last; the specification's sentences on the four
strategies leave that choice open.) -/
def strategy.select (s : strategy) (Points : line_pnts) (lastpoint : Nat) : Nat :=
  (List.range' 1 (lastpoint - 1)).foldl
    (fun cur cand =>
      if s.sel (Points.yi cur) (Points.yi cand) then cur
      else if Points.yi cand = Points.yi cur ∧ s.tie (Points.xi cur) (Points.xi cand) then cur
      else cand) 0

/-- Spec §4.3: the cross product of a strategy,
`(x[next] − x[prev])·(y[cur] − y[prev]) − (x[cur] − x[prev])·(y[next] − y[prev])` at its
extremal vertex `cur` with the first distinct neighbours `next` and `prev`. -/
def strategy.cross (s : strategy) (Points : line_pnts) : ℚ :=
  let lastpoint := Points.n_points - 1
  let cur := s.select Points lastpoint
  let next := first_distinct_after Points lastpoint cur
  let prev := first_distinct_before Points lastpoint cur
  (Points.xi next - Points.xi prev) * (Points.yi cur - Points.yi prev)
    - (Points.xi cur - Points.xi prev) * (Points.yi next - Points.yi prev)

/-- Spec §4.3 and §9: the strategies are "evaluated in sequence, returning on first non-zero
result"; "if all four strategies yield cross == 0, return 0". -/
def orientation_reference (Points : line_pnts) : ℚ :=
  ((strategies.map fun s => s.cross Points).find? fun c => decide (c ≠ 0)).getD 0

/-- A triangle ring with its first vertex duplicated: `(0,1),(0,1),(1,0),(0,0),(0,1)`. -/
def triangle_dup : line_pnts :=
  line_pnts.ofList [(0, 1), (0, 1), (1, 0), (0, 0), (0, 1)]

/-! ## Extremal vertices -/

/-- Vertex `i` attains the extreme of strategy 1 among the vertices below `lastpoint`:
maximum `y`, and minimum `x` among the vertices of that `y`. -/
def attains_leftmost_highest (Points : line_pnts) (lastpoint i : Nat) : Prop :=
  ∀ k, k < lastpoint →
    Points.yi k ≤ Points.yi i ∧ (Points.yi k = Points.yi i → Points.xi i ≤ Points.xi k)

/-- Vertex `i` attains the extreme of strategy 2: maximum `y`, then maximum `x`. -/
def attains_rightmost_highest (Points : line_pnts) (lastpoint i : Nat) : Prop :=
  ∀ k, k < lastpoint →
    Points.yi k ≤ Points.yi i ∧ (Points.yi k = Points.yi i → Points.xi k ≤ Points.xi i)

/-- Vertex `i` attains the extreme of strategy 3: minimum `y`, then minimum `x`. -/
def attains_leftmost_lowest (Points : line_pnts) (lastpoint i : Nat) : Prop :=
  ∀ k, k < lastpoint →
    Points.yi i ≤ Points.yi k ∧ (Points.yi k = Points.yi i → Points.xi i ≤ Points.xi k)

/-- Vertex `i` attains the extreme of strategy 4: minimum `y`, then maximum `x`. -/
def attains_rightmost_lowest (Points : line_pnts) (lastpoint i : Nat) : Prop :=
  ∀ k, k < lastpoint →
    Points.yi i ≤ Points.yi k ∧ (Points.yi k = Points.yi i → Points.xi k ≤ Points.xi i)

/-- Index `cur` is the smallest index below `lastpoint` with the property `attains`. -/
def first_attaining (attains : Nat → Prop) (lastpoint cur : Nat) : Prop :=
  cur < lastpoint ∧ attains cur ∧ ∀ i, i < lastpoint → attains i → cur ≤ i

/-- Index `cur` is the largest index below `lastpoint` with the property `attains`. -/
def last_attaining (attains : Nat → Prop) (lastpoint cur : Nat) : Prop :=
  cur < lastpoint ∧ attains cur ∧ ∀ i, i < lastpoint → attains i → i ≤ cur

/-- The list with its element at position `k` inserted a second time immediately after
itself. -/
def dup_at (l : List (ℚ × ℚ)) (k : Nat) : List (ℚ × ℚ) := l.take (k + 1) ++ l.drop k

/-- Three points lie on one line. -/
def collinear (p0 p1 p2 : ℚ × ℚ) : Prop :=
  (p1.1 - p0.1) * (p2.2 - p0.2) - (p2.1 - p0.1) * (p1.2 - p0.2) = 0

instance (p0 p1 p2 : ℚ × ℚ) : Decidable (collinear p0 p1 p2) := by
  unfold collinear; exact inferInstance

/-! ## The full-graph pass of `v.build.polylines` (`main.c`) -/

/-- The operations `main` calls whose code is not part of the sources, taken as parameters:
`Vect_get_num_lines(&map)`, the type returned by `Vect_read_line(&map, NULL, NULL, line)`,
`Vect_reset_cats`, `walk_back(&map, line)`, and
`walk_forward_and_pick_up_coords(&map, start_line, points, lines_visited, Cats, write_cats)`,
which returns a count and leaves new contents in `points`, `lines_visited` and `Cats`;
and the constant `GV_LINES`. -/
structure map_ops (LP LC : Type) where
  num_lines : Nat
  read_line : Nat → Int
  reset_cats : LC → LC
  walk_back : Nat → Nat
  walk_forward : Nat → LP → (Nat → Int) → LC → Int → Int × LP × (Nat → Int) × LC
  GV_LINES : Int

/-- The variables of `main` that live across the loop over the lines, with the records
written to the output map (`Vect_write_line(&Out, type, points, Cats)`) and the lines printed
on `stdout` (`"Polyline %d: start line = %d"`). -/
structure main_state (LP LC : Type) where
  polyline : Int
  nlines : Int
  lines_visited : Nat → Int
  points : LP
  Cats : LC
  Out : List (Int × LP × LC)
  stdout : List (Int × Nat)

/-- One iteration of `for (line = 1; line <= Vect_get_num_lines(&map); line++)`. -/
def main_body {LP LC : Type} (ops : map_ops LP LC) (quiet : Bool) (write_cats : Int)
    (s : main_state LP LC) (line : Nat) : main_state LP LC :=
  let Cats := ops.reset_cats s.Cats
  let type := ops.read_line line
  let nlines := if Int.land type ops.GV_LINES ≠ 0 then s.nlines + 1 else s.nlines
  if s.lines_visited line ≠ 0 then { s with Cats := Cats, nlines := nlines }
  else
    let start_line := ops.walk_back line
    let start_type := ops.read_line start_line
    let stdout := if ¬ quiet then s.stdout ++ [(s.polyline, start_line)] else s.stdout
    let r := ops.walk_forward start_line s.points s.lines_visited Cats write_cats
    let polyline := if Int.land type ops.GV_LINES ≠ 0 then s.polyline + 1 else s.polyline
    { polyline := polyline, nlines := nlines, lines_visited := r.2.2.1, points := r.2.1,
      Cats := r.2.2.2, Out := s.Out ++ [(start_type, r.2.1, r.2.2.2)], stdout := stdout }

/-- The state of `main` on entry to the loop: both counters `0`, `lines_visited` all zero
(`G_calloc`), fresh `points` and `Cats`, nothing written. -/
def main_init {LP LC : Type} (points : LP) (cats : LC) : main_state LP LC :=
  { polyline := 0, nlines := 0, lines_visited := fun _ => 0, points := points, Cats := cats,
    Out := [], stdout := [] }

/-- The state after the iterations for the lines `1 .. k`. -/
def main_after {LP LC : Type} (ops : map_ops LP LC) (quiet : Bool) (write_cats : Int)
    (points : LP) (cats : LC) (k : Nat) : main_state LP LC :=
  (List.range' 1 k).foldl (main_body ops quiet write_cats) (main_init points cats)

/-- The loop of `main` over all lines `1 .. Vect_get_num_lines(&map)`. -/
def main_loop {LP LC : Type} (ops : map_ops LP LC) (quiet : Bool) (write_cats : Int)
    (points : LP) (cats : LC) : main_state LP LC :=
  main_after ops quiet write_cats points cats ops.num_lines

/-- Line `line` is not marked in `lines_visited` when the loop reaches it. -/
def reached_unvisited {LP LC : Type} (ops : map_ops LP LC) (quiet : Bool)
    (write_cats : Int) (points : LP) (cats : LC) (line : Nat) : Bool :=
  decide ((main_after ops quiet write_cats points cats (line - 1)).lines_visited line = 0)

/-- The type of a line has a bit of `GV_LINES` (the test `type & GV_LINES`). -/
def line_like {LP LC : Type} (ops : map_ops LP LC) (line : Nat) : Bool :=
  decide (Int.land (ops.read_line line) ops.GV_LINES ≠ 0)

/-- A map of three lines: the boundaries `1` and `2` form one polyline that starts at line
`2`, line `3` is a point.  Types: `GV_POINT = 1`, `GV_LINE = 2`, `GV_BOUNDARY = 4`;
`walk_forward` marks the lines of the polyline and returns the list of their numbers. -/
def sample_ops : map_ops (List Nat) (List Nat) where
  num_lines := 3
  read_line := fun l => if l = 1 then 4 else if l = 2 then 2 else 1
  reset_cats := fun _ => []
  walk_back := fun l => if l = 1 then 2 else l
  walk_forward := fun start _ visited _ _ =>
    if start = 2 then (2, [2, 1], fun l => if l = 1 ∨ l = 2 then 1 else visited l, [])
    else (1, [start], fun l => if l = start then 1 else visited l, [])
  GV_LINES := 6

/-! ## The arithmetic of `double` -/

/-- A finite value of the C type `double` (IEEE 754 binary64), given as `m * 2 ^ e`.
Infinities and NaN are not values of this type, and the sign of a zero is not kept. -/
structure double where
  m : Int
  e : Int
deriving DecidableEq, Repr

/-- The number a `double` stands for. -/
def double.val (d : double) : ℚ := d.m * (2 : ℚ) ^ d.e

/-- Counting the binary digits of `n` by halving; `fuel` bounds the number of digits. -/
def bit_length_aux : Nat → Nat → Nat
  | 0, _ => 0
  | fuel + 1, n => if n = 0 then 0 else bit_length_aux fuel (n / 2) + 1

/-- The number of binary digits of `n`: the least `k` with `n < 2 ^ k`. -/
def bit_length (n : Nat) : Nat := bit_length_aux n n

/-- Rounding of the exact result `m * 2 ^ e` of an operation to `double`, to nearest with
ties to even (the default rounding mode).  The result is a multiple of `2 ^ q`, where `q` is
53 binary digits below the leading digit of the value and not below `-1074` (the subnormal
range): `a` is the magnitude in units of `2 ^ q` rounded down and `r` the remainder.
`none` when the rounded magnitude reaches `2 ^ 1024`, where the C result is an infinity. -/
def round_double (m e : Int) : Option double :=
  if m = 0 then some ⟨0, 0⟩
  else
    let n := m.natAbs
    let q : Int := max ((bit_length n : Int) + e - 53) (-1074)
    let n' := n * 2 ^ (e - q).toNat
    let s := (q - e).toNat
    let a := n' / 2 ^ s
    let r := n' % 2 ^ s
    let a' := if 2 ^ s < 2 * r ∨ (2 * r = 2 ^ s ∧ a % 2 = 1) then a + 1 else a
    if (bit_length a' : Int) + q ≤ 1024 then some ⟨m.sign * a', q⟩ else none

/-- The C operation `a + b` on `double`: the exact sum, rounded. -/
def double.add (a b : double) : Option double :=
  let e := min a.e b.e
  round_double (a.m * 2 ^ (a.e - e).toNat + b.m * 2 ^ (b.e - e).toNat) e

/-- The C operation `a - b` on `double`: the exact difference, rounded. -/
def double.sub (a b : double) : Option double :=
  let e := min a.e b.e
  round_double (a.m * 2 ^ (a.e - e).toNat - b.m * 2 ^ (b.e - e).toNat) e

/-- The C operation `a * b` on `double`: the exact product, rounded. -/
def double.mul (a b : double) : Option double :=
  round_double (a.m * b.m) (a.e + b.e)

/-- A `struct line_pnts` with its coordinates as `double` values. -/
structure line_pnts_double where
  x : List double
  y : List double
  n_points : Nat
deriving DecidableEq, Repr

/-- The same sequence with every coordinate replaced by the number it stands for. -/
def line_pnts_double.val (Points : line_pnts_double) : line_pnts :=
  ⟨Points.x.map double.val, Points.y.map double.val, Points.n_points⟩

/-- The function `dig_find_area_poly(Points, &totalarea)` with the arithmetic of `double`:
every `-`, `*`, `+=` and the final `0.5 * tot_area` is rounded to `double` (evaluation in
the precision of the type, without fused multiply-add).  `none` when an operation
overflows. -/
def dig_find_area_poly_double (Points : line_pnts_double) : Option (Int × double) :=
  let n := Points.n_points - 1
  let x := fun i => Points.x.getD i ⟨0, 0⟩
  let y := fun i => Points.y.getD i ⟨0, 0⟩
  do
    let d0 ← (x 1).sub (x (n - 1))
    let t0 ← (y 0).mul d0
    let tot_area ← (List.range' 1 (n - 1)).foldlM
      (fun tot i => do
        let d ← (x (i + 1)).sub (x (i - 1))
        let t ← (y i).mul d
        tot.add t) t0
    let totalarea ← (double.mk 1 (-1)).mul tot_area
    pure (0, totalarea)

/-- Two lines with integer coordinates: `(0,-1), (1,2^52), (2,-1)` and `(0,-1), (2,-1)`.
With directions `1, -1` they chain into the triangle ring
`(0,-1), (1,2^52), (2,-1), (0,-1)`. -/
def spike_lines_double : List line_pnts_double :=
  [⟨[⟨0, 0⟩, ⟨1, 0⟩, ⟨2, 0⟩], [⟨-1, 0⟩, ⟨4503599627370496, 0⟩, ⟨-1, 0⟩], 3⟩,
   ⟨[⟨0, 0⟩, ⟨2, 0⟩], [⟨-1, 0⟩, ⟨-1, 0⟩], 2⟩]

/-- The lines of `spike_lines_double` as numbers. -/
def spike_lines : List line_pnts :=
  [⟨[0, 1, 2], [-1, 4503599627370496, -1], 3⟩, ⟨[0, 2], [-1, -1], 2⟩]

/-- The ring `(0,-1), (1,2^52), (2,-1), (0,-1)`. -/
def spike_ring_double : line_pnts_double :=
  ⟨[⟨0, 0⟩, ⟨1, 0⟩, ⟨2, 0⟩, ⟨0, 0⟩], [⟨-1, 0⟩, ⟨4503599627370496, 0⟩, ⟨-1, 0⟩, ⟨-1, 0⟩], 4⟩

/-- The ring of `spike_ring_double` in reverse order. -/
def spike_ring_reversed_double : line_pnts_double :=
  ⟨[⟨0, 0⟩, ⟨2, 0⟩, ⟨1, 0⟩, ⟨0, 0⟩], [⟨-1, 0⟩, ⟨-1, 0⟩, ⟨4503599627370496, 0⟩, ⟨-1, 0⟩], 4⟩

/-- The `double` nearest to `0.1`. -/
def double_tenth : double := ⟨3602879701896397, -55⟩

/-- The `double` nearest to `0.3`. -/
def double_three_tenths : double := ⟨5404319552844595, -54⟩

/-- The ring `(0,0.1), (0.1,0.1), (0.3,0.3), (0,0.1)` in `double` coordinates. -/
def tenths_ring_double : line_pnts_double :=
  ⟨[⟨0, 0⟩, double_tenth, double_three_tenths, ⟨0, 0⟩],
   [double_tenth, double_tenth, double_three_tenths, double_tenth], 4⟩

/-- The ring of `tenths_ring_double` in reverse order. -/
def tenths_ring_reversed_double : line_pnts_double :=
  ⟨[⟨0, 0⟩, double_three_tenths, double_tenth, ⟨0, 0⟩],
   [double_tenth, double_three_tenths, double_tenth, double_tenth], 4⟩

/-! ## Lemmas on array writes -/

theorem take_set_succ {α} (l : List α) (n : Nat) (v : α) (h : n < l.length) :
    (l.set n v).take (n + 1) = l.take n ++ [v] := by
  induction l generalizing n with
  | nil => simp at h
  | cons a l ih =>
    cases n with
    | zero => simp
    | succ n =>
      simp only [List.length_cons, Nat.add_lt_add_iff_right] at h
      simp [List.set, ih n h]

/-- The loop `copy_points` from `j` to `j + m * inc` copies `m` points. -/
theorem copy_points_run (Points : line_pnts) (inc : Int) (hinc : inc ≠ 0) :
    ∀ (m fuel : Nat) (j : Int) (point : Nat) (B : line_pnts),
      m ≤ fuel → point + m ≤ B.x.length → point + m ≤ B.y.length →
      ∃ B', copy_points Points (j + m * inc) inc fuel j point B = some (j + m * inc, point + m, B')
        ∧ B'.x.length = B.x.length ∧ B'.y.length = B.y.length ∧ B'.n_points = B.n_points
        ∧ B'.x.take (point + m)
            = B.x.take point ++ (List.range m).map (fun k : Nat => Points.xi (j + (k : Int) * inc).toNat)
        ∧ B'.y.take (point + m)
            = B.y.take point ++ (List.range m).map (fun k : Nat => Points.yi (j + (k : Int) * inc).toNat) := by
  intro m
  induction m with
  | zero =>
    intro fuel j point B _ _ _
    refine ⟨B, ?_, rfl, rfl, rfl, by simp, by simp⟩
    cases fuel <;> simp [copy_points]
  | succ m ih =>
    intro fuel j point B hf hx hy
    obtain ⟨fuel, rfl⟩ : ∃ f, fuel = f + 1 := ⟨fuel - 1, by omega⟩
    have hne : ¬ j = j + ((m + 1 : Nat) : Int) * inc := by
      intro h
      have h0 : ((m + 1 : Nat) : Int) * inc = 0 := by linarith
      rcases mul_eq_zero.1 h0 with h1 | h1
      · exact absurd h1 (by exact_mod_cast Nat.succ_ne_zero m)
      · exact hinc h1
    have hstop : j + ((m + 1 : Nat) : Int) * inc = (j + inc) + (m : Int) * inc := by
      push_cast; ring
    obtain ⟨B', h1, h2, h3, h4, h5, h6⟩ := ih fuel (j + inc) (point + 1)
      { B with x := B.x.set point (Points.xi j.toNat),
               y := B.y.set point (Points.yi j.toNat) }
      (by omega) (by simp; omega) (by simp; omega)
    refine ⟨B', ?_, ?_, ?_, ?_, ?_, ?_⟩
    · rw [copy_points, if_neg hne, hstop, h1]
      simp; omega
    · simpa using h2
    · simpa using h3
    · simpa using h4
    · have e : point + (m + 1) = point + 1 + m := by omega
      rw [e, h5]
      simp only [take_set_succ _ _ _ (show point < B.x.length by omega)]
      rw [List.range_succ_eq_map]
      simp [List.map_map, Function.comp_def, add_mul, add_assoc, add_comm, add_left_comm]
    · have e : point + (m + 1) = point + 1 + m := by omega
      rw [e, h6]
      simp only [take_set_succ _ _ _ (show point < B.y.length by omega)]
      rw [List.range_succ_eq_map]
      simp [List.map_map, Function.comp_def, add_mul, add_assoc, add_comm, add_left_comm]

/-- One iteration of the outer loop appends the line's part to what has been written. -/
theorem poly_step_run (fuel : Nat) (Ls : List line_pnts) (ds : List Int) (s : poly_state)
    (i : Nat) (L : line_pnts) (d : Int)
    (hL : Ls.getD i ⟨[], [], 0⟩ = L) (hd : ds.getD i 0 = d)
    (hn : 1 ≤ L.n_points) (hf : L.n_points - 1 ≤ fuel)
    (hx : s.point + (L.n_points - 1) ≤ s.BPoints.x.length)
    (hy : s.point + (L.n_points - 1) ≤ s.BPoints.y.length) :
    ∃ s', poly_step fuel Ls ds s i = some s'
      ∧ s'.Points = L ∧ s'.j = (if d > 0 then (L.n_points : Int) - 1 else 0)
      ∧ s'.point = s.point + (L.n_points - 1)
      ∧ s'.BPoints.x.length = s.BPoints.x.length ∧ s'.BPoints.y.length = s.BPoints.y.length
      ∧ s'.BPoints.n_points = s.BPoints.n_points
      ∧ s'.BPoints.x.take s'.point
          = s.BPoints.x.take s.point ++ (line_part L d).map Prod.fst
      ∧ s'.BPoints.y.take s'.point
          = s.BPoints.y.take s.point ++ (line_part L d).map Prod.snd := by
  have hcast : ((L.n_points - 1 : Nat) : Int) = (L.n_points : Int) - 1 := by omega
  by_cases hpos : d > 0
  · obtain ⟨B', h1, h2, h3, h4, h5, h6⟩ :=
      copy_points_run L 1 (by decide) (L.n_points - 1) fuel 0 s.point s.BPoints hf hx hy
    refine ⟨⟨L, (L.n_points : Int) - 1, s.point + (L.n_points - 1), B'⟩, ?_, rfl, ?_, rfl,
      h2, h3, h4, ?_, ?_⟩
    · simp only [poly_step, hL, hd, if_pos hpos]
      simp only [hcast, zero_add, mul_one] at h1
      rw [h1]; rfl
    · simp [hpos]
    · rw [h5]; simp [line_part, hpos, line_pnts.pt, Function.comp_def]
    · rw [h6]; simp [line_part, hpos, line_pnts.pt, Function.comp_def]
  · obtain ⟨B', h1, h2, h3, h4, h5, h6⟩ :=
      copy_points_run L (-1) (by decide) (L.n_points - 1) fuel ((L.n_points : Int) - 1)
        s.point s.BPoints hf hx hy
    have hstop : (L.n_points : Int) - 1 + ((L.n_points - 1 : Nat) : Int) * (-1) = 0 := by
      rw [hcast]; ring
    have hidx : ∀ k : Nat, k < L.n_points - 1 →
        ((L.n_points : Int) - 1 + (k : Int) * (-1)).toNat = L.n_points - 1 - k := by
      intro k hk; omega
    refine ⟨⟨L, 0, s.point + (L.n_points - 1), B'⟩, ?_, rfl, ?_, rfl, h2, h3, h4, ?_, ?_⟩
    · simp only [poly_step, hL, hd, if_neg hpos]
      rw [hstop] at h1
      rw [h1]; rfl
    · simp [hpos]
    · rw [h5]
      simp only [line_part, if_neg hpos, List.map_map, List.append_cancel_left_eq]
      apply List.map_congr_left
      intro k hk
      simp only [Function.comp_def, line_pnts.pt]
      rw [hidx k (List.mem_range.1 hk)]
    · rw [h6]
      simp only [line_part, if_neg hpos, List.map_map, List.append_cancel_left_eq]
      apply List.map_congr_left
      intro k hk
      simp only [Function.comp_def, line_pnts.pt]
      rw [hidx k (List.mem_range.1 hk)]

theorem parts_len_append (r₁ r₂ : List (line_pnts × Int)) :
    parts_len (r₁ ++ r₂) = parts_len r₁ + parts_len r₂ := by
  simp [parts_len]

theorem parts_len_take_le (ring : List (line_pnts × Int)) (k : Nat) :
    parts_len (ring.take k) ≤ parts_len ring := by
  conv_rhs => rw [← List.take_append_drop k ring, parts_len_append]
  omega

theorem take_succ_of_lt {α} (l : List α) (k : Nat) (h : k < l.length) :
    l.take (k + 1) = l.take k ++ [l[k]] := by
  rw [List.take_succ, List.getElem?_eq_getElem h]; rfl

/-- The outer loop after `k` iterations has written the parts of the first `k` lines. -/
theorem poly_loop_run (fuel : Nat) (ring : List (line_pnts × Int)) (L0 : line_pnts) (j0 : Int)
    (B : line_pnts)
    (hring : ∀ p ∈ ring, 1 ≤ p.1.n_points ∧ p.1.n_points - 1 ≤ fuel)
    (hx : parts_len ring ≤ B.x.length) (hy : parts_len ring ≤ B.y.length) :
    ∀ k, k ≤ ring.length →
    ∃ s, (List.range k).foldlM (poly_step fuel (ring.map Prod.fst) (ring.map Prod.snd))
          (⟨L0, j0, 0, B⟩ : poly_state) = some s
      ∧ s.point = parts_len (ring.take k)
      ∧ s.BPoints.x.length = B.x.length ∧ s.BPoints.y.length = B.y.length
      ∧ s.BPoints.n_points = B.n_points
      ∧ s.BPoints.x.take s.point = ((ring.take k).flatMap fun p => line_part p.1 p.2).map Prod.fst
      ∧ s.BPoints.y.take s.point = ((ring.take k).flatMap fun p => line_part p.1 p.2).map Prod.snd
      ∧ (∀ p, (ring.take k).getLast? = some p →
          s.Points = p.1 ∧ s.j = (if p.2 > 0 then (p.1.n_points : Int) - 1 else 0)) := by
  intro k
  induction k with
  | zero =>
    intro _
    exact ⟨⟨L0, j0, 0, B⟩, by simp, by simp [parts_len], rfl, rfl, rfl, by simp, by simp,
      by simp⟩
  | succ k ih =>
    intro hk
    obtain ⟨s, h1, h2, h3, h4, h5, h6, h7, _⟩ := ih (by omega)
    have hlt : k < ring.length := by omega
    have hmem : ring[k] ∈ ring := List.getElem_mem hlt
    have htake := take_succ_of_lt ring k hlt
    have hle := parts_len_take_le ring (k + 1)
    rw [htake, parts_len_append] at hle
    have hone : parts_len [ring[k]] = ring[k].1.n_points - 1 := by simp [parts_len]
    rw [hone] at hle
    obtain ⟨s', g1, g2, g3, g4, g5, g6, g7, g8, g9⟩ :=
      poly_step_run fuel (ring.map Prod.fst) (ring.map Prod.snd) s k ring[k].1 ring[k].2
        (by rw [List.getD_eq_getElem _ _ (by simpa using hlt)]; simp)
        (by rw [List.getD_eq_getElem _ _ (by simpa using hlt)]; simp)
        (hring _ hmem).1 (hring _ hmem).2 (by omega) (by omega)
    refine ⟨s', ?_, ?_, by omega, by omega, by omega, ?_, ?_, ?_⟩
    · rw [List.range_succ, List.foldlM_append, h1]
      simpa using g1
    · rw [htake, parts_len_append, hone, g4, h2]
    · rw [g8, h6, htake, List.flatMap_append, List.map_append]; simp [List.flatMap]
    · rw [g9, h7, htake, List.flatMap_append, List.map_append]; simp [List.flatMap]
    · intro p hp
      rw [htake, List.getLast?_append] at hp
      simp at hp
      subst hp
      exact ⟨g2, g3⟩

/-- The points in use are determined by the first `n_points` entries of both arrays. -/
theorem pts_eq_of_take (P : line_pnts) (acc : List (ℚ × ℚ))
    (hx : P.n_points ≤ P.x.length) (hy : P.n_points ≤ P.y.length)
    (hxs : P.x.take P.n_points = acc.map Prod.fst)
    (hys : P.y.take P.n_points = acc.map Prod.snd) : P.pts = acc := by
  have hlen : acc.length = P.n_points := by
    have := congrArg List.length hxs
    simp at this; omega
  apply List.ext_getElem
  · simp [line_pnts.pts, hlen]
  · intro i h1 h2
    have hi : i < P.n_points := by simpa [line_pnts.pts] using h1
    have hi2 : i < acc.length := h2
    have ex : P.x.getD i 0 = acc[i].1 := by
      have h : (P.x.take P.n_points).getD i 0 = (acc.map Prod.fst).getD i 0 := by rw [hxs]
      rw [List.getD_eq_getElem _ _ (by simp; omega),
        List.getD_eq_getElem _ _ (by simpa using hi2)] at h
      simp only [List.getElem_take, List.getElem_map] at h
      rw [List.getD_eq_getElem _ _ (by omega)]; exact h
    have ey : P.y.getD i 0 = acc[i].2 := by
      have h : (P.y.take P.n_points).getD i 0 = (acc.map Prod.snd).getD i 0 := by rw [hys]
      rw [List.getD_eq_getElem _ _ (by simp; omega),
        List.getD_eq_getElem _ _ (by simpa using hi2)] at h
      simp only [List.getElem_take, List.getElem_map] at h
      rw [List.getD_eq_getElem _ _ (by omega)]; exact h
    simp only [line_pnts.pts, List.getElem_map, List.getElem_range, line_pnts.pt, line_pnts.xi,
      line_pnts.yi, ex, ey]

/-- The space computed by the first loop of `dig_get_poly_points`. -/
theorem count_loop_run (ring : List (line_pnts × Int)) (hring : ∀ p ∈ ring, 1 ≤ p.1.n_points) :
    ∀ k, k ≤ ring.length →
      (List.range k).foldl
        (fun (n : Int) i => n + ((((ring.map Prod.fst).getD i ⟨[], [], 0⟩).n_points : Int) - 1)) 0
      = (parts_len (ring.take k) : Int) := by
  intro k
  induction k with
  | zero => intro _; simp [parts_len]
  | succ k ih =>
    intro hk
    have hlt : k < ring.length := by omega
    have h1 := hring _ (List.getElem_mem hlt)
    rw [List.range_succ, List.foldl_append, ih (by omega), take_succ_of_lt ring k hlt,
      parts_len_append]
    have e : (List.map Prod.fst ring).getD k ⟨[], [], 0⟩ = ring[k].1 := by
      rw [List.getD_eq_getElem _ _ (by simpa using hlt)]; simp
    simp only [List.foldl_cons, List.foldl_nil, e, parts_len, List.map_cons, List.map_nil,
      List.sum_cons, List.sum_nil, add_zero]
    push_cast
    omega

/-- Behaviour of `dig_get_poly_points` on a non-empty list of lines with at least one point
each, when the allocation succeeds and the fuel covers the longest line. -/
theorem dig_get_poly_points_run (avail fuel : Nat) (ring : List (line_pnts × Int))
    (BPoints : line_pnts) (hne : ring ≠ [])
    (hring : ∀ p ∈ ring, 1 ≤ p.1.n_points ∧ p.1.n_points - 1 ≤ fuel)
    (havail : parts_len ring + 1 ≤ avail) :
    ∃ B', dig_get_poly_points avail fuel ring.length (ring.map Prod.fst) (ring.map Prod.snd)
            BPoints = some ((parts_len ring : Int) + 1, B')
      ∧ B'.n_points = parts_len ring + 1 ∧ B'.wf ∧ B'.pts = assembled ring := by
  have hlen : 0 < ring.length := List.length_pos.2 hne
  have hcount := count_loop_run ring (fun p hp => (hring p hp).1) ring.length le_rfl
  rw [List.take_length] at hcount
  set B1 : line_pnts :=
    { x := BPoints.x ++ List.replicate (parts_len ring + 1 - BPoints.x.length) 0,
      y := BPoints.y ++ List.replicate (parts_len ring + 1 - BPoints.y.length) 0,
      n_points := 0 } with hB1
  have hx1 : parts_len ring + 1 ≤ B1.x.length := by simp [hB1]; omega
  have hy1 : parts_len ring + 1 ≤ B1.y.length := by simp [hB1]; omega
  obtain ⟨s, h1, h2, h3, h4, _, h6, h7, h8⟩ :=
    poly_loop_run fuel ring ⟨[], [], 0⟩ 0 B1 hring (by omega) (by omega) ring.length le_rfl
  rw [List.take_length] at h2 h6 h7 h8
  obtain ⟨p, hp⟩ : ∃ p, ring.getLast? = some p := by
    cases h : ring.getLast? with
    | none => exact absurd (List.getLast?_eq_none_iff.1 h) hne
    | some p => exact ⟨p, rfl⟩
  obtain ⟨h9, h10⟩ := h8 p hp
  have hp1 := (hring p (List.mem_of_getLast?_eq_some hp)).1
  have hend : s.Points.pt s.j.toNat = line_end p.1 p.2 := by
    rw [h9, h10, line_end]
    split
    · congr 1; omega
    · rfl
  refine ⟨{ x := s.BPoints.x.set s.point (s.Points.xi s.j.toNat),
            y := s.BPoints.y.set s.point (s.Points.yi s.j.toNat),
            n_points := parts_len ring + 1 }, ?_, rfl, ?_, ?_⟩
  · unfold dig_get_poly_points
    have hn : ¬ ((ring.length : Int) < 1) := by omega
    simp only [hn, if_false, Int.toNat_ofNat, hcount]
    have htn : ((parts_len ring : Int) + 1).toNat = parts_len ring + 1 := by omega
    simp only [dig_alloc_points, htn, if_pos havail, gt_iff_lt, lt_self_iff_false, if_false]
    rw [← hB1, h1]
    simp
  · constructor <;> simp <;> omega
  · apply pts_eq_of_take
    · simp; omega
    · simp; omega
    · show List.take (parts_len ring + 1) (s.BPoints.x.set s.point _) = _
      rw [← h2, take_set_succ _ _ _ (by omega), h6, assembled, hp]
      simp [← hend, line_pnts.pt]
    · show List.take (parts_len ring + 1) (s.BPoints.y.set s.point _) = _
      rw [← h2, take_set_succ _ _ _ (by omega), h7, assembled, hp]
      simp [← hend, line_pnts.pt]

/-! ## Claims on `dig_get_poly_points` -/

theorem described_eq_assembled (LPoints : List line_pnts) (direction : List Int)
    (hdir : ∀ d ∈ direction, d ≠ 0) :
    described_ring LPoints direction = assembled (List.zip LPoints direction) := by
  have hz : ∀ p ∈ List.zip LPoints direction, p.2 ≠ 0 := fun p hp =>
    hdir _ (List.of_mem_zip hp).2
  have hpart : ∀ p ∈ List.zip LPoints direction,
      described_part p.1 p.2 = line_part p.1 p.2 := by
    intro p hp
    have h0 := hz p hp
    unfold described_part line_part
    by_cases h : 0 < p.2
    · simp [h]
    · have h' : p.2 < 0 := by omega
      simp [h, h']
  unfold described_ring assembled
  rw [List.flatMap_congr hpart]
  congr 1
  cases h : (List.zip LPoints direction).getLast? with
  | none => rfl
  | some p =>
    have h0 := hz p (List.mem_of_getLast?_eq_some h)
    simp only [Option.map_some', Option.toList, described_final, line_end]
    by_cases hp : 0 < p.2
    · simp [hp]
    · have h' : p.2 < 0 := by omega
      simp [hp, h']

theorem parts_len_zip (LPoints : List line_pnts) (direction : List Int)
    (hdlen : direction.length = LPoints.length) :
    parts_len (List.zip LPoints direction) = (LPoints.map fun L => L.n_points - 1).sum := by
  unfold parts_len
  have : (List.zip LPoints direction).map (fun p => p.1.n_points - 1)
      = ((List.zip LPoints direction).map Prod.fst).map (fun L => L.n_points - 1) := by
    simp [List.map_map, Function.comp_def]
  rw [this, List.map_fst_zip _ _ (by omega)]

/-- Behaviour of `dig_get_poly_points` stated on the two argument arrays. -/
theorem dig_get_poly_points_lists (avail fuel : Nat) (n_lines : Int) (LPoints : List line_pnts)
    (direction : List Int) (BPoints : line_pnts)
    (hn : 1 ≤ n_lines) (hlen : (LPoints.length : Int) = n_lines)
    (hdlen : direction.length = LPoints.length)
    (hpts : ∀ L ∈ LPoints, 1 ≤ L.n_points)
    (hfuel : ∀ L ∈ LPoints, L.n_points - 1 ≤ fuel)
    (havail : (LPoints.map fun L => L.n_points - 1).sum + 1 ≤ avail) :
    ∃ B', dig_get_poly_points avail fuel n_lines LPoints direction BPoints
            = some ((((LPoints.map fun L => L.n_points - 1).sum : Nat) : Int) + 1, B')
      ∧ B'.n_points = (LPoints.map fun L => L.n_points - 1).sum + 1 ∧ B'.wf
      ∧ B'.pts = assembled (List.zip LPoints direction) := by
  have hne : List.zip LPoints direction ≠ [] := by
    intro h
    have h0 := congrArg List.length h
    rw [List.length_zip, hdlen, min_self, List.length_nil] at h0
    omega
  have hring : ∀ p ∈ List.zip LPoints direction, 1 ≤ p.1.n_points ∧ p.1.n_points - 1 ≤ fuel :=
    fun p hp => ⟨hpts _ (List.of_mem_zip hp).1, hfuel _ (List.of_mem_zip hp).1⟩
  have hpl := parts_len_zip LPoints direction hdlen
  obtain ⟨B', h1, h2, h3, h4⟩ := dig_get_poly_points_run avail fuel (List.zip LPoints direction)
    BPoints hne hring (by omega)
  rw [List.map_fst_zip _ _ (by omega), List.map_snd_zip _ _ (by omega), hpl] at h1
  have hl : ((List.zip LPoints direction).length : Int) = n_lines := by
    rw [List.length_zip, hdlen, min_self, hlen]
  rw [hl] at h1
  exact ⟨B', h1, by omega, h3, h4⟩

/-- C1: for `n_lines ≥ 1`, lines with at least 2 points each and non-zero directions,
`dig_get_poly_points` returns (with an allocator that can provide the space and fuel for the
longest line) and the output points are exactly: for each line in order, its points
`0 .. last-1` when its direction is positive or `last .. 1` in reverse when negative,
followed by one final point, the last point of the last line when its direction is
positive and its point `0` when negative. -/
theorem dig_get_poly_points_output (avail fuel : Nat) (n_lines : Int)
    (LPoints : List line_pnts) (direction : List Int) (BPoints : line_pnts)
    (hn : 1 ≤ n_lines) (hlen : (LPoints.length : Int) = n_lines)
    (hdlen : direction.length = LPoints.length)
    (hpts : ∀ L ∈ LPoints, 2 ≤ L.n_points) (hdir : ∀ d ∈ direction, d ≠ 0)
    (hfuel : ∀ L ∈ LPoints, L.n_points - 1 ≤ fuel)
    (havail : (LPoints.map fun L => L.n_points - 1).sum + 1 ≤ avail) :
    ∃ r B', dig_get_poly_points avail fuel n_lines LPoints direction BPoints = some (r, B')
      ∧ B'.pts = described_ring LPoints direction := by
  obtain ⟨B', h1, _, _, h4⟩ := dig_get_poly_points_lists avail fuel n_lines LPoints direction
    BPoints hn hlen hdlen (fun L hL => by have := hpts L hL; omega) hfuel havail
  exact ⟨_, B', h1, by rw [h4, described_eq_assembled _ _ hdir]⟩

/-- Instance of C1: the two lines of `square_lines` with directions `1, -1` give the closed
unit square. -/
theorem dig_get_poly_points_output_witness :
    ∃ r B', dig_get_poly_points 5 2 2 square_lines [1, -1] ⟨[], [], 0⟩ = some (r, B')
      ∧ B'.pts = [(0, 0), (1, 0), (1, 1), (0, 1), (0, 0)] := by
  obtain ⟨r, B', h1, h2⟩ := dig_get_poly_points_output 5 2 2 square_lines [1, -1] ⟨[], [], 0⟩
    (by decide) (by decide) (by decide) (by decide) (by decide) (by decide) (by decide)
  refine ⟨r, B', h1, ?_⟩
  rw [h2]
  decide

theorem sum_pred_cast (LPoints : List line_pnts) (hpts : ∀ L ∈ LPoints, 1 ≤ L.n_points) :
    (((LPoints.map fun L => L.n_points - 1).sum : Nat) : Int)
      = (LPoints.map fun L => (L.n_points : Int) - 1).sum := by
  induction LPoints with
  | nil => simp
  | cons L Ls ih =>
    have h1 := hpts L (List.mem_cons_self _ _)
    have h2 := ih (fun L' hL' => hpts L' (List.mem_cons_of_mem _ hL'))
    simp only [List.map_cons, List.sum_cons, Nat.cast_add]
    rw [h2]
    omega

/-- C2: for `n_lines ≥ 1` and lines with at least 2 points each, when the allocation
succeeds, `dig_get_poly_points` returns `(Σ (point count - 1)) + 1` and the output's
`n_points` is that same value. -/
theorem dig_get_poly_points_count (avail fuel : Nat) (n_lines : Int)
    (LPoints : List line_pnts) (direction : List Int) (BPoints : line_pnts)
    (hn : 1 ≤ n_lines) (hlen : (LPoints.length : Int) = n_lines)
    (hdlen : direction.length = LPoints.length)
    (hpts : ∀ L ∈ LPoints, 2 ≤ L.n_points)
    (hfuel : ∀ L ∈ LPoints, L.n_points - 1 ≤ fuel)
    (havail : (LPoints.map fun L => L.n_points - 1).sum + 1 ≤ avail) :
    ∃ B', dig_get_poly_points avail fuel n_lines LPoints direction BPoints
            = some ((LPoints.map fun L => (L.n_points : Int) - 1).sum + 1, B')
      ∧ (B'.n_points : Int) = (LPoints.map fun L => (L.n_points : Int) - 1).sum + 1 := by
  have hpts1 : ∀ L ∈ LPoints, 1 ≤ L.n_points := fun L hL => by have := hpts L hL; omega
  obtain ⟨B', h1, h2, _, _⟩ := dig_get_poly_points_lists avail fuel n_lines LPoints direction
    BPoints hn hlen hdlen hpts1 hfuel havail
  rw [sum_pred_cast LPoints hpts1] at h1
  refine ⟨B', h1, ?_⟩
  rw [h2, ← sum_pred_cast LPoints hpts1]
  push_cast
  rfl

/-- Instance of C2: two lines of 3 points give the return value `(3-1) + (3-1) + 1 = 5`. -/
theorem dig_get_poly_points_count_witness :
    ∃ B', dig_get_poly_points 5 2 2 square_lines [1, -1] ⟨[], [], 0⟩ = some (5, B')
      ∧ (B'.n_points : Int) = 5 := by
  obtain ⟨B', h1, h2⟩ := dig_get_poly_points_count 5 2 2 square_lines [1, -1] ⟨[], [], 0⟩
    (by decide) (by decide) (by decide) (by decide) (by decide) (by decide)
  exact ⟨B', h1, h2⟩

theorem pts_head (P : line_pnts) (h : 0 < P.n_points) : P.pts.head? = some (P.pt 0) := by
  unfold line_pnts.pts
  obtain ⟨n, hn⟩ : ∃ n, P.n_points = n + 1 := ⟨P.n_points - 1, by omega⟩
  rw [hn, List.range_succ_eq_map]
  simp

theorem pts_getLast (P : line_pnts) (h : 0 < P.n_points) :
    P.pts.getLast? = some (P.pt (P.n_points - 1)) := by
  unfold line_pnts.pts
  obtain ⟨n, hn⟩ : ∃ n, P.n_points = n + 1 := ⟨P.n_points - 1, by omega⟩
  rw [hn, List.range_succ]
  simp

theorem line_part_head (L : line_pnts) (d : Int) (h : 2 ≤ L.n_points) :
    ∃ t, line_part L d = line_start L d :: t := by
  obtain ⟨n, hn⟩ : ∃ n, L.n_points - 1 = n + 1 := ⟨L.n_points - 2, by omega⟩
  unfold line_part line_start
  rw [hn, List.range_succ_eq_map]
  split <;> simp [← hn]

theorem assembled_head (p : line_pnts × Int) (rest : List (line_pnts × Int))
    (h : 2 ≤ p.1.n_points) : (assembled (p :: rest)).head? = some (line_start p.1 p.2) := by
  obtain ⟨t, ht⟩ := line_part_head p.1 p.2 h
  simp [assembled, ht]

theorem assembled_getLast (ring : List (line_pnts × Int)) (p : line_pnts × Int)
    (h : ring.getLast? = some p) : (assembled ring).getLast? = some (line_end p.1 p.2) := by
  simp [assembled, h]

theorem zip_getLast (LPoints : List line_pnts) (direction : List Int)
    (hdlen : direction.length = LPoints.length) (hpos : 0 < LPoints.length) :
    (List.zip LPoints direction).getLast?
      = some (LPoints.getD (LPoints.length - 1) ⟨[], [], 0⟩,
              direction.getD (LPoints.length - 1) 0) := by
  have hl : (List.zip LPoints direction).length = LPoints.length := by
    rw [List.length_zip, hdlen, min_self]
  rw [List.getLast?_eq_getElem?, hl, List.getElem?_eq_getElem (by omega)]
  rw [List.getD_eq_getElem _ _ (by omega), List.getD_eq_getElem _ _ (by omega)]
  simp [List.getElem_zip]

theorem zip_head (LPoints : List line_pnts) (direction : List Int)
    (hdlen : direction.length = LPoints.length) (hpos : 0 < LPoints.length) :
    ∃ rest, List.zip LPoints direction
      = (LPoints.getD 0 ⟨[], [], 0⟩, direction.getD 0 0) :: rest := by
  cases LPoints with
  | nil => simp at hpos
  | cons L Ls =>
    cases direction with
    | nil => simp at hdlen
    | cons d ds => exact ⟨List.zip Ls ds, by simp⟩

/-- C3: for `n_lines ≥ 1`, lines with at least 2 points each and non-zero directions, when the
end point of the last line under its direction is the start point of the first line under
its direction, the output of `dig_get_poly_points` has its first point equal to its last
point, in `x` and in `y`. -/
theorem dig_get_poly_points_closed (avail fuel : Nat) (n_lines : Int)
    (LPoints : List line_pnts) (direction : List Int) (BPoints : line_pnts)
    (hn : 1 ≤ n_lines) (hlen : (LPoints.length : Int) = n_lines)
    (hdlen : direction.length = LPoints.length)
    (hpts : ∀ L ∈ LPoints, 2 ≤ L.n_points) (_hdir : ∀ d ∈ direction, d ≠ 0)
    (hfuel : ∀ L ∈ LPoints, L.n_points - 1 ≤ fuel)
    (havail : (LPoints.map fun L => L.n_points - 1).sum + 1 ≤ avail)
    (hclosed : line_end (LPoints.getD (n_lines.toNat - 1) ⟨[], [], 0⟩)
                 (direction.getD (n_lines.toNat - 1) 0)
               = line_start (LPoints.getD 0 ⟨[], [], 0⟩) (direction.getD 0 0)) :
    ∃ r B', dig_get_poly_points avail fuel n_lines LPoints direction BPoints = some (r, B')
      ∧ B'.xi 0 = B'.xi (B'.n_points - 1) ∧ B'.yi 0 = B'.yi (B'.n_points - 1) := by
  obtain ⟨B', h1, h2, _, h4⟩ := dig_get_poly_points_lists avail fuel n_lines LPoints direction
    BPoints hn hlen hdlen (fun L hL => by have := hpts L hL; omega) hfuel havail
  have hpos : 0 < LPoints.length := by omega
  have hB : 0 < B'.n_points := by omega
  have hlast := assembled_getLast _ _ (zip_getLast LPoints direction hdlen hpos)
  obtain ⟨rest, hz⟩ := zip_head LPoints direction hdlen hpos
  have hmem : LPoints.getD 0 ⟨[], [], 0⟩ ∈ LPoints := by
    rw [List.getD_eq_getElem _ _ hpos]; exact List.getElem_mem _
  have hhead := assembled_head (LPoints.getD 0 ⟨[], [], 0⟩, direction.getD 0 0) rest
    (hpts _ hmem)
  rw [← hz, ← h4, pts_head B' hB] at hhead
  rw [← h4, pts_getLast B' hB] at hlast
  have hidx : n_lines.toNat - 1 = LPoints.length - 1 := by omega
  rw [hidx] at hclosed
  have heq : B'.pt 0 = B'.pt (B'.n_points - 1) := by
    have a := Option.some.inj hhead
    have b := Option.some.inj hlast
    simp only at a b
    rw [a, b, hclosed]
  exact ⟨_, B', h1, congrArg Prod.fst heq, congrArg Prod.snd heq⟩

/-- Instance of C3: the two lines of `square_lines` with directions `1, -1` close up. -/
theorem dig_get_poly_points_closed_witness :
    ∃ r B', dig_get_poly_points 5 2 2 square_lines [1, -1] ⟨[], [], 0⟩ = some (r, B')
      ∧ B'.xi 0 = B'.xi (B'.n_points - 1) ∧ B'.yi 0 = B'.yi (B'.n_points - 1) :=
  dig_get_poly_points_closed 5 2 2 square_lines [1, -1] ⟨[], [], 0⟩
    (by decide) (by decide) (by decide) (by decide) (by decide) (by decide) (by decide)
    (by decide)

/-! ## Claims on `dig_find_area_poly` -/

theorem foldl_add_range' (f : Nat → ℚ) :
    ∀ (m s : Nat) (a : ℚ),
      (List.range' s m).foldl (fun t i => t + f i) a = a + ∑ i in Finset.range m, f (s + i) := by
  intro m
  induction m with
  | zero => intro s a; simp
  | succ m ih =>
    intro s a
    rw [List.range'_succ, List.foldl_cons, ih, Finset.sum_range_succ']
    simp only [add_zero]
    have : ∀ i, s + 1 + i = s + (i + 1) := fun i => by omega
    simp only [this]
    ring

/-- The value stored by `dig_find_area_poly`, with the loop written as a sum. -/
theorem dig_find_area_poly_sum (P : line_pnts) :
    (dig_find_area_poly P).2
      = 0.5 * (P.yi 0 * (P.xi 1 - P.xi (P.n_points - 1 - 1))
          + ∑ i in Finset.range (P.n_points - 1 - 1),
              P.yi (1 + i) * (P.xi (1 + i + 1) - P.xi (1 + i - 1))) := by
  simp only [dig_find_area_poly]
  rw [foldl_add_range' (fun i => P.yi i * (P.xi (i + 1) - P.xi (i - 1)))]

/-- Summation by parts for the area sum of `dig_find_area_poly`. -/
theorem area_sum_identity (x y : Nat → ℚ) :
    ∀ m : Nat,
      ∑ i in Finset.range (m + 1), (x (i + 1) * y i - x i * y (i + 1))
        = x 1 * y 0 + ∑ i in Finset.range m, y (1 + i) * (x (1 + i + 1) - x (1 + i - 1))
            - x m * y (m + 1) := by
  intro m
  induction m with
  | zero => simp
  | succ m ih =>
    rw [Finset.sum_range_succ, ih, Finset.sum_range_succ]
    have e1 : 1 + m + 1 = m + 1 + 1 := by omega
    have e2 : 1 + m - 1 = m := by omega
    have e3 : 1 + m = m + 1 := by omega
    rw [e1, e2, e3]
    ring

/-- The value stored by `dig_find_area_poly` is the negated shoelace area, for a sequence
of at least 2 points whose first and last `y` agree. -/
theorem area_eq_neg_shoelace (P : line_pnts) (hn : 2 ≤ P.n_points)
    (hy : P.yi 0 = P.yi (P.n_points - 1)) :
    (dig_find_area_poly P).2 = - shoelace_area P := by
  obtain ⟨m, hm⟩ : ∃ m, P.n_points - 1 = m + 1 := ⟨P.n_points - 2, by omega⟩
  have h := area_sum_identity P.xi P.yi m
  rw [dig_find_area_poly_sum, shoelace_area, hm]
  rw [hm] at hy
  have hneg : ∑ i in Finset.range (m + 1), (P.xi i * P.yi (i + 1) - P.xi (i + 1) * P.yi i)
      = - ∑ i in Finset.range (m + 1), (P.xi (i + 1) * P.yi i - P.xi i * P.yi (i + 1)) := by
    rw [← Finset.sum_neg_distrib]
    apply Finset.sum_congr rfl
    intro i _; ring
  rw [hneg, h, ← hy]
  simp only [Nat.add_sub_cancel]
  norm_num
  ring

/-- C4: for a closed ring of `n + 1 ≥ 2` points, `dig_find_area_poly` returns status `0` and
stores `0.5 * (y[0]*(x[1] - x[n-1]) + Σ_{i=1..n-1} y[i]*(x[i+1] - x[i-1]))`; this value is
the negated standard shoelace area `-1/2 * Σ_{i=0..n-1} (x[i]*y[i+1] - x[i+1]*y[i])`, so it
is positive for a clockwise ring and negative for a counterclockwise one. -/
theorem dig_find_area_poly_value (P : line_pnts) (hn : 2 ≤ P.n_points) (hclosed : P.closed) :
    (dig_find_area_poly P).1 = 0
    ∧ (dig_find_area_poly P).2
        = 0.5 * (P.yi 0 * (P.xi 1 - P.xi (P.n_points - 1 - 1))
            + ∑ i in Finset.Ico 1 (P.n_points - 1), P.yi i * (P.xi (i + 1) - P.xi (i - 1)))
    ∧ (dig_find_area_poly P).2
        = -(1 / 2) * ∑ i in Finset.range (P.n_points - 1),
            (P.xi i * P.yi (i + 1) - P.xi (i + 1) * P.yi i)
    ∧ (P.clockwise → 0 < (dig_find_area_poly P).2)
    ∧ (P.counterclockwise → (dig_find_area_poly P).2 < 0) := by
  have hy : P.yi 0 = P.yi (P.n_points - 1) := congrArg Prod.snd hclosed
  have hs := area_eq_neg_shoelace P hn hy
  refine ⟨rfl, ?_, ?_, ?_, ?_⟩
  · rw [dig_find_area_poly_sum, Finset.sum_Ico_eq_sum_range]
  · rw [hs, shoelace_area]; ring
  · intro h; rw [hs]; unfold line_pnts.clockwise at h; linarith
  · intro h; rw [hs]; unfold line_pnts.counterclockwise at h; linarith

/-- Instance of C4: the unit square is closed and counterclockwise, and its stored area
is negative. -/
theorem dig_find_area_poly_value_witness :
    unit_square.closed ∧ (dig_find_area_poly unit_square).1 = 0
      ∧ (unit_square.counterclockwise → (dig_find_area_poly unit_square).2 < 0) :=
  ⟨by decide, (dig_find_area_poly_value unit_square (by decide) (by decide)).1,
    (dig_find_area_poly_value unit_square (by decide) (by decide)).2.2.2.2⟩

theorem reverse_n_points (P : line_pnts) : P.reverse.n_points = P.n_points := rfl

theorem reverse_xi (P : line_pnts) (hwf : P.wf) (i : Nat) (hi : i < P.n_points) :
    P.reverse.xi i = P.xi (P.n_points - 1 - i) := by
  have hl : (P.x.take P.n_points).length = P.n_points := by
    rw [List.length_take]; exact min_eq_left hwf.1
  unfold line_pnts.xi line_pnts.reverse
  rw [List.getD_eq_getElem _ _ (by simp; exact ⟨hi, by have := hwf.1; omega⟩),
    List.getD_eq_getElem _ _ (by have := hwf.1; omega)]
  simp only [List.getElem_reverse, List.getElem_take, hl]

theorem reverse_yi (P : line_pnts) (hwf : P.wf) (i : Nat) (hi : i < P.n_points) :
    P.reverse.yi i = P.yi (P.n_points - 1 - i) := by
  have hl : (P.y.take P.n_points).length = P.n_points := by
    rw [List.length_take]; exact min_eq_left hwf.2
  unfold line_pnts.yi line_pnts.reverse
  rw [List.getD_eq_getElem _ _ (by simp; exact ⟨hi, by have := hwf.2; omega⟩),
    List.getD_eq_getElem _ _ (by have := hwf.2; omega)]
  simp only [List.getElem_reverse, List.getElem_take, hl]

/-- Reversing a sequence negates its shoelace area. -/
theorem shoelace_reverse (P : line_pnts) (hwf : P.wf) :
    shoelace_area P.reverse = - shoelace_area P := by
  unfold shoelace_area
  rw [reverse_n_points]
  rw [← Finset.sum_range_reflect
    (fun j => P.xi j * P.yi (j + 1) - P.xi (j + 1) * P.yi j) (P.n_points - 1)]
  rw [← mul_neg, ← Finset.sum_neg_distrib]
  congr 1
  apply Finset.sum_congr rfl
  intro i hi
  have hi' : i < P.n_points - 1 := Finset.mem_range.1 hi
  rw [reverse_xi P hwf i (by omega), reverse_xi P hwf (i + 1) (by omega),
    reverse_yi P hwf i (by omega), reverse_yi P hwf (i + 1) (by omega)]
  have e1 : P.n_points - 1 - i = P.n_points - 1 - 1 - i + 1 := by omega
  have e2 : P.n_points - 1 - (i + 1) = P.n_points - 1 - 1 - i := by omega
  rw [e1, e2]
  ring

/-- C5: for a closed ring of at least 2 points, the area computed by `dig_find_area_poly` on
the reversed point sequence is the negation of the area computed on the ring. -/
theorem dig_find_area_poly_reverse (P : line_pnts) (hwf : P.wf) (hn : 2 ≤ P.n_points)
    (hclosed : P.closed) :
    (dig_find_area_poly P.reverse).2 = - (dig_find_area_poly P).2 := by
  have hy : P.yi 0 = P.yi (P.n_points - 1) := congrArg Prod.snd hclosed
  have hyr : P.reverse.yi 0 = P.reverse.yi (P.reverse.n_points - 1) := by
    rw [reverse_n_points, reverse_yi P hwf 0 (by omega),
      reverse_yi P hwf (P.n_points - 1) (by omega)]
    simp only [Nat.sub_zero, Nat.sub_self]
    exact hy.symm
  rw [area_eq_neg_shoelace P hn hy, area_eq_neg_shoelace P.reverse hn hyr,
    shoelace_reverse P hwf]

/-- Instance of C5: the unit square and its reverse have areas `-1` and `1`. -/
theorem dig_find_area_poly_reverse_witness :
    (dig_find_area_poly unit_square).2 = -1
      ∧ (dig_find_area_poly unit_square.reverse).2 = - (dig_find_area_poly unit_square).2 :=
  ⟨by norm_num [dig_find_area_poly, unit_square, line_pnts.ofList, line_pnts.xi, line_pnts.yi,
      List.range'],
    dig_find_area_poly_reverse unit_square (by decide) (by decide) (by decide)⟩

/-! ## The neighbour scans of `dig_find_poly_orientation` -/

theorem pt_ne_iff (P : line_pnts) (i cur : Nat) :
    P.pt i ≠ P.pt cur ↔ ¬ (P.xi cur = P.xi i ∧ P.yi cur = P.yi i) := by
  unfold line_pnts.pt
  rw [Ne, Prod.mk.injEq]
  constructor
  · rintro h ⟨h1, h2⟩; exact h ⟨h1.symm, h2.symm⟩
  · rintro h ⟨h1, h2⟩; exact h ⟨h1.symm, h2.symm⟩

theorem next_index (lp q : Nat) (hq : q < lp) :
    (if q < lp - 1 then q + 1 else 0) = (q + 1) % lp := by
  split
  · rw [Nat.mod_eq_of_lt (by omega)]
  · have : q + 1 = lp := by omega
    rw [this, Nat.mod_self]

theorem prev_index (lp a : Nat) (h1 : 1 ≤ a) (h2 : a < 2 * lp) :
    (if a % lp > 0 then a % lp - 1 else lp - 1) = (a - 1) % lp := by
  rcases Nat.lt_trichotomy a lp with h | h | h
  · rw [Nat.mod_eq_of_lt h, Nat.mod_eq_of_lt (by omega), if_pos (by omega)]
  · subst h
    rw [Nat.mod_self, if_neg (by omega), Nat.mod_eq_of_lt (by omega)]
  · have e1 : a % lp = a - lp := by
      rw [Nat.mod_eq_sub_mod (by omega), Nat.mod_eq_of_lt (by omega)]
    have e2 : (a - 1) % lp = a - 1 - lp := by
      rw [Nat.mod_eq_sub_mod (by omega), Nat.mod_eq_of_lt (by omega)]
    rw [e1, e2, if_pos (by omega)]
    omega

/-- The forward scan entered at offset `j` from `cur` returns the first distinct index among
the offsets `j+1 .. lastpoint-1`, or `cur`. -/
theorem find_next_from (P : line_pnts) (lp cur : Nat) (hcur : cur < lp) :
    ∀ (r j fuel : Nat), j + r = lp - 1 → r + 1 ≤ fuel →
      find_next P lp cur fuel ((cur + j) % lp)
        = some ((((List.range' (j + 1) r).map fun k => (cur + k) % lp).find?
            fun i => decide (P.pt i ≠ P.pt cur)).getD cur) := by
  intro r
  induction r with
  | zero =>
    intro j fuel hj hf
    obtain ⟨fuel, rfl⟩ : ∃ f, fuel = f + 1 := ⟨fuel - 1, by omega⟩
    have hnext : (if (cur + j) % lp < lp - 1 then (cur + j) % lp + 1 else 0) = cur := by
      rw [next_index lp _ (Nat.mod_lt _ (by omega)), Nat.mod_add_mod]
      have : cur + j + 1 = cur + lp := by omega
      rw [this, Nat.add_mod_right, Nat.mod_eq_of_lt hcur]
    simp [find_next, hnext]
  | succ r ih =>
    intro j fuel hj hf
    obtain ⟨fuel, rfl⟩ : ∃ f, fuel = f + 1 := ⟨fuel - 1, by omega⟩
    have hnext : (if (cur + j) % lp < lp - 1 then (cur + j) % lp + 1 else 0)
        = (cur + (j + 1)) % lp := by
      rw [next_index lp _ (Nat.mod_lt _ (by omega)), Nat.mod_add_mod]; rfl
    have hne : (cur + (j + 1)) % lp ≠ cur := by
      intro h
      rcases Nat.lt_or_ge (cur + (j + 1)) lp with h' | h'
      · rw [Nat.mod_eq_of_lt h'] at h; omega
      · rw [Nat.mod_eq_sub_mod h', Nat.mod_eq_of_lt (by omega)] at h; omega
    rw [find_next]
    simp only [hnext]
    rw [List.range'_succ, List.map_cons, List.find?_cons]
    by_cases hsame : P.xi cur = P.xi ((cur + (j + 1)) % lp) ∧ P.yi cur = P.yi ((cur + (j + 1)) % lp)
    · have hd : decide (P.pt ((cur + (j + 1)) % lp) ≠ P.pt cur) = false := by
        rw [decide_eq_false_iff_not, pt_ne_iff]; exact not_not.2 hsame
      rw [if_pos ⟨hne, hsame⟩, hd, ih (j + 1) fuel (by omega) (by omega)]
    · have hd : decide (P.pt ((cur + (j + 1)) % lp) ≠ P.pt cur) = true := by
        rw [decide_eq_true_iff, pt_ne_iff]; exact hsame
      rw [if_neg (fun h => hsame h.2), hd]
      rfl

/-- With `lastpoint` units of fuel the forward scan of the source returns the first distinct
index after `cur`. -/
theorem find_next_eq (P : line_pnts) (lp cur fuel : Nat) (hcur : cur < lp) (hf : lp ≤ fuel) :
    find_next P lp cur fuel cur = some (first_distinct_after P lp cur) := by
  have h := find_next_from P lp cur hcur (lp - 1) 0 fuel (by omega) (by omega)
  rw [Nat.add_zero, Nat.mod_eq_of_lt hcur] at h
  rw [h, first_distinct_after, Nat.zero_add, List.range'_eq_map_range]
  simp only [List.map_map, Function.comp_def, Nat.add_assoc]

/-- The backward scan entered at offset `j` before `cur` returns the first distinct index
among the offsets `j+1 .. lastpoint-1` before `cur`, or `cur`. -/
theorem find_prev_from (P : line_pnts) (lp cur : Nat) (hcur : cur < lp) :
    ∀ (r j fuel : Nat), j + r = lp - 1 → r + 1 ≤ fuel →
      find_prev P lp cur fuel ((cur + lp - j) % lp)
        = some ((((List.range' (j + 1) r).map fun k => (cur + lp - k) % lp).find?
            fun i => decide (P.pt i ≠ P.pt cur)).getD cur) := by
  intro r
  induction r with
  | zero =>
    intro j fuel hj hf
    obtain ⟨fuel, rfl⟩ : ∃ f, fuel = f + 1 := ⟨fuel - 1, by omega⟩
    have hprev : (if (cur + lp - j) % lp > 0 then (cur + lp - j) % lp - 1 else lp - 1) = cur := by
      rw [prev_index lp _ (by omega) (by omega)]
      have : cur + lp - j - 1 = cur := by omega
      rw [this, Nat.mod_eq_of_lt hcur]
    simp [find_prev, hprev]
  | succ r ih =>
    intro j fuel hj hf
    obtain ⟨fuel, rfl⟩ : ∃ f, fuel = f + 1 := ⟨fuel - 1, by omega⟩
    have hprev : (if (cur + lp - j) % lp > 0 then (cur + lp - j) % lp - 1 else lp - 1)
        = (cur + lp - (j + 1)) % lp := by
      rw [prev_index lp _ (by omega) (by omega)]; rfl
    have hne : (cur + lp - (j + 1)) % lp ≠ cur := by
      intro h
      rcases Nat.lt_or_ge (cur + lp - (j + 1)) lp with h' | h'
      · rw [Nat.mod_eq_of_lt h'] at h; omega
      · rw [Nat.mod_eq_sub_mod h', Nat.mod_eq_of_lt (by omega)] at h; omega
    rw [find_prev]
    simp only [hprev]
    rw [List.range'_succ, List.map_cons, List.find?_cons]
    by_cases hsame : P.xi cur = P.xi ((cur + lp - (j + 1)) % lp)
        ∧ P.yi cur = P.yi ((cur + lp - (j + 1)) % lp)
    · have hd : decide (P.pt ((cur + lp - (j + 1)) % lp) ≠ P.pt cur) = false := by
        rw [decide_eq_false_iff_not, pt_ne_iff]; exact not_not.2 hsame
      rw [if_pos ⟨hne, hsame⟩, hd, ih (j + 1) fuel (by omega) (by omega)]
    · have hd : decide (P.pt ((cur + lp - (j + 1)) % lp) ≠ P.pt cur) = true := by
        rw [decide_eq_true_iff, pt_ne_iff]; exact hsame
      rw [if_neg (fun h => hsame h.2), hd]
      rfl

/-- With `lastpoint` units of fuel the backward scan of the source returns the first
distinct index before `cur`. -/
theorem find_prev_eq (P : line_pnts) (lp cur fuel : Nat) (hcur : cur < lp) (hf : lp ≤ fuel) :
    find_prev P lp cur fuel cur = some (first_distinct_before P lp cur) := by
  have h := find_prev_from P lp cur hcur (lp - 1) 0 fuel (by omega) (by omega)
  rw [Nat.sub_zero, Nat.add_mod_right, Nat.mod_eq_of_lt hcur] at h
  rw [h, first_distinct_before, Nat.zero_add, List.range'_eq_map_range]
  simp only [List.map_map, Function.comp_def, Nat.sub_sub]

/-- The index found by the forward search is below `lastpoint`. -/
theorem first_distinct_after_lt (P : line_pnts) (lp cur : Nat) (hcur : cur < lp) :
    first_distinct_after P lp cur < lp := by
  unfold first_distinct_after
  cases h : ((List.range (lp - 1)).map fun k => (cur + 1 + k) % lp).find?
      fun i => decide (P.pt i ≠ P.pt cur) with
  | none => simpa using hcur
  | some i =>
    have hm := List.mem_of_find?_eq_some h
    simp only [List.mem_map] at hm
    obtain ⟨k, _, rfl⟩ := hm
    simpa using Nat.mod_lt _ (by omega)

/-- The index found by the backward search is below `lastpoint`. -/
theorem first_distinct_before_lt (P : line_pnts) (lp cur : Nat) (hcur : cur < lp) :
    first_distinct_before P lp cur < lp := by
  unfold first_distinct_before
  cases h : ((List.range (lp - 1)).map fun k => (cur + lp - 1 - k) % lp).find?
      fun i => decide (P.pt i ≠ P.pt cur) with
  | none => simpa using hcur
  | some i =>
    have hm := List.mem_of_find?_eq_some h
    simp only [List.mem_map] at hm
    obtain ⟨k, _, rfl⟩ := hm
    simpa using Nat.mod_lt _ (by omega)

/-- Each block of the source after its selection loop, with enough fuel. -/
theorem orientation_at_eq (P : line_pnts) (lp cur fuel : Nat) (hcur : cur < lp)
    (hf : lp ≤ fuel) :
    orientation_at fuel P lp cur
      = some (vertex_cross P (first_distinct_before P lp cur) cur
          (first_distinct_after P lp cur)) := by
  unfold orientation_at
  rw [find_next_eq P lp cur fuel hcur hf, find_prev_eq P lp cur fuel hcur hf]

/-! ## The selection loops of `dig_find_poly_orientation` -/

/-- A selection loop whose body keeps `pcur` exactly when the candidate's key is smaller
ends on the last index of greatest key. -/
theorem select_vertex_key {α : Type} [LinearOrder α] (key : Nat → α) (step : Nat → Nat → Nat)
    (hstep : ∀ c k, step c k = if key k < key c then c else k) :
    ∀ m : Nat,
      (List.range' 1 m).foldl step 0 ≤ m
      ∧ (∀ i, i ≤ m → key i ≤ key ((List.range' 1 m).foldl step 0))
      ∧ (∀ i, (List.range' 1 m).foldl step 0 < i → i ≤ m →
          key i < key ((List.range' 1 m).foldl step 0)) := by
  intro m
  induction m with
  | zero =>
    refine ⟨by simp, ?_, ?_⟩
    · intro i hi
      have : i = 0 := by omega
      subst this; simp
    · intro i h1 h2
      simp at h1; omega
  | succ m ih =>
    obtain ⟨h1, h2, h3⟩ := ih
    rw [List.range'_concat, Nat.one_mul, List.foldl_append, List.foldl_cons, List.foldl_nil, hstep]
    by_cases hlt : key (1 + m) < key ((List.range' 1 m).foldl step 0)
    · rw [if_pos hlt]
      refine ⟨by omega, ?_, ?_⟩
      · intro i hi
        rcases Nat.lt_or_ge i (m + 1) with h | h
        · exact h2 i (by omega)
        · have : i = 1 + m := by omega
          subst this; exact le_of_lt hlt
      · intro i hi1 hi2
        rcases Nat.lt_or_ge i (m + 1) with h | h
        · exact h3 i hi1 (by omega)
        · have : i = 1 + m := by omega
          subst this; exact hlt
    · rw [if_neg hlt]
      refine ⟨by omega, ?_, ?_⟩
      · intro i hi
        rcases Nat.lt_or_ge i (m + 1) with h | h
        · exact le_trans (h2 i (by omega)) (not_lt.1 hlt)
        · have : i = 1 + m := by omega
          subst this; exact le_rfl
      · intro i hi1 hi2
        omega

theorem ite_lex (a1 a2 b1 b2 : ℚ) (c k : Nat) :
    (if toLex (a1, a2) < toLex (b1, b2) then c else k)
      = if a1 < b1 then c else if a1 = b1 then (if a2 < b2 then c else k) else k := by
  have hiff : toLex (a1, a2) < toLex (b1, b2) ↔ (a1 < b1 ∨ a1 = b1 ∧ a2 < b2) :=
    Prod.Lex.lt_iff _ _
  by_cases h1 : a1 < b1
  · rw [if_pos (hiff.2 (Or.inl h1)), if_pos h1]
  · by_cases h2 : a1 = b1
    · by_cases h3 : a2 < b2
      · rw [if_pos (hiff.2 (Or.inr ⟨h2, h3⟩)), if_neg h1, if_pos h2, if_pos h3]
      · rw [if_neg (fun h => (hiff.1 h).elim h1 (fun h' => h3 h'.2)), if_neg h1, if_pos h2,
          if_neg h3]
    · rw [if_neg (fun h => (hiff.1 h).elim h1 (fun h' => h2 h'.1)), if_neg h1, if_neg h2]

theorem leftmost_highest_key (P : line_pnts) (c k : Nat) :
    leftmost_highest_step P c k
      = if toLex (P.yi k, - P.xi k) < toLex (P.yi c, - P.xi c) then c else k := by
  rw [ite_lex]
  simp only [leftmost_highest_step, neg_lt_neg_iff, gt_iff_lt]

theorem rightmost_highest_key (P : line_pnts) (c k : Nat) :
    rightmost_highest_step P c k
      = if toLex (P.yi k, P.xi k) < toLex (P.yi c, P.xi c) then c else k := by
  rw [ite_lex]
  simp only [rightmost_highest_step]

theorem leftmost_lowest_key (P : line_pnts) (c k : Nat) :
    leftmost_lowest_step P c k
      = if toLex (- P.yi k, - P.xi k) < toLex (- P.yi c, - P.xi c) then c else k := by
  rw [ite_lex]
  simp only [leftmost_lowest_step, neg_lt_neg_iff, gt_iff_lt, neg_inj]

theorem rightmost_lowest_key (P : line_pnts) (c k : Nat) :
    rightmost_lowest_step P c k
      = if toLex (- P.yi k, P.xi k) < toLex (- P.yi c, P.xi c) then c else k := by
  rw [ite_lex]
  simp only [rightmost_lowest_step, neg_lt_neg_iff, gt_iff_lt, neg_inj]

/-- A selection loop whose body returns one of its two arguments ends below `lastpoint`. -/
theorem select_vertex_lt (step : Nat → Nat → Nat)
    (hstep : ∀ c k, step c k = c ∨ step c k = k) (lp : Nat) (hlp : 1 ≤ lp) :
    select_vertex step lp < lp := by
  unfold select_vertex
  have h : ∀ m, (List.range' 1 m).foldl step 0 ≤ m := by
    intro m
    induction m with
    | zero => simp
    | succ m ih =>
      rw [List.range'_concat, Nat.one_mul, List.foldl_append, List.foldl_cons, List.foldl_nil]
      rcases hstep ((List.range' 1 m).foldl step 0) (1 + m) with h | h <;> rw [h] <;> omega
  have := h (lp - 1)
  omega

/-! ## Claims on `dig_find_poly_orientation` -/

theorem select_leftmost_highest (P : line_pnts) (lp : Nat) :
    select_vertex (leftmost_highest_step P) lp = leftmost_highest.select P lp := by
  unfold select_vertex strategy.select
  congr 1
  funext cur cand
  simp only [leftmost_highest_step, leftmost_highest, decide_eq_true_eq, gt_iff_lt]
  by_cases h1 : P.yi cand < P.yi cur
  · simp [h1]
  · by_cases h2 : P.yi cand = P.yi cur <;> by_cases h3 : P.xi cur < P.xi cand <;>
      simp [h1, h2, h3]

theorem select_rightmost_highest (P : line_pnts) (lp : Nat) :
    select_vertex (rightmost_highest_step P) lp = rightmost_highest.select P lp := by
  unfold select_vertex strategy.select
  congr 1
  funext cur cand
  simp only [rightmost_highest_step, rightmost_highest, decide_eq_true_eq, gt_iff_lt]
  by_cases h1 : P.yi cand < P.yi cur
  · simp [h1]
  · by_cases h2 : P.yi cand = P.yi cur <;> by_cases h3 : P.xi cand < P.xi cur <;>
      simp [h1, h2, h3]

theorem select_leftmost_lowest (P : line_pnts) (lp : Nat) :
    select_vertex (leftmost_lowest_step P) lp = leftmost_lowest.select P lp := by
  unfold select_vertex strategy.select
  congr 1
  funext cur cand
  simp only [leftmost_lowest_step, leftmost_lowest, decide_eq_true_eq, gt_iff_lt]
  by_cases h1 : P.yi cur < P.yi cand
  · simp [h1]
  · by_cases h2 : P.yi cand = P.yi cur <;> by_cases h3 : P.xi cur < P.xi cand <;>
      simp [h1, h2, h3]

theorem select_rightmost_lowest (P : line_pnts) (lp : Nat) :
    select_vertex (rightmost_lowest_step P) lp = rightmost_lowest.select P lp := by
  unfold select_vertex strategy.select
  congr 1
  funext cur cand
  simp only [rightmost_lowest_step, rightmost_lowest, decide_eq_true_eq, gt_iff_lt]
  by_cases h1 : P.yi cur < P.yi cand
  · simp [h1]
  · by_cases h2 : P.yi cand = P.yi cur <;> by_cases h3 : P.xi cand < P.xi cur <;>
      simp [h1, h2, h3]

theorem leftmost_highest_lt (P : line_pnts) (lp : Nat) (hlp : 1 ≤ lp) :
    select_vertex (leftmost_highest_step P) lp < lp :=
  select_vertex_lt _ (fun c k => by unfold leftmost_highest_step; split_ifs <;> simp) lp hlp

theorem rightmost_highest_lt (P : line_pnts) (lp : Nat) (hlp : 1 ≤ lp) :
    select_vertex (rightmost_highest_step P) lp < lp :=
  select_vertex_lt _ (fun c k => by unfold rightmost_highest_step; split_ifs <;> simp) lp hlp

theorem leftmost_lowest_lt (P : line_pnts) (lp : Nat) (hlp : 1 ≤ lp) :
    select_vertex (leftmost_lowest_step P) lp < lp :=
  select_vertex_lt _ (fun c k => by unfold leftmost_lowest_step; split_ifs <;> simp) lp hlp

theorem rightmost_lowest_lt (P : line_pnts) (lp : Nat) (hlp : 1 ≤ lp) :
    select_vertex (rightmost_lowest_step P) lp < lp :=
  select_vertex_lt _ (fun c k => by unfold rightmost_lowest_step; split_ifs <;> simp) lp hlp

/-- The four blocks of the source compute the crosses of the four strategies. -/
theorem blocks_eq_cross (fuel : Nat) (P : line_pnts) (hn : 2 ≤ P.n_points)
    (hf : P.n_points - 1 ≤ fuel) :
    orientation_at fuel P (P.n_points - 1)
        (select_vertex (leftmost_highest_step P) (P.n_points - 1))
      = some (leftmost_highest.cross P)
    ∧ orientation_at fuel P (P.n_points - 1)
        (select_vertex (rightmost_highest_step P) (P.n_points - 1))
      = some (rightmost_highest.cross P)
    ∧ orientation_at fuel P (P.n_points - 1)
        (select_vertex (leftmost_lowest_step P) (P.n_points - 1))
      = some (leftmost_lowest.cross P)
    ∧ orientation_at fuel P (P.n_points - 1)
        (select_vertex (rightmost_lowest_step P) (P.n_points - 1))
      = some (rightmost_lowest.cross P) := by
  have hlp : 1 ≤ P.n_points - 1 := by omega
  refine ⟨?_, ?_, ?_, ?_⟩
  · rw [orientation_at_eq P _ _ fuel (leftmost_highest_lt P _ hlp) hf, select_leftmost_highest]
    rfl
  · rw [orientation_at_eq P _ _ fuel (rightmost_highest_lt P _ hlp) hf,
      select_rightmost_highest]
    rfl
  · rw [orientation_at_eq P _ _ fuel (leftmost_lowest_lt P _ hlp) hf, select_leftmost_lowest]
    rfl
  · rw [orientation_at_eq P _ _ fuel (rightmost_lowest_lt P _ hlp) hf, select_rightmost_lowest]
    rfl

/-- The source function in terms of the four crosses. -/
theorem dig_find_poly_orientation_cases (fuel : Nat) (P : line_pnts) (hn : 2 ≤ P.n_points)
    (hf : P.n_points - 1 ≤ fuel) :
    dig_find_poly_orientation fuel P
      = some (if leftmost_highest.cross P ≠ 0 then leftmost_highest.cross P
              else if rightmost_highest.cross P ≠ 0 then rightmost_highest.cross P
              else if leftmost_lowest.cross P ≠ 0 then leftmost_lowest.cross P
              else rightmost_lowest.cross P) := by
  obtain ⟨h1, h2, h3, h4⟩ := blocks_eq_cross fuel P hn hf
  unfold dig_find_poly_orientation
  simp only [h1, h2, h3, h4]
  split_ifs <;> rfl

theorem orientation_reference_cases (P : line_pnts) :
    orientation_reference P
      = (if leftmost_highest.cross P ≠ 0 then leftmost_highest.cross P
         else if rightmost_highest.cross P ≠ 0 then rightmost_highest.cross P
         else if leftmost_lowest.cross P ≠ 0 then leftmost_lowest.cross P
         else rightmost_lowest.cross P) := by
  unfold orientation_reference strategies
  simp only [List.map_cons, List.map_nil, List.find?_cons, List.find?_nil]
  by_cases h1 : leftmost_highest.cross P = 0
  · by_cases h2 : rightmost_highest.cross P = 0
    · by_cases h3 : leftmost_lowest.cross P = 0
      · by_cases h4 : rightmost_lowest.cross P = 0 <;> simp [h1, h2, h3, h4]
      · simp [h1, h2, h3]
    · simp [h1, h2]
  · simp [h1]

/-- C7: for a ring of at least 2 points, `dig_find_poly_orientation` (with fuel for the
neighbour scans) returns the reference evaluation of the ordered list of four strategies
(leftmost-highest, rightmost-highest, leftmost-lowest, rightmost-lowest), each computing the
cross at its extremal vertex with the first distinct neighbours: the result is the cross
of the first strategy whose cross is non-zero, and it is `0` exactly when all four crosses
are `0`. -/
theorem dig_find_poly_orientation_refines (fuel : Nat) (P : line_pnts) (hn : 2 ≤ P.n_points)
    (hf : P.n_points - 1 ≤ fuel) :
    dig_find_poly_orientation fuel P = some (orientation_reference P)
    ∧ (∀ pre s post, strategies = pre ++ s :: post → (∀ t ∈ pre, t.cross P = 0) →
        s.cross P ≠ 0 → dig_find_poly_orientation fuel P = some (s.cross P))
    ∧ (dig_find_poly_orientation fuel P = some 0 ↔ ∀ s ∈ strategies, s.cross P = 0) := by
  have hc := dig_find_poly_orientation_cases fuel P hn hf
  refine ⟨by rw [hc, orientation_reference_cases], ?_, ?_⟩
  · intro pre s post hsplit hpre hs
    rw [hc]
    unfold strategies at hsplit
    rcases pre with _ | ⟨a, _ | ⟨b, _ | ⟨c, _ | ⟨d, pre⟩⟩⟩⟩
    · simp only [List.nil_append, List.cons.injEq] at hsplit
      rw [← hsplit.1] at hs ⊢
      rw [if_pos hs]
    · simp only [List.cons_append, List.nil_append, List.cons.injEq] at hsplit
      have ha := hpre a (by simp)
      rw [← hsplit.1] at ha
      rw [← hsplit.2.1] at hs ⊢
      rw [if_neg (not_not.2 ha), if_pos hs]
    · simp only [List.cons_append, List.nil_append, List.cons.injEq] at hsplit
      have ha := hpre a (by simp)
      have hb := hpre b (by simp)
      rw [← hsplit.1] at ha
      rw [← hsplit.2.1] at hb
      rw [← hsplit.2.2.1] at hs ⊢
      rw [if_neg (not_not.2 ha), if_neg (not_not.2 hb), if_pos hs]
    · simp only [List.cons_append, List.nil_append, List.cons.injEq] at hsplit
      have ha := hpre a (by simp)
      have hb := hpre b (by simp)
      have hc' := hpre c (by simp)
      rw [← hsplit.1] at ha
      rw [← hsplit.2.1] at hb
      rw [← hsplit.2.2.1] at hc'
      rw [← hsplit.2.2.2.1] at hs ⊢
      rw [if_neg (not_not.2 ha), if_neg (not_not.2 hb), if_neg (not_not.2 hc')]
    · simp at hsplit
  · rw [hc]
    simp only [strategies, List.mem_cons, List.mem_singleton, forall_eq_or_imp, forall_eq,
      Option.some.injEq, List.not_mem_nil, false_implies, implies_true, and_true]
    constructor
    · intro h
      split_ifs at h with h1 h2 h3
      · exact absurd h h1
      · exact absurd h h2
      · exact absurd h h3
      · exact ⟨not_not.1 h1, not_not.1 h2, not_not.1 h3, h⟩
    · rintro ⟨h1, h2, h3, h4⟩
      simp [h1, h2, h3, h4]

theorem triangle_dup_cross : leftmost_highest.cross triangle_dup = 1 := by
  have h1 : leftmost_highest.select triangle_dup 4 = 1 := by decide
  have h2 : first_distinct_after triangle_dup 4 1 = 2 := by decide
  have h3 : first_distinct_before triangle_dup 4 1 = 3 := by decide
  simp only [strategy.cross, show triangle_dup.n_points - 1 = 4 from rfl, h1, h2, h3]
  norm_num [triangle_dup, line_pnts.ofList, line_pnts.xi, line_pnts.yi]

/-- Instance of C7: on the triangle ring with a duplicated vertex the first strategy already
gives a non-zero cross, which is the value returned. -/
theorem dig_find_poly_orientation_refines_witness :
    dig_find_poly_orientation 4 triangle_dup = some (orientation_reference triangle_dup)
      ∧ dig_find_poly_orientation 4 triangle_dup = some 1 := by
  have h := dig_find_poly_orientation_refines 4 triangle_dup (by decide) (by decide)
  refine ⟨h.1, ?_⟩
  have h2 := h.2.1 [] leftmost_highest _ rfl (by simp) (by rw [triangle_dup_cross]; norm_num)
  rw [h2, triangle_dup_cross]

theorem vertex_cross_same (P : line_pnts) (a b c : Nat) (h1 : P.pt a = P.pt b)
    (h2 : P.pt c = P.pt b) : vertex_cross P a b c = 0 := by
  have hx1 : P.xi a = P.xi b := congrArg Prod.fst h1
  have hy1 : P.yi a = P.yi b := congrArg Prod.snd h1
  have hx2 : P.xi c = P.xi b := congrArg Prod.fst h2
  have hy2 : P.yi c = P.yi b := congrArg Prod.snd h2
  unfold vertex_cross
  rw [hx1, hy1, hx2, hy2]
  ring

theorem orientation_at_same (fuel : Nat) (P : line_pnts) (cur : Nat)
    (hcur : cur < P.n_points - 1) (hf : P.n_points - 1 ≤ fuel)
    (hall : ∀ i, i < P.n_points → P.pt i = P.pt 0) :
    orientation_at fuel P (P.n_points - 1) cur = some 0 := by
  rw [orientation_at_eq P _ _ fuel hcur hf]
  have hb := first_distinct_before_lt P (P.n_points - 1) cur hcur
  have ha := first_distinct_after_lt P (P.n_points - 1) cur hcur
  rw [vertex_cross_same P _ _ _
    ((hall _ (by omega)).trans (hall cur (by omega)).symm)
    ((hall _ (by omega)).trans (hall cur (by omega)).symm)]

/-- C9: for a ring of at least 2 points whose points all have the same coordinates,
`dig_find_area_poly` stores `0`, each of the four blocks of `dig_find_poly_orientation`
yields a zero cross product, and the function returns `0`. -/
theorem all_points_identical (fuel : Nat) (P : line_pnts) (hn : 2 ≤ P.n_points)
    (hf : P.n_points - 1 ≤ fuel) (hall : ∀ i, i < P.n_points → P.pt i = P.pt 0) :
    (dig_find_area_poly P).2 = 0
    ∧ dig_find_poly_orientation fuel P = some 0
    ∧ orientation_at fuel P (P.n_points - 1)
        (select_vertex (leftmost_highest_step P) (P.n_points - 1)) = some 0
    ∧ orientation_at fuel P (P.n_points - 1)
        (select_vertex (rightmost_highest_step P) (P.n_points - 1)) = some 0
    ∧ orientation_at fuel P (P.n_points - 1)
        (select_vertex (leftmost_lowest_step P) (P.n_points - 1)) = some 0
    ∧ orientation_at fuel P (P.n_points - 1)
        (select_vertex (rightmost_lowest_step P) (P.n_points - 1)) = some 0 := by
  have hlp : 1 ≤ P.n_points - 1 := by omega
  have hx : ∀ i, i < P.n_points → P.xi i = P.xi 0 := fun i hi => congrArg Prod.fst (hall i hi)
  have h1 := orientation_at_same fuel P _ (leftmost_highest_lt P _ hlp) hf hall
  have h2 := orientation_at_same fuel P _ (rightmost_highest_lt P _ hlp) hf hall
  have h3 := orientation_at_same fuel P _ (leftmost_lowest_lt P _ hlp) hf hall
  have h4 := orientation_at_same fuel P _ (rightmost_lowest_lt P _ hlp) hf hall
  refine ⟨?_, ?_, h1, h2, h3, h4⟩
  · rw [dig_find_area_poly_sum, hx 1 (by omega), hx (P.n_points - 1 - 1) (by omega)]
    rw [Finset.sum_eq_zero]
    · simp
    · intro i hi
      have hi' : i < P.n_points - 1 - 1 := Finset.mem_range.1 hi
      rw [hx (1 + i + 1) (by omega), hx (1 + i - 1) (by omega)]
      simp
  · unfold dig_find_poly_orientation
    simp only [h1, h2, h3, h4]
    simp

/-- A ring of four copies of the point `(2,1)`. -/
theorem all_points_identical_witness :
    (dig_find_area_poly (line_pnts.ofList [(2, 1), (2, 1), (2, 1), (2, 1)])).2 = 0
      ∧ dig_find_poly_orientation 3 (line_pnts.ofList [(2, 1), (2, 1), (2, 1), (2, 1)])
          = some 0 :=
  have h := all_points_identical 3 (line_pnts.ofList [(2, 1), (2, 1), (2, 1), (2, 1)])
    (by decide) (by decide) (by decide)
  ⟨h.1, h.2.1⟩

/-- What `select_vertex_key` gives for a lexicographic key `(u, v)`. -/
theorem select_vertex_lex (u v : Nat → ℚ) (step : Nat → Nat → Nat)
    (hstep : ∀ c k, step c k = if toLex (u k, v k) < toLex (u c, v c) then c else k)
    (lp : Nat) (hlp : 1 ≤ lp) :
    last_attaining
      (fun i => ∀ k, k < lp → u k ≤ u i ∧ (u k = u i → v k ≤ v i)) lp (select_vertex step lp) := by
  obtain ⟨h1, h2, h3⟩ := select_vertex_key (fun i => toLex (u i, v i)) step hstep (lp - 1)
  refine ⟨by unfold select_vertex; omega, ?_, ?_⟩
  · intro k hk
    have h := h2 k (by omega)
    rw [Prod.Lex.le_iff] at h
    rcases h with h | ⟨h, h'⟩
    · exact ⟨le_of_lt h, fun e => absurd e (ne_of_lt h)⟩
    · exact ⟨le_of_eq h, fun _ => h'⟩
  · intro i hi hatt
    by_contra hlt
    have h := h3 i (by unfold select_vertex at hlt; omega) (by omega)
    rw [Prod.Lex.lt_iff] at h
    have hc := hatt (select_vertex step lp) (by unfold select_vertex; omega)
    unfold select_vertex at hc
    rcases h with h | ⟨h, h'⟩
    · exact absurd hc.1 (not_le.2 h)
    · exact absurd (hc.2 h.symm) (not_le.2 h')

/-- C10 (amended): in each of the four selection loops of `dig_find_poly_orientation`, for a
ring of at least 2 points, the selected index is the largest index in `[0, n_points-1)`
whose point attains the strategy's extreme: of several vertices with the extreme
coordinates the one with the highest index is chosen. -/
theorem select_vertex_last_wins (P : line_pnts) (hn : 2 ≤ P.n_points) :
    last_attaining (attains_leftmost_highest P (P.n_points - 1)) (P.n_points - 1)
      (select_vertex (leftmost_highest_step P) (P.n_points - 1))
    ∧ last_attaining (attains_rightmost_highest P (P.n_points - 1)) (P.n_points - 1)
      (select_vertex (rightmost_highest_step P) (P.n_points - 1))
    ∧ last_attaining (attains_leftmost_lowest P (P.n_points - 1)) (P.n_points - 1)
      (select_vertex (leftmost_lowest_step P) (P.n_points - 1))
    ∧ last_attaining (attains_rightmost_lowest P (P.n_points - 1)) (P.n_points - 1)
      (select_vertex (rightmost_lowest_step P) (P.n_points - 1)) := by
  have hlp : 1 ≤ P.n_points - 1 := by omega
  have h1 := select_vertex_lex P.yi (fun i => - P.xi i) _ (leftmost_highest_key P) _ hlp
  have h2 := select_vertex_lex P.yi P.xi _ (rightmost_highest_key P) _ hlp
  have h3 := select_vertex_lex (fun i => - P.yi i) (fun i => - P.xi i) _
    (leftmost_lowest_key P) _ hlp
  have h4 := select_vertex_lex (fun i => - P.yi i) P.xi _ (rightmost_lowest_key P) _ hlp
  simp only [neg_le_neg_iff, neg_inj] at h1 h3 h4
  exact ⟨h1, h2, h3, h4⟩

/-- Instance of the amended C10 on the triangle ring whose vertices `0` and `1` coincide:
the first loop selects index `1`. -/
theorem select_vertex_last_wins_witness :
    select_vertex (leftmost_highest_step triangle_dup) (triangle_dup.n_points - 1) = 1
      ∧ last_attaining (attains_leftmost_highest triangle_dup (triangle_dup.n_points - 1))
          (triangle_dup.n_points - 1)
          (select_vertex (leftmost_highest_step triangle_dup) (triangle_dup.n_points - 1)) :=
  ⟨by decide, (select_vertex_last_wins triangle_dup (by decide)).1⟩

/-- C10 as stated fails: on the triangle ring `(0,1),(0,1),(1,0),(0,0),(0,1)` vertices `0` and
`1` both attain the leftmost-highest extreme, and the first loop selects index `1`, which
is not the smallest index attaining it. -/
theorem select_vertex_first_wins_counterexample :
    attains_leftmost_highest triangle_dup (triangle_dup.n_points - 1) 0
      ∧ select_vertex (leftmost_highest_step triangle_dup) (triangle_dup.n_points - 1) = 1
      ∧ ¬ first_attaining (attains_leftmost_highest triangle_dup (triangle_dup.n_points - 1))
          (triangle_dup.n_points - 1)
          (select_vertex (leftmost_highest_step triangle_dup) (triangle_dup.n_points - 1)) := by
  have hsel : select_vertex (leftmost_highest_step triangle_dup) (triangle_dup.n_points - 1) = 1 := by
    decide
  have hatt : attains_leftmost_highest triangle_dup (triangle_dup.n_points - 1) 0 := by
    intro k hk
    have hk' : k < 4 := hk
    interval_cases k <;>
      norm_num [triangle_dup, line_pnts.ofList, line_pnts.xi, line_pnts.yi]
  refine ⟨hatt, hsel, ?_⟩
  rintro ⟨_, _, h⟩
  have := h 0 (by decide) hatt
  rw [hsel] at this
  omega

/-- The area stored for a triangle ring `p0, p1, p2, p0`. -/
theorem triangle_area (p0 p1 p2 : ℚ × ℚ) :
    (dig_find_area_poly (line_pnts.ofList [p0, p1, p2, p0])).2
      = 1 / 2 * (p0.2 * (p1.1 - p2.1) + p1.2 * (p2.1 - p0.1) + p2.2 * (p0.1 - p1.1)) := by
  norm_num [dig_find_area_poly, line_pnts.ofList, line_pnts.xi, line_pnts.yi, List.range']

/-- In a triangle ring with one vertex duplicated, the cross at any vertex with its first
distinct neighbours is twice the area of the triangle ring. -/
theorem triangle_dup_cross_at (p0 p1 p2 : ℚ × ℚ) (k cur : Nat) (hk : k < 4) (hcur : cur < 4)
    (h01 : p0 ≠ p1) (h12 : p1 ≠ p2) (h20 : p2 ≠ p0) :
    vertex_cross (line_pnts.ofList (dup_at [p0, p1, p2, p0] k))
        (first_distinct_before (line_pnts.ofList (dup_at [p0, p1, p2, p0] k)) 4 cur) cur
        (first_distinct_after (line_pnts.ofList (dup_at [p0, p1, p2, p0] k)) 4 cur)
      = p0.2 * (p1.1 - p2.1) + p1.2 * (p2.1 - p0.1) + p2.2 * (p0.1 - p1.1) := by
  have h10 : p1 ≠ p0 := h01.symm
  have h21 : p2 ≠ p1 := h12.symm
  have h02 : p0 ≠ p2 := h20.symm
  have hpt : ∀ (l : List (ℚ × ℚ)) (i : Nat),
      (line_pnts.ofList l).pt i = ((l.map Prod.fst).getD i 0, (l.map Prod.snd).getD i 0) :=
    fun l i => rfl
  interval_cases k <;> interval_cases cur <;>
    simp [first_distinct_before, first_distinct_after, dup_at, hpt, List.range_succ,
      h01, h12, h20, h10, h21, h02] <;>
    simp [vertex_cross, line_pnts.ofList, line_pnts.xi, line_pnts.yi] <;>
    ring

/-- C8: for a non-degenerate triangle `p0, p1, p2` (pairwise distinct, not collinear) and the
5-point ring obtained from `p0, p1, p2, p0` by duplicating one vertex consecutively,
`dig_find_poly_orientation` returns a non-zero value whose sign is the sign of the area
stored by `dig_find_area_poly` for the ring `p0, p1, p2, p0`. -/
theorem dup_triangle_orientation (fuel : Nat) (p0 p1 p2 : ℚ × ℚ) (k : Nat) (hk : k < 4)
    (h01 : p0 ≠ p1) (h12 : p1 ≠ p2) (h20 : p2 ≠ p0) (hnc : ¬ collinear p0 p1 p2)
    (hf : 4 ≤ fuel) :
    ∃ o, dig_find_poly_orientation fuel (line_pnts.ofList (dup_at [p0, p1, p2, p0] k)) = some o
      ∧ o ≠ 0
      ∧ (0 < o ↔ 0 < (dig_find_area_poly (line_pnts.ofList [p0, p1, p2, p0])).2)
      ∧ (o < 0 ↔ (dig_find_area_poly (line_pnts.ofList [p0, p1, p2, p0])).2 < 0) := by
  have hnp : (line_pnts.ofList (dup_at [p0, p1, p2, p0] k)).n_points = 5 := by
    interval_cases k <;> rfl
  have hlt : leftmost_highest.select (line_pnts.ofList (dup_at [p0, p1, p2, p0] k)) 4 < 4 := by
    rw [← select_leftmost_highest]
    exact leftmost_highest_lt _ 4 (by omega)
  have hc1 : leftmost_highest.cross (line_pnts.ofList (dup_at [p0, p1, p2, p0] k))
      = p0.2 * (p1.1 - p2.1) + p1.2 * (p2.1 - p0.1) + p2.2 * (p0.1 - p1.1) := by
    have h := triangle_dup_cross_at p0 p1 p2 k _ hk hlt h01 h12 h20
    unfold strategy.cross
    simp only [hnp]
    exact h
  have hD : p0.2 * (p1.1 - p2.1) + p1.2 * (p2.1 - p0.1) + p2.2 * (p0.1 - p1.1) ≠ 0 := by
    intro h
    apply hnc
    unfold collinear
    linear_combination -h
  have hres := dig_find_poly_orientation_cases fuel
    (line_pnts.ofList (dup_at [p0, p1, p2, p0] k)) (by omega) (by omega)
  rw [hc1, if_pos hD] at hres
  refine ⟨_, hres, hD, ?_, ?_⟩
  · rw [triangle_area]
    constructor <;> intro h <;> linarith
  · rw [triangle_area]
    constructor <;> intro h <;> linarith

/-- Instance of C8: the triangle `(0,1), (1,0), (0,0)` with its first vertex duplicated is
the ring `triangle_dup`; the orientation returned is not `0`. -/
theorem dup_triangle_orientation_witness :
    line_pnts.ofList (dup_at [(0, 1), (1, 0), (0, 0), (0, 1)] 0) = triangle_dup
      ∧ ∃ o, dig_find_poly_orientation 4 triangle_dup = some o ∧ o ≠ 0 := by
  obtain ⟨o, h1, h2, _⟩ := dup_triangle_orientation 4 (0, 1) (1, 0) (0, 0) 0 (by decide)
    (by decide) (by decide) (by decide) (by unfold collinear; norm_num) (by decide)
  exact ⟨by decide, o, h1, h2⟩

/-! ## The unit square -/

/-- The unit square `(0,0),(1,0),(1,1),(0,1),(0,0)`: the stored area is `-1` and the
orientation returned is `-1`. -/
theorem unit_square_values :
    dig_find_area_poly unit_square = (0, -1)
      ∧ dig_find_poly_orientation 4 unit_square = some (-1) := by
  constructor
  · norm_num [dig_find_area_poly, unit_square, line_pnts.ofList, line_pnts.xi, line_pnts.yi,
      List.range']
  · have h1 : leftmost_highest.select unit_square 4 = 3 := by decide
    have h2 : first_distinct_after unit_square 4 3 = 0 := by decide
    have h3 : first_distinct_before unit_square 4 3 = 2 := by decide
    have hc : leftmost_highest.cross unit_square = -1 := by
      simp only [strategy.cross, show unit_square.n_points - 1 = 4 from rfl, h1, h2, h3]
      norm_num [unit_square, line_pnts.ofList, line_pnts.xi, line_pnts.yi]
    rw [dig_find_poly_orientation_cases 4 unit_square (by decide) (by decide), hc]
    norm_num

/-- The unit square in reverse order, `(0,0),(0,1),(1,1),(1,0),(0,0)`: the stored area is `1`
and the orientation returned is `1`. -/
theorem unit_square_reverse_values :
    dig_find_area_poly unit_square.reverse = (0, 1)
      ∧ dig_find_poly_orientation 4 unit_square.reverse = some 1 := by
  have hrev : unit_square.reverse
      = line_pnts.ofList [(0, 0), (0, 1), (1, 1), (1, 0), (0, 0)] := by decide
  rw [hrev]
  constructor
  · norm_num [dig_find_area_poly, line_pnts.ofList, line_pnts.xi, line_pnts.yi, List.range']
  · have h1 : leftmost_highest.select
        (line_pnts.ofList [(0, 0), (0, 1), (1, 1), (1, 0), (0, 0)]) 4 = 1 := by decide
    have h2 : first_distinct_after
        (line_pnts.ofList [(0, 0), (0, 1), (1, 1), (1, 0), (0, 0)]) 4 1 = 2 := by decide
    have h3 : first_distinct_before
        (line_pnts.ofList [(0, 0), (0, 1), (1, 1), (1, 0), (0, 0)]) 4 1 = 0 := by decide
    have hc : leftmost_highest.cross
        (line_pnts.ofList [(0, 0), (0, 1), (1, 1), (1, 0), (0, 0)]) = 1 := by
      simp only [strategy.cross,
        show (line_pnts.ofList [(0, 0), (0, 1), (1, 1), (1, 0), (0, 0)]).n_points - 1 = 4
          from rfl, h1, h2, h3]
      norm_num [line_pnts.ofList, line_pnts.xi, line_pnts.yi]
    rw [dig_find_poly_orientation_cases 4 _ (by decide) (by decide), hc]
    norm_num

/-- C11: for `n_lines < 1`, `dig_get_poly_points` returns `0` and leaves the output with
`n_points = 0`, an empty point sequence, whatever the other arguments and the previous
contents of the output are; the value `0` is not the error value `-1`. -/
theorem dig_get_poly_points_no_lines (avail fuel : Nat) (n_lines : Int)
    (LPoints : List line_pnts) (direction : List Int) (BPoints : line_pnts)
    (hn : n_lines < 1) :
    ∃ B', dig_get_poly_points avail fuel n_lines LPoints direction BPoints = some (0, B')
      ∧ B'.n_points = 0 ∧ B'.pts = [] ∧ B'.x = BPoints.x ∧ B'.y = BPoints.y
      ∧ (0 : Int) ≠ -1 := by
  refine ⟨{ BPoints with n_points := 0 }, ?_, rfl, rfl, rfl, rfl, by decide⟩
  unfold dig_get_poly_points
  simp only [hn, if_true]

/-- Instance of C11: `n_lines = 0` with a buffer that held three points. -/
theorem dig_get_poly_points_no_lines_witness :
    ∃ B', dig_get_poly_points 0 0 0 square_lines [1, -1] ⟨[1, 2, 3], [4, 5, 6], 3⟩
            = some (0, B')
      ∧ B'.n_points = 0 ∧ B'.pts = [] := by
  obtain ⟨B', h1, h2, h3, _⟩ := dig_get_poly_points_no_lines 0 0 0 square_lines [1, -1]
    ⟨[1, 2, 3], [4, 5, 6], 3⟩ (by decide)
  exact ⟨B', h1, h2, h3⟩

theorem forall₂_getD_pos (direction direction' : List Int)
    (h : List.Forall₂ (fun d d' => d' = d ∨ (d = 0 ∧ d' = -1)) direction direction') :
    ∀ i, (direction'.getD i 0 > 0 ↔ direction.getD i 0 > 0) := by
  induction h with
  | nil => intro i; simp
  | cons hd _ ih =>
    intro i
    cases i with
    | zero =>
      simp only [List.getD_cons_zero]
      rcases hd with h | ⟨h1, h2⟩
      · rw [h]
      · rw [h1, h2]; decide
    | succ i => simpa using ih i

/-- The function only tests `direction[i] > 0`, so zero entries may be replaced by `-1`. -/
theorem dig_get_poly_points_zero_eq (avail fuel : Nat) (n_lines : Int)
    (LPoints : List line_pnts) (direction direction' : List Int) (BPoints : line_pnts)
    (h : List.Forall₂ (fun d d' => d' = d ∨ (d = 0 ∧ d' = -1)) direction direction') :
    dig_get_poly_points avail fuel n_lines LPoints direction' BPoints
      = dig_get_poly_points avail fuel n_lines LPoints direction BPoints := by
  have hstep : poly_step fuel LPoints direction' = poly_step fuel LPoints direction := by
    funext s i
    have hi := forall₂_getD_pos direction direction' h i
    unfold poly_step
    by_cases hp : direction.getD i 0 > 0
    · simp only [hi.2 hp, hp, if_true]
    · simp only [mt hi.1 hp, hp, if_false]
  unfold dig_get_poly_points
  rw [hstep]

/-- C20: `dig_get_poly_points` treats a direction `0` like a negative direction.  Replacing
any of the zero entries of `direction` by `-1` gives the same result for all arguments;
for lines with at least 2 points each (fuel for the longest line, allocation succeeding) the
call returns, with the same return value and the same output in both cases. -/
theorem dig_get_poly_points_zero_direction (avail fuel : Nat) (n_lines : Int)
    (LPoints : List line_pnts) (direction direction' : List Int) (BPoints : line_pnts)
    (hrepl : List.Forall₂ (fun d d' => d' = d ∨ (d = 0 ∧ d' = -1)) direction direction')
    (hlen : (LPoints.length : Int) = n_lines)
    (hdlen : direction.length = LPoints.length)
    (hpts : ∀ L ∈ LPoints, 2 ≤ L.n_points)
    (hfuel : ∀ L ∈ LPoints, L.n_points - 1 ≤ fuel)
    (havail : (LPoints.map fun L => L.n_points - 1).sum + 1 ≤ avail) :
    dig_get_poly_points avail fuel n_lines LPoints direction' BPoints
        = dig_get_poly_points avail fuel n_lines LPoints direction BPoints
    ∧ ∃ r B', dig_get_poly_points avail fuel n_lines LPoints direction BPoints = some (r, B')
        ∧ dig_get_poly_points avail fuel n_lines LPoints direction' BPoints = some (r, B') := by
  have heq := dig_get_poly_points_zero_eq avail fuel n_lines LPoints direction direction'
    BPoints hrepl
  refine ⟨heq, ?_⟩
  rw [heq]
  by_cases hn : 1 ≤ n_lines
  · obtain ⟨B', h1, _⟩ := dig_get_poly_points_lists avail fuel n_lines LPoints direction
      BPoints hn hlen hdlen (fun L hL => by have := hpts L hL; omega) hfuel havail
    exact ⟨_, B', h1, h1⟩
  · refine ⟨0, { BPoints with n_points := 0 }, ?_, ?_⟩ <;>
    · unfold dig_get_poly_points
      simp only [show n_lines < 1 by omega, if_true]

/-- Instance of C20: the second line of `square_lines` with direction `0` or `-1` is
traversed end to start; both calls give the closed unit square. -/
theorem dig_get_poly_points_zero_direction_witness :
    ∃ r B', dig_get_poly_points 5 2 2 square_lines [1, 0] ⟨[], [], 0⟩ = some (r, B')
      ∧ dig_get_poly_points 5 2 2 square_lines [1, -1] ⟨[], [], 0⟩ = some (r, B')
      ∧ B'.pts = [(0, 0), (1, 0), (1, 1), (0, 1), (0, 0)] := by
  obtain ⟨_, r, B', h1, h2⟩ := dig_get_poly_points_zero_direction 5 2 2 square_lines
    [1, 0] [1, -1] ⟨[], [], 0⟩
    (List.Forall₂.cons (Or.inl rfl) (List.Forall₂.cons (Or.inr ⟨rfl, rfl⟩) List.Forall₂.nil))
    (by decide) (by decide) (by decide) (by decide) (by decide)
  refine ⟨r, B', h1, h2, ?_⟩
  have h3 : dig_get_poly_points 5 2 2 square_lines [1, -1] ⟨[], [], 0⟩
      = some (5, ⟨[0, 1, 1, 0, 0], [0, 0, 1, 1, 0], 5⟩) := by decide
  rw [h3] at h2
  cases h2
  decide

/-! ## Reversing the order of the lines -/

/-- All the points of a line in the order of traversal. -/
theorem line_part_end_pos (L : line_pnts) (d : Int) (hd : 0 < d) (hn : 1 ≤ L.n_points) :
    line_part L d ++ [line_end L d] = L.pts := by
  unfold line_part line_end line_pnts.pts
  rw [if_pos hd, if_pos hd]
  obtain ⟨m, hm⟩ : ∃ m, L.n_points = m + 1 := ⟨L.n_points - 1, by omega⟩
  rw [hm, Nat.add_sub_cancel, List.range_succ, List.map_append]
  rfl

theorem line_part_end_neg (L : line_pnts) (d : Int) (hd : ¬ 0 < d) (hn : 1 ≤ L.n_points) :
    line_part L d ++ [line_end L d] = L.pts.reverse := by
  unfold line_part line_end line_pnts.pts
  rw [if_neg hd, if_neg hd]
  obtain ⟨m, hm⟩ : ∃ m, L.n_points = m + 1 := ⟨L.n_points - 1, by omega⟩
  rw [hm, Nat.add_sub_cancel]
  apply List.ext_getElem
  · simp
  · intro i h1 h2
    simp only [List.length_append, List.length_map, List.length_range, List.length_singleton]
      at h1
    simp only [List.getElem_reverse, List.getElem_map, List.getElem_range, List.length_map,
      List.length_range]
    by_cases hi : i < m
    · rw [List.getElem_append_left (by simpa using hi)]
      simp
    · have : i = m := by omega
      subst this
      rw [List.getElem_append_right (by simp)]
      simp

/-- Negating a non-zero direction reverses the traversal of a line. -/
theorem line_traversal_neg (L : line_pnts) (d : Int) (hd : d ≠ 0) (hn : 1 ≤ L.n_points) :
    line_part L (-d) ++ [line_end L (-d)] = (line_part L d ++ [line_end L d]).reverse := by
  by_cases hp : 0 < d
  · rw [line_part_end_pos L d hp hn, line_part_end_neg L (-d) (by omega) hn]
  · rw [line_part_end_neg L d hp hn, line_part_end_pos L (-d) (by omega) hn, List.reverse_reverse]

theorem line_end_neg (L : line_pnts) (d : Int) (hd : d ≠ 0) :
    line_end L (-d) = line_start L d := by
  unfold line_end line_start
  by_cases hp : 0 < d
  · rw [if_neg (by omega), if_pos hp]
  · rw [if_pos (by omega), if_neg hp]

theorem line_start_neg (L : line_pnts) (d : Int) (hd : d ≠ 0) :
    line_start L (-d) = line_end L d := by
  unfold line_end line_start
  by_cases hp : 0 < d
  · rw [if_neg (by omega), if_pos hp]
  · rw [if_pos (by omega), if_neg hp]

theorem assembled_singleton (p : line_pnts × Int) :
    assembled [p] = line_part p.1 p.2 ++ [line_end p.1 p.2] := by
  simp [assembled]

theorem assembled_cons (p q : line_pnts × Int) (rest : List (line_pnts × Int)) :
    assembled (p :: q :: rest) = line_part p.1 p.2 ++ assembled (q :: rest) := by
  simp [assembled, List.getLast?_cons_cons]

/-- Appending a line that starts where the sequence ends. -/
theorem assembled_concat (s : List (line_pnts × Int)) (q : line_pnts × Int)
    (l : line_pnts × Int) (hl : s.getLast? = some l)
    (hq : 2 ≤ q.1.n_points) (hchain : line_end l.1 l.2 = line_start q.1 q.2) :
    assembled (s ++ [q]) = assembled s ++ (line_part q.1 q.2 ++ [line_end q.1 q.2]).tail := by
  obtain ⟨t, ht⟩ := line_part_head q.1 q.2 hq
  simp only [assembled, hl, List.flatMap_append, List.getLast?_append, List.getLast?_singleton,
    Option.map_some', Option.toList, hchain]
  simp [ht]

/-- For lines that chain head to tail, the sequence assembled from the lines in reverse
order with negated directions is the reverse of the sequence assembled from the lines. -/
theorem assembled_reverse :
    ∀ ring : List (line_pnts × Int), ring ≠ [] →
      (∀ p ∈ ring, 2 ≤ p.1.n_points ∧ p.2 ≠ 0) →
      List.Chain' (fun p q => line_end p.1 p.2 = line_start q.1 q.2) ring →
      assembled ((ring.map fun p => (p.1, - p.2)).reverse) = (assembled ring).reverse := by
  intro ring
  induction ring with
  | nil => intro h; exact absurd rfl h
  | cons p rest ih =>
    intro _ hring hchain
    have hp := hring p (List.mem_cons_self _ _)
    cases rest with
    | nil =>
      simp only [List.map_cons, List.map_nil, List.reverse_singleton]
      rw [assembled_singleton, assembled_singleton]
      exact line_traversal_neg p.1 p.2 hp.2 (by omega)
    | cons q rest =>
      have hq := hring q (List.mem_cons_of_mem _ (List.mem_cons_self _ _))
      have hih := ih (List.cons_ne_nil _ _)
        (fun r hr => hring r (List.mem_cons_of_mem _ hr)) (List.Chain'.tail hchain)
      have hpq : line_end p.1 p.2 = line_start q.1 q.2 := (List.chain'_cons.1 hchain).1
      have hlast : (((q :: rest).map fun p => (p.1, - p.2)).reverse).getLast?
          = some (q.1, - q.2) := by
        simp
      rw [List.map_cons, List.reverse_cons,
        assembled_concat _ (p.1, - p.2) (q.1, - q.2) hlast hp.1
          (by
            show line_end q.1 (- q.2) = line_start p.1 (- p.2)
            rw [line_end_neg q.1 q.2 hq.2, line_start_neg p.1 p.2 hp.2, hpq]),
        hih, assembled_cons]
      show _ ++ (line_part p.1 (- p.2) ++ [line_end p.1 (- p.2)]).tail = _
      rw [line_traversal_neg p.1 p.2 hp.2 (by omega), List.reverse_append, List.reverse_append]
      simp

theorem zip_reverse_neg (LPoints : List line_pnts) (direction : List Int)
    (hdlen : direction.length = LPoints.length) :
    List.zip LPoints.reverse (direction.map fun d => - d).reverse
      = ((List.zip LPoints direction).map fun p => (p.1, - p.2)).reverse := by
  have h : (List.zip LPoints (direction.map fun d => - d)).reverse
      = List.zip LPoints.reverse (direction.map fun d => - d).reverse :=
    List.reverse_zipWith (by simp [hdlen])
  rw [← h, List.zip_map_right]
  rfl

theorem pts_length (P : line_pnts) : P.pts.length = P.n_points := by
  simp [line_pnts.pts]

theorem pts_getD (P : line_pnts) (i : Nat) (hi : i < P.n_points) :
    P.pts.getD i (0, 0) = P.pt i := by
  rw [List.getD_eq_getElem _ _ (by rw [pts_length]; exact hi)]
  simp [line_pnts.pts]

/-- Two sequences whose points in use are reverses of each other. -/
theorem pt_of_pts_reverse (P Q : line_pnts) (h : Q.pts = P.pts.reverse) :
    Q.n_points = P.n_points
      ∧ ∀ i, i < P.n_points → Q.pt i = P.pt (P.n_points - 1 - i) := by
  have hn : Q.n_points = P.n_points := by
    have := congrArg List.length h
    rwa [List.length_reverse, pts_length, pts_length] at this
  refine ⟨hn, fun i hi => ?_⟩
  rw [← pts_getD Q i (by omega), h, ← pts_getD P (P.n_points - 1 - i) (by omega),
    List.getD_eq_getElem _ _ (by rw [List.length_reverse, pts_length]; exact hi),
    List.getD_eq_getElem _ _ (by rw [pts_length]; omega), List.getElem_reverse]
  simp only [pts_length]

/-- The shoelace area of a sequence whose points are those of another in reverse order. -/
theorem shoelace_of_pts_reverse (P Q : line_pnts) (h : Q.pts = P.pts.reverse) :
    shoelace_area Q = - shoelace_area P := by
  obtain ⟨hn, hpt⟩ := pt_of_pts_reverse P Q h
  have hx : ∀ i, i < P.n_points → Q.xi i = P.xi (P.n_points - 1 - i) :=
    fun i hi => congrArg Prod.fst (hpt i hi)
  have hy : ∀ i, i < P.n_points → Q.yi i = P.yi (P.n_points - 1 - i) :=
    fun i hi => congrArg Prod.snd (hpt i hi)
  unfold shoelace_area
  rw [hn]
  rw [← Finset.sum_range_reflect
    (fun j => P.xi j * P.yi (j + 1) - P.xi (j + 1) * P.yi j) (P.n_points - 1)]
  rw [← mul_neg, ← Finset.sum_neg_distrib]
  congr 1
  apply Finset.sum_congr rfl
  intro i hi
  have hi' : i < P.n_points - 1 := Finset.mem_range.1 hi
  rw [hx i (by omega), hx (i + 1) (by omega), hy i (by omega), hy (i + 1) (by omega)]
  have e1 : P.n_points - 1 - i = P.n_points - 1 - 1 - i + 1 := by omega
  have e2 : P.n_points - 1 - (i + 1) = P.n_points - 1 - 1 - i := by omega
  rw [e1, e2]
  ring

/-- The stored area of a closed sequence is negated when its points are reversed. -/
theorem area_of_pts_reverse (P Q : line_pnts) (h : Q.pts = P.pts.reverse)
    (hn : 2 ≤ P.n_points) (hclosed : P.closed) :
    (dig_find_area_poly Q).2 = - (dig_find_area_poly P).2 := by
  obtain ⟨hnq, hpt⟩ := pt_of_pts_reverse P Q h
  have hy : P.yi 0 = P.yi (P.n_points - 1) := congrArg Prod.snd hclosed
  have hyq : Q.yi 0 = Q.yi (Q.n_points - 1) := by
    have h0 := congrArg Prod.snd (hpt 0 (by omega))
    have h1 := congrArg Prod.snd (hpt (P.n_points - 1) (by omega))
    simp only [Nat.sub_zero, Nat.sub_self] at h0 h1
    show Q.yi 0 = Q.yi (Q.n_points - 1)
    rw [hnq]
    exact h0.trans (hy.symm.trans h1.symm)
  rw [area_eq_neg_shoelace P hn hy, area_eq_neg_shoelace Q (by omega) hyq,
    shoelace_of_pts_reverse P Q h]

/-- C14, amended: for `n_lines ≥ 1`, lines with at least 2 points each and non-zero directions
that chain head to tail, `dig_get_poly_points` applied to the lines in reversed order with
every direction negated returns the same count and yields the reverse of the point sequence
it yields for the original order and directions (the points are copied, not computed);
when that sequence is closed, then in exact arithmetic (coordinates and area in `ℚ`) the
area stored for the one is the negation of the area stored for the other. -/
theorem dig_get_poly_points_reversed (avail fuel : Nat) (n_lines : Int)
    (LPoints : List line_pnts) (direction : List Int) (BPoints BPoints' : line_pnts)
    (hn : 1 ≤ n_lines) (hlen : (LPoints.length : Int) = n_lines)
    (hdlen : direction.length = LPoints.length)
    (hpts : ∀ L ∈ LPoints, 2 ≤ L.n_points) (hdir : ∀ d ∈ direction, d ≠ 0)
    (hfuel : ∀ L ∈ LPoints, L.n_points - 1 ≤ fuel)
    (havail : (LPoints.map fun L => L.n_points - 1).sum + 1 ≤ avail)
    (hchain : List.Chain' (fun p q => line_end p.1 p.2 = line_start q.1 q.2)
      (List.zip LPoints direction)) :
    ∃ r P Q, dig_get_poly_points avail fuel n_lines LPoints direction BPoints = some (r, P)
      ∧ dig_get_poly_points avail fuel n_lines LPoints.reverse
          (direction.map fun d => - d).reverse BPoints' = some (r, Q)
      ∧ Q.pts = P.pts.reverse
      ∧ (P.closed → (dig_find_area_poly Q).2 = - (dig_find_area_poly P).2) := by
  have hpts1 : ∀ L ∈ LPoints, 1 ≤ L.n_points := fun L hL => by have := hpts L hL; omega
  obtain ⟨P, h1, h2, _, h4⟩ := dig_get_poly_points_lists avail fuel n_lines LPoints direction
    BPoints hn hlen hdlen hpts1 hfuel havail
  have hsum : (LPoints.reverse.map fun L => L.n_points - 1).sum
      = (LPoints.map fun L => L.n_points - 1).sum := by
    rw [List.map_reverse, List.sum_reverse]
  obtain ⟨Q, g1, _, _, g4⟩ := dig_get_poly_points_lists avail fuel n_lines LPoints.reverse
    (direction.map fun d => - d).reverse BPoints' hn (by simpa using hlen)
    (by simp [hdlen]) (fun L hL => hpts1 L (List.mem_reverse.1 hL))
    (fun L hL => hfuel L (List.mem_reverse.1 hL)) (by rw [hsum]; exact havail)
  rw [hsum] at g1
  have hne : List.zip LPoints direction ≠ [] := by
    intro h
    have h0 := congrArg List.length h
    rw [List.length_zip, hdlen, min_self, List.length_nil] at h0
    omega
  have hrev : Q.pts = P.pts.reverse := by
    rw [g4, h4, zip_reverse_neg LPoints direction hdlen]
    exact assembled_reverse _ hne
      (fun p hp => ⟨hpts _ (List.of_mem_zip hp).1, hdir _ (List.of_mem_zip hp).2⟩) hchain
  have hP2 : 2 ≤ P.n_points := by
    obtain ⟨L, hL⟩ : ∃ L, L ∈ LPoints := by
      cases LPoints with
      | nil => simp at hlen; omega
      | cons L _ => exact ⟨L, List.mem_cons_self _ _⟩
    have hle : L.n_points - 1 ≤ (LPoints.map fun L => L.n_points - 1).sum :=
      List.single_le_sum (fun _ _ => Nat.zero_le _) _
        (List.mem_map_of_mem (fun L => L.n_points - 1) hL)
    have := hpts L hL
    omega
  exact ⟨_, P, Q, h1, g1, hrev, fun hc => area_of_pts_reverse P Q hrev hP2 hc⟩

/-- Instance of C14: the lines of `square_lines` with directions `1, -1`, and the same lines
in reversed order with directions `1, -1`. -/
theorem dig_get_poly_points_reversed_witness :
    ∃ r P Q, dig_get_poly_points 5 2 2 square_lines [1, -1] ⟨[], [], 0⟩ = some (r, P)
      ∧ dig_get_poly_points 5 2 2 square_lines.reverse [1, -1] ⟨[], [], 0⟩ = some (r, Q)
      ∧ Q.pts = P.pts.reverse := by
  obtain ⟨r, P, Q, h1, h2, h3, _⟩ := dig_get_poly_points_reversed 5 2 2 square_lines [1, -1]
    ⟨[], [], 0⟩ ⟨[], [], 0⟩ (by decide) (by decide) (by decide) (by decide) (by decide)
    (by decide) (by decide)
    (by
      show List.Chain' _ [(_, _), (_, _)]
      rw [List.chain'_cons]
      exact ⟨by decide, List.chain'_singleton _⟩)
  exact ⟨r, P, Q, h1, h2, h3⟩

/-! ## The area of a reversed ring in `double` arithmetic -/

/-- With fuel at least `n` the digit count is exact: `n < 2 ^ k`, and `2 ^ (k - 1) ≤ n`
for `n > 0`. -/
theorem bit_length_aux_spec :
    ∀ fuel n : Nat, n ≤ fuel →
      n < 2 ^ bit_length_aux fuel n ∧ (0 < n → 2 ^ (bit_length_aux fuel n - 1) ≤ n) := by
  intro fuel
  induction fuel with
  | zero =>
    intro n hn
    have h0 : n = 0 := by omega
    subst h0
    exact ⟨by simp [bit_length_aux], fun h => absurd h (lt_irrefl _)⟩
  | succ fuel ih =>
    intro n hn
    by_cases h0 : n = 0
    · subst h0
      exact ⟨by simp [bit_length_aux], fun h => absurd h (lt_irrefl _)⟩
    · have hdef : bit_length_aux (fuel + 1) n = bit_length_aux fuel (n / 2) + 1 := by
        simp [bit_length_aux, h0]
      obtain ⟨h1, h2⟩ := ih (n / 2) (by omega)
      rw [hdef]
      refine ⟨?_, fun _ => ?_⟩
      · rw [pow_succ]
        omega
      · rw [Nat.add_sub_cancel]
        by_cases hh : n / 2 = 0
        · rw [hh]
          have : bit_length_aux fuel 0 = 0 := by cases fuel <;> simp [bit_length_aux]
          rw [this]
          simp
          omega
        · have h3 := h2 (Nat.pos_of_ne_zero hh)
          have h4 : 0 < bit_length_aux fuel (n / 2) := by
            cases fuel with
            | zero => omega
            | succ f => simp [bit_length_aux, hh]
          obtain ⟨k, hk⟩ : ∃ k, bit_length_aux fuel (n / 2) = k + 1 := ⟨_, (Nat.succ_pred_eq_of_pos h4).symm⟩
          rw [hk] at h3 ⊢
          rw [Nat.add_sub_cancel] at h3
          rw [pow_succ]
          omega

/-- The digit count: `n < 2 ^ bit_length n`, and `2 ^ (bit_length n - 1) ≤ n` for `n > 0`. -/
theorem bit_length_spec (n : Nat) :
    n < 2 ^ bit_length n ∧ (0 < n → 2 ^ (bit_length n - 1) ≤ n) :=
  bit_length_aux_spec n n le_rfl

/-- Rounding a magnitude `n * 2 ^ t = a * 2 ^ s + r` to a multiple of `2 ^ s`: the chosen
neighbour is within half of `2 ^ s`. -/
theorem round_core (N s a r : Nat) (hN : N = a * 2 ^ s + r) (_hr : r < 2 ^ s) :
    2 * |(((if 2 ^ s < 2 * r ∨ (2 * r = 2 ^ s ∧ a % 2 = 1) then a + 1 else a : Nat) : ℚ)
          * 2 ^ s - N)| ≤ 2 ^ s := by
  have hrq : (r : ℚ) < 2 ^ s := by exact_mod_cast _hr
  have hr0 : (0 : ℚ) ≤ r := Nat.cast_nonneg r
  subst hN
  by_cases hc : 2 ^ s < 2 * r ∨ (2 * r = 2 ^ s ∧ a % 2 = 1)
  · rw [if_pos hc]
    have h2 : (2 : ℚ) ^ s ≤ 2 * r := by
      rcases hc with h | ⟨h, _⟩
      · exact_mod_cast h.le
      · exact_mod_cast h.ge
    push_cast
    rw [abs_of_nonneg (by nlinarith)]
    nlinarith
  · rw [if_neg hc]
    have h2 : 2 * (r : ℚ) ≤ 2 ^ s := by
      have : ¬ 2 ^ s < 2 * r := fun h => hc (Or.inl h)
      exact_mod_cast not_lt.1 this
    push_cast
    rw [abs_of_nonpos (by nlinarith)]
    nlinarith

/-- The value returned by `round_double` has at most one quantum `2 ^ d.e` between it and
its neighbours in the format, and lies within half a quantum of the exact value. -/
theorem round_double_near (m e : Int) (d : double) (h : round_double m e = some d) :
    2 * |d.val - (m : ℚ) * 2 ^ e| ≤ 2 ^ d.e := by
  unfold round_double at h
  by_cases hm : m = 0
  · rw [if_pos hm] at h
    cases h
    simp [double.val, hm]
  · rw [if_neg hm] at h
    simp only at h
    generalize max ((bit_length m.natAbs : Int) + e - 53) (-1074) = q at h
    have he : e = q - ((q - e).toNat : ℤ) + ((e - q).toNat : ℤ) := by omega
    generalize (q - e).toNat = s at h he
    generalize (e - q).toNat = t at h he
    have hN : ((m.natAbs * 2 ^ t : Nat) : ℚ) = (m.natAbs : ℚ) * 2 ^ t := by push_cast; rfl
    generalize m.natAbs * 2 ^ t = N at h hN
    have core := round_core N s (N / 2 ^ s) (N % 2 ^ s)
      (by rw [mul_comm]; exact (Nat.div_add_mod N (2 ^ s)).symm)
      (Nat.mod_lt _ (by positivity))
    generalize (if 2 ^ s < 2 * (N % 2 ^ s) ∨ (2 * (N % 2 ^ s) = 2 ^ s ∧ N / 2 ^ s % 2 = 1)
      then N / 2 ^ s + 1 else N / 2 ^ s) = a' at h core
    split_ifs at h
    cases h
    simp only [double.val]
    have hmq : (m : ℚ) = (m.sign : ℚ) * (m.natAbs : ℚ) := by
      have h1 : m.sign * (m.natAbs : ℤ) = m := Int.sign_mul_natAbs m
      calc (m : ℚ) = ((m.sign * (m.natAbs : ℤ) : ℤ) : ℚ) := by rw [h1]
        _ = (m.sign : ℚ) * (m.natAbs : ℚ) := by rw [Int.cast_mul, Int.cast_natCast]
    have hs1 : |(m.sign : ℚ)| = 1 := by
      rcases lt_or_gt_of_ne hm with h | h
      · rw [Int.sign_eq_neg_one_of_neg h]; norm_num
      · rw [Int.sign_eq_one_of_pos h]; norm_num
    have h2s : (0 : ℚ) < 2 ^ s := by positivity
    have h2q : (0 : ℚ) < 2 ^ q := by positivity
    have hpow : (2 : ℚ) ^ e = 2 ^ q * 2 ^ t / 2 ^ s := by
      rw [he, zpow_add₀ (by norm_num), zpow_sub₀ (by norm_num), zpow_natCast, zpow_natCast]
      ring
    have hfac : ((m.sign * (a' : ℤ) : ℤ) : ℚ) * 2 ^ q - (m : ℚ) * 2 ^ e
        = (m.sign : ℚ) * (((a' : ℚ) * 2 ^ s - N) * (2 ^ q / 2 ^ s)) := by
      rw [hpow, hN]
      push_cast
      rw [hmq]
      field_simp
      ring
    rw [hfac, abs_mul, hs1, one_mul, abs_mul, abs_of_pos (div_pos h2q h2s)]
    calc 2 * (|(a' : ℚ) * 2 ^ s - N| * (2 ^ q / 2 ^ s))
        = (2 * |(a' : ℚ) * 2 ^ s - N|) * (2 ^ q / 2 ^ s) := by ring
      _ ≤ 2 ^ s * (2 ^ q / 2 ^ s) := mul_le_mul_of_nonneg_right core (div_pos h2q h2s).le
      _ = 2 ^ q := by field_simp

/-- The value returned by `round_double` is in the format: a magnitude of at most `2 ^ 53`
units of a quantum that is not below `2 ^ -1074`, and below `2 ^ 1024` in all. -/
theorem round_double_format (m e : Int) (d : double) (hm : m ≠ 0)
    (h : round_double m e = some d) :
    d.m.natAbs ≤ 2 ^ 53 ∧ -1074 ≤ d.e ∧ (bit_length d.m.natAbs : Int) + d.e ≤ 1024 := by
  unfold round_double at h
  rw [if_neg hm] at h
  simp only at h
  have hL := (bit_length_spec m.natAbs).1
  generalize hq : max ((bit_length m.natAbs : Int) + e - 53) (-1074) = q at h
  have hq1 : (bit_length m.natAbs : Int) + e - 53 ≤ q := by rw [← hq]; exact le_max_left _ _
  have hq2 : -1074 ≤ q := by rw [← hq]; exact le_max_right _ _
  have hst : bit_length m.natAbs + (e - q).toNat ≤ 53 + (q - e).toNat := by omega
  generalize (q - e).toNat = s at h hst
  generalize (e - q).toNat = t at h hst
  have hN : m.natAbs * 2 ^ t < 2 ^ 53 * 2 ^ s := by
    calc m.natAbs * 2 ^ t < 2 ^ bit_length m.natAbs * 2 ^ t :=
          Nat.mul_lt_mul_of_pos_right hL (by positivity)
      _ = 2 ^ (bit_length m.natAbs + t) := (pow_add _ _ _).symm
      _ ≤ 2 ^ (53 + s) := Nat.pow_le_pow_right (by norm_num) hst
      _ = 2 ^ 53 * 2 ^ s := pow_add _ _ _
  generalize m.natAbs * 2 ^ t = N at h hN
  have ha : N / 2 ^ s < 2 ^ 53 := Nat.div_lt_of_lt_mul (by rw [mul_comm]; exact hN)
  have ha' : (if 2 ^ s < 2 * (N % 2 ^ s) ∨ (2 * (N % 2 ^ s) = 2 ^ s ∧ N / 2 ^ s % 2 = 1)
      then N / 2 ^ s + 1 else N / 2 ^ s) ≤ 2 ^ 53 := by
    split_ifs <;> omega
  generalize (if 2 ^ s < 2 * (N % 2 ^ s) ∨ (2 * (N % 2 ^ s) = 2 ^ s ∧ N / 2 ^ s % 2 = 1)
      then N / 2 ^ s + 1 else N / 2 ^ s) = a' at h ha'
  split_ifs at h with hov
  cases h
  have habs : (m.sign * (a' : ℤ)).natAbs = a' := by
    rw [Int.natAbs_mul, Int.natAbs_sign_of_nonzero hm, one_mul, Int.natAbs_ofNat]
  show (m.sign * (a' : ℤ)).natAbs ≤ 2 ^ 53 ∧ -1074 ≤ q
    ∧ (bit_length (m.sign * (a' : ℤ)).natAbs : Int) + q ≤ 1024
  rw [habs]
  exact ⟨ha', hq2, hov⟩

/-- Rounding to `double` on sample values: a value of at most 53 digits is kept, a tie goes
to the even neighbour (`2^53 + 1` down, `2^53 + 3` up), the subnormal range has the fixed
quantum `2^-1074`, and `2^1024` is out of range while the largest `double` is not. -/
theorem round_double_examples :
    (round_double 5 0).map double.val = some 5
    ∧ round_double 9007199254740993 0 = some ⟨4503599627370496, 1⟩
    ∧ round_double 9007199254740995 0 = some ⟨4503599627370498, 1⟩
    ∧ round_double 3 (-1075) = some ⟨2, -1074⟩
    ∧ round_double 1 (-1075) = some ⟨0, -1074⟩
    ∧ round_double 9007199254740991 971 = some ⟨9007199254740991, 971⟩
    ∧ round_double 9007199254740992 971 = none
    ∧ round_double 0 7 = some ⟨0, 0⟩ := by
  refine ⟨?_, by decide, by decide, by decide, by decide, by decide, by decide, by decide⟩
  have h : round_double 5 0 = some ⟨5629499534213120, -50⟩ := by decide
  rw [h]
  norm_num [double.val]

/-- The numbers that the coordinates of the sample lines and rings stand for. -/
theorem spike_values :
    spike_lines_double.map line_pnts_double.val = spike_lines
    ∧ spike_ring_double.val = ⟨[0, 1, 2, 0], [-1, 4503599627370496, -1, -1], 4⟩
    ∧ spike_ring_reversed_double.val = ⟨[0, 2, 1, 0], [-1, -1, 4503599627370496, -1], 4⟩ := by
  refine ⟨?_, ?_, ?_⟩
  · norm_num [spike_lines_double, spike_lines, line_pnts_double.val, double.val]
  · norm_num [spike_ring_double, line_pnts_double.val, double.val]
  · norm_num [spike_ring_reversed_double, line_pnts_double.val, double.val]

set_option maxRecDepth 100000 in
/-- C14 as stated fails in the arithmetic of `double`.  The lines of `spike_lines` meet the
conditions of the claim, `dig_get_poly_points` yields the closed ring
`(0,-1), (1,2^52), (2,-1), (0,-1)` for them and its reverse for the reversed lines with
negated directions, but the areas stored by `dig_find_area_poly` are `2^52` for the ring
(the sum `1 + 2^53` is a tie and rounds to `2^53`, and so does `2^53 + 1` again) and
`-(2^52 + 1)` for its reverse (`-1 - 1 - 2^53` is exact): they are not negations of each
other.  The exact area of the ring is `2^52 + 1`. -/
theorem dig_get_poly_points_reversed_double_counterexample :
    spike_lines_double.map line_pnts_double.val = spike_lines
    ∧ (1 : Int) ≤ 2 ∧ (spike_lines.length : Int) = 2
    ∧ (∀ L ∈ spike_lines, 2 ≤ L.n_points) ∧ (∀ d ∈ ([1, -1] : List Int), d ≠ 0)
    ∧ List.Chain' (fun p q => line_end p.1 p.2 = line_start q.1 q.2)
        (List.zip spike_lines [1, -1])
    ∧ dig_get_poly_points 4 2 2 spike_lines [1, -1] ⟨[], [], 0⟩
        = some (4, spike_ring_double.val)
    ∧ dig_get_poly_points 4 2 2 spike_lines.reverse
        (([1, -1] : List Int).map fun d => - d).reverse ⟨[], [], 0⟩
        = some (4, spike_ring_reversed_double.val)
    ∧ spike_ring_reversed_double.val.pts = spike_ring_double.val.pts.reverse
    ∧ spike_ring_double.val.closed
    ∧ dig_find_area_poly_double spike_ring_double = some (0, ⟨4503599627370496, 0⟩)
    ∧ dig_find_area_poly_double spike_ring_reversed_double
        = some (0, ⟨-4503599627370497, 0⟩)
    ∧ (⟨-4503599627370497, 0⟩ : double).val ≠ - (⟨4503599627370496, 0⟩ : double).val
    ∧ (dig_find_area_poly spike_ring_double.val).2 = 4503599627370497 := by
  obtain ⟨hl, hr, hq⟩ := spike_values
  rw [hr, hq]
  refine ⟨hl, by decide, by decide, by decide, by decide, ?_, by decide, by decide,
    by decide, by decide, by decide, by decide, ?_, ?_⟩
  · show List.Chain' _ [(_, _), (_, _)]
    rw [List.chain'_cons]
    exact ⟨by decide, List.chain'_singleton _⟩
  · norm_num [double.val]
  · norm_num [dig_find_area_poly, line_pnts.xi, line_pnts.yi, List.range']

set_option maxRecDepth 100000 in
/-- The same on everyday coordinates: for the ring `(0,0.1), (0.1,0.1), (0.3,0.3), (0,0.1)`
(the nearest `double` values) the stored area is `-5764607523034235 * 2^-59`, printed
`-0.01`, and for the reversed ring `5764607523034236 * 2^-59`, printed
`0.010000000000000002`. -/
theorem dig_find_area_poly_double_tenths :
    |double_tenth.val - 1 / 10| ≤ 2 ^ (-57 : ℤ)
    ∧ |double_three_tenths.val - 3 / 10| ≤ 2 ^ (-55 : ℤ)
    ∧ dig_find_area_poly_double tenths_ring_double = some (0, ⟨-5764607523034235, -59⟩)
    ∧ dig_find_area_poly_double tenths_ring_reversed_double
        = some (0, ⟨5764607523034236, -59⟩)
    ∧ (⟨5764607523034236, -59⟩ : double).val ≠ - (⟨-5764607523034235, -59⟩ : double).val := by
  refine ⟨?_, ?_, by decide, by decide, ?_⟩
  · norm_num [double.val, double_tenth, abs_le]
  · norm_num [double.val, double_three_tenths, abs_le]
  · norm_num [double.val]

/-! ## The neighbour scans: termination and result -/

/-- Searching the list `f 0, f 1, …, f (m-1)` for the first element with property `p`. -/
theorem find_map_range {α : Type} (f : Nat → α) (p : α → Bool) :
    ∀ m : Nat,
      (∃ k, k < m ∧ ((List.range m).map f).find? p = some (f k) ∧ p (f k) = true
          ∧ ∀ j, j < k → p (f j) = false)
      ∨ (((List.range m).map f).find? p = none ∧ ∀ j, j < m → p (f j) = false) := by
  intro m
  induction m with
  | zero => right; simp
  | succ m ih =>
    rw [List.range_succ, List.map_append, List.find?_append]
    rcases ih with ⟨k, hk, h1, h2, h3⟩ | ⟨h1, h2⟩
    · left
      exact ⟨k, by omega, by rw [h1]; rfl, h2, h3⟩
    · rw [h1]
      by_cases hp : p (f m) = true
      · left
        exact ⟨m, by omega, by simp [hp], hp, h2⟩
      · right
        refine ⟨by simp [hp], fun j hj => ?_⟩
        rcases Nat.lt_or_ge j m with h | h
        · exact h2 j h
        · have : j = m := by omega
          subst this
          simpa using hp

/-- The forward search returns the index at the least offset `k ≥ 1` from `cur` (modulo
`lastpoint`) whose point differs from the point at `cur`, or `cur` itself (`k = lastpoint`). -/
theorem first_distinct_after_spec (P : line_pnts) (lp cur : Nat) (hcur : cur < lp) :
    ∃ k, 1 ≤ k ∧ k ≤ lp ∧ first_distinct_after P lp cur = (cur + k) % lp
      ∧ (∀ j, 1 ≤ j → j < k → P.pt ((cur + j) % lp) = P.pt cur)
      ∧ (k < lp → P.pt (first_distinct_after P lp cur) ≠ P.pt cur) := by
  unfold first_distinct_after
  rcases find_map_range (fun k => (cur + 1 + k) % lp)
      (fun i => decide (P.pt i ≠ P.pt cur)) (lp - 1) with ⟨k, hk, h1, h2, h3⟩ | ⟨h1, h2⟩
  · refine ⟨k + 1, by omega, by omega, ?_, ?_, ?_⟩
    · rw [h1]; simp only [Option.getD_some]; congr 1; omega
    · intro j hj1 hj2
      have := h3 (j - 1) (by omega)
      simp only [decide_eq_false_iff_not, not_not] at this
      rw [← this]; congr 2; omega
    · intro _
      rw [h1]
      simpa using h2
  · refine ⟨lp, by omega, le_rfl, ?_, ?_, fun h => absurd h (lt_irrefl _)⟩
    · rw [h1]; simp only [Option.getD_none]
      rw [Nat.add_mod_right, Nat.mod_eq_of_lt hcur]
    · intro j hj1 hj2
      have := h2 (j - 1) (by omega)
      simp only [decide_eq_false_iff_not, not_not] at this
      rw [← this]; congr 2; omega

/-- The backward search returns the index at the least offset `k ≥ 1` before `cur` (modulo
`lastpoint`) whose point differs from the point at `cur`, or `cur` itself. -/
theorem first_distinct_before_spec (P : line_pnts) (lp cur : Nat) (hcur : cur < lp) :
    ∃ k, 1 ≤ k ∧ k ≤ lp ∧ first_distinct_before P lp cur = (cur + lp - k) % lp
      ∧ (∀ j, 1 ≤ j → j < k → P.pt ((cur + lp - j) % lp) = P.pt cur)
      ∧ (k < lp → P.pt (first_distinct_before P lp cur) ≠ P.pt cur) := by
  unfold first_distinct_before
  rcases find_map_range (fun k => (cur + lp - 1 - k) % lp)
      (fun i => decide (P.pt i ≠ P.pt cur)) (lp - 1) with ⟨k, hk, h1, h2, h3⟩ | ⟨h1, h2⟩
  · refine ⟨k + 1, by omega, by omega, ?_, ?_, ?_⟩
    · rw [h1]; simp only [Option.getD_some]; congr 1; omega
    · intro j hj1 hj2
      have := h3 (j - 1) (by omega)
      simp only [decide_eq_false_iff_not, not_not] at this
      rw [← this]; congr 2; omega
    · intro _
      rw [h1]
      simpa using h2
  · refine ⟨lp, by omega, le_rfl, ?_, ?_, fun h => absurd h (lt_irrefl _)⟩
    · rw [h1]; simp only [Option.getD_none]
      rw [Nat.add_sub_cancel, Nat.mod_eq_of_lt hcur]
    · intro j hj1 hj2
      have := h2 (j - 1) (by omega)
      simp only [decide_eq_false_iff_not, not_not] at this
      rw [← this]; congr 2; omega

/-- Every index below `lp` other than `cur` is at an offset `1 .. lp-1` after `cur`. -/
theorem offset_after (lp cur i : Nat) (hcur : cur < lp) (hi : i < lp) (hne : i ≠ cur) :
    ∃ j, 1 ≤ j ∧ j < lp ∧ (cur + j) % lp = i := by
  rcases Nat.lt_or_ge cur i with h | h
  · exact ⟨i - cur, by omega, by omega, by
      rw [show cur + (i - cur) = i by omega, Nat.mod_eq_of_lt hi]⟩
  · exact ⟨i + lp - cur, by omega, by omega, by
      rw [show cur + (i + lp - cur) = i + lp by omega, Nat.add_mod_right, Nat.mod_eq_of_lt hi]⟩

/-- Every index below `lp` other than `cur` is at an offset `1 .. lp-1` before `cur`. -/
theorem offset_before (lp cur i : Nat) (hcur : cur < lp) (hi : i < lp) (hne : i ≠ cur) :
    ∃ j, 1 ≤ j ∧ j < lp ∧ (cur + lp - j) % lp = i := by
  rcases Nat.lt_or_ge i cur with h | h
  · exact ⟨cur - i, by omega, by omega, by
      rw [show cur + lp - (cur - i) = i + lp by omega, Nat.add_mod_right, Nat.mod_eq_of_lt hi]⟩
  · exact ⟨cur + lp - i, by omega, by omega, by
      rw [show cur + lp - (cur + lp - i) = i by omega, Nat.mod_eq_of_lt hi]⟩

/-- The forward search returns `cur` exactly when all points below `lp` equal the point at
`cur`. -/
theorem first_distinct_after_eq_cur (P : line_pnts) (lp cur : Nat) (hcur : cur < lp) :
    first_distinct_after P lp cur = cur ↔ ∀ i, i < lp → P.pt i = P.pt cur := by
  obtain ⟨k, hk1, hk2, h1, h2, h3⟩ := first_distinct_after_spec P lp cur hcur
  constructor
  · intro he i hi
    have hk : k = lp := by
      by_contra hne
      exact h3 (by omega) (by rw [he])
    by_cases hic : i = cur
    · rw [hic]
    · obtain ⟨j, hj1, hj2, hj3⟩ := offset_after lp cur i hcur hi hic
      rw [← hj3]
      exact h2 j hj1 (by omega)
  · intro hall
    have hk : k = lp := by
      by_contra hne
      exact h3 (by omega) (hall _ (first_distinct_after_lt P lp cur hcur))
    rw [h1, hk, Nat.add_mod_right, Nat.mod_eq_of_lt hcur]

/-- The backward search returns `cur` exactly when all points below `lp` equal the point at
`cur`. -/
theorem first_distinct_before_eq_cur (P : line_pnts) (lp cur : Nat) (hcur : cur < lp) :
    first_distinct_before P lp cur = cur ↔ ∀ i, i < lp → P.pt i = P.pt cur := by
  obtain ⟨k, hk1, hk2, h1, h2, h3⟩ := first_distinct_before_spec P lp cur hcur
  constructor
  · intro he i hi
    have hk : k = lp := by
      by_contra hne
      exact h3 (by omega) (by rw [he])
    by_cases hic : i = cur
    · rw [hic]
    · obtain ⟨j, hj1, hj2, hj3⟩ := offset_before lp cur i hcur hi hic
      rw [← hj3]
      exact h2 j hj1 (by omega)
  · intro hall
    have hk : k = lp := by
      by_contra hne
      exact h3 (by omega) (hall _ (first_distinct_before_lt P lp cur hcur))
    rw [h1, hk, Nat.add_sub_cancel, Nat.mod_eq_of_lt hcur]

/-- C15: for a ring with `n_points ≥ 2` and a start index `cur` below `lastpoint`, the forward
and backward neighbour scans of `dig_find_poly_orientation` each terminate within
`lastpoint` iterations with an index below `lastpoint`; the forward result is the index at
the least offset after `cur` (cyclically) whose coordinates differ from those of `cur`, the
backward result the index at the least offset before `cur`; and either result is `cur`
exactly when all points below `lastpoint` have the coordinates of `cur`. -/
theorem neighbour_scans (P : line_pnts) (cur : Nat) (_hn : 2 ≤ P.n_points)
    (hcur : cur < P.n_points - 1) :
    ∃ pnext pprev,
      find_next P (P.n_points - 1) cur (P.n_points - 1) cur = some pnext
      ∧ find_prev P (P.n_points - 1) cur (P.n_points - 1) cur = some pprev
      ∧ pnext < P.n_points - 1 ∧ pprev < P.n_points - 1
      ∧ (∃ k, 1 ≤ k ∧ k ≤ P.n_points - 1 ∧ pnext = (cur + k) % (P.n_points - 1)
          ∧ (∀ j, 1 ≤ j → j < k → P.pt ((cur + j) % (P.n_points - 1)) = P.pt cur)
          ∧ (k < P.n_points - 1 → P.pt pnext ≠ P.pt cur))
      ∧ (∃ k, 1 ≤ k ∧ k ≤ P.n_points - 1
          ∧ pprev = (cur + (P.n_points - 1) - k) % (P.n_points - 1)
          ∧ (∀ j, 1 ≤ j → j < k →
              P.pt ((cur + (P.n_points - 1) - j) % (P.n_points - 1)) = P.pt cur)
          ∧ (k < P.n_points - 1 → P.pt pprev ≠ P.pt cur))
      ∧ (pnext = cur ↔ ∀ i, i < P.n_points - 1 → P.pt i = P.pt cur)
      ∧ (pprev = cur ↔ ∀ i, i < P.n_points - 1 → P.pt i = P.pt cur) :=
  ⟨first_distinct_after P (P.n_points - 1) cur, first_distinct_before P (P.n_points - 1) cur,
    find_next_eq P _ cur _ hcur le_rfl, find_prev_eq P _ cur _ hcur le_rfl,
    first_distinct_after_lt P _ cur hcur, first_distinct_before_lt P _ cur hcur,
    first_distinct_after_spec P _ cur hcur, first_distinct_before_spec P _ cur hcur,
    first_distinct_after_eq_cur P _ cur hcur, first_distinct_before_eq_cur P _ cur hcur⟩

/-- Instance of C15 on the ring `triangle_dup` from vertex `1`, whose predecessor `0` has
the same coordinates: the scans stop at `2` and at `3`. -/
theorem neighbour_scans_witness :
    find_next triangle_dup 4 1 4 1 = some 2 ∧ find_prev triangle_dup 4 1 4 1 = some 3
      ∧ ∃ pnext pprev, find_next triangle_dup 4 1 4 1 = some pnext
          ∧ find_prev triangle_dup 4 1 4 1 = some pprev ∧ pnext < 4 ∧ pprev < 4 := by
  obtain ⟨a, b, h1, h2, h3, h4, _⟩ := neighbour_scans triangle_dup 1 (by decide) (by decide)
  exact ⟨by decide, by decide, a, b, h1, h2, h3, h4⟩

/-- C16: for a ring with `n_points ≥ 2`, each of the four selection loops of
`dig_find_poly_orientation` yields an index `cur` below `n_points - 1` that is extremal for
its strategy over all indices `i` below `n_points - 1`: highest then leftmost, highest then
rightmost, lowest then leftmost, lowest then rightmost. -/
theorem select_vertex_extremal (P : line_pnts) (hn : 2 ≤ P.n_points) :
    (select_vertex (leftmost_highest_step P) (P.n_points - 1) < P.n_points - 1
      ∧ ∀ i, i < P.n_points - 1 →
          P.yi i ≤ P.yi (select_vertex (leftmost_highest_step P) (P.n_points - 1))
          ∧ (P.yi i = P.yi (select_vertex (leftmost_highest_step P) (P.n_points - 1)) →
              P.xi i ≥ P.xi (select_vertex (leftmost_highest_step P) (P.n_points - 1))))
    ∧ (select_vertex (rightmost_highest_step P) (P.n_points - 1) < P.n_points - 1
      ∧ ∀ i, i < P.n_points - 1 →
          P.yi i ≤ P.yi (select_vertex (rightmost_highest_step P) (P.n_points - 1))
          ∧ (P.yi i = P.yi (select_vertex (rightmost_highest_step P) (P.n_points - 1)) →
              P.xi i ≤ P.xi (select_vertex (rightmost_highest_step P) (P.n_points - 1))))
    ∧ (select_vertex (leftmost_lowest_step P) (P.n_points - 1) < P.n_points - 1
      ∧ ∀ i, i < P.n_points - 1 →
          P.yi i ≥ P.yi (select_vertex (leftmost_lowest_step P) (P.n_points - 1))
          ∧ (P.yi i = P.yi (select_vertex (leftmost_lowest_step P) (P.n_points - 1)) →
              P.xi i ≥ P.xi (select_vertex (leftmost_lowest_step P) (P.n_points - 1))))
    ∧ (select_vertex (rightmost_lowest_step P) (P.n_points - 1) < P.n_points - 1
      ∧ ∀ i, i < P.n_points - 1 →
          P.yi i ≥ P.yi (select_vertex (rightmost_lowest_step P) (P.n_points - 1))
          ∧ (P.yi i = P.yi (select_vertex (rightmost_lowest_step P) (P.n_points - 1)) →
              P.xi i ≤ P.xi (select_vertex (rightmost_lowest_step P) (P.n_points - 1)))) := by
  have hlp : 1 ≤ P.n_points - 1 := by omega
  have h1 := select_vertex_lex P.yi (fun i => - P.xi i) _ (leftmost_highest_key P) _ hlp
  have h2 := select_vertex_lex P.yi P.xi _ (rightmost_highest_key P) _ hlp
  have h3 := select_vertex_lex (fun i => - P.yi i) (fun i => - P.xi i) _
    (leftmost_lowest_key P) _ hlp
  have h4 := select_vertex_lex (fun i => - P.yi i) P.xi _ (rightmost_lowest_key P) _ hlp
  simp only [neg_le_neg_iff, neg_inj] at h1 h3 h4
  exact ⟨⟨h1.1, h1.2.1⟩, ⟨h2.1, h2.2.1⟩, ⟨h3.1, h3.2.1⟩, ⟨h4.1, h4.2.1⟩⟩

/-- Instance of C16 on the unit square: the four loops select the vertices `3`, `2`, `0`
and `1`, that is `(0,1)`, `(1,1)`, `(0,0)` and `(1,0)`. -/
theorem select_vertex_extremal_witness :
    select_vertex (leftmost_highest_step unit_square) 4 = 3
      ∧ select_vertex (rightmost_highest_step unit_square) 4 = 2
      ∧ select_vertex (leftmost_lowest_step unit_square) 4 = 0
      ∧ select_vertex (rightmost_lowest_step unit_square) 4 = 1
      ∧ ∀ i, i < unit_square.n_points - 1 →
          unit_square.yi i
            ≤ unit_square.yi (select_vertex (leftmost_highest_step unit_square)
                (unit_square.n_points - 1)) :=
  ⟨by decide, by decide, by decide, by decide,
    fun i hi => ((select_vertex_extremal unit_square (by decide)).1.2 i hi).1⟩

/-- In a triangle ring `p0, p1, p2, p0`, whatever the three points are, the cross at any
vertex with its first distinct neighbours is twice the stored area. -/
theorem triangle_cross_at (p0 p1 p2 : ℚ × ℚ) (cur : Nat) (hcur : cur < 3) :
    vertex_cross (line_pnts.ofList [p0, p1, p2, p0])
        (first_distinct_before (line_pnts.ofList [p0, p1, p2, p0]) 3 cur) cur
        (first_distinct_after (line_pnts.ofList [p0, p1, p2, p0]) 3 cur)
      = p0.2 * (p1.1 - p2.1) + p1.2 * (p2.1 - p0.1) + p2.2 * (p0.1 - p1.1) := by
  have hpt : ∀ (l : List (ℚ × ℚ)) (i : Nat),
      (line_pnts.ofList l).pt i = ((l.map Prod.fst).getD i 0, (l.map Prod.snd).getD i 0) :=
    fun l i => rfl
  by_cases h01 : p0 = p1
  · subst h01
    by_cases h12 : p0 = p2
    · subst h12
      interval_cases cur <;>
        simp [first_distinct_before, first_distinct_after, hpt, List.range_succ] <;>
        simp [vertex_cross, line_pnts.ofList, line_pnts.xi, line_pnts.yi]
    · have h21 : p2 ≠ p0 := fun h => h12 h.symm
      interval_cases cur <;>
        simp [first_distinct_before, first_distinct_after, hpt, List.range_succ, h12, h21] <;>
        simp [vertex_cross, line_pnts.ofList, line_pnts.xi, line_pnts.yi] <;>
        ring
  · have h10 : p1 ≠ p0 := fun h => h01 h.symm
    by_cases h12 : p1 = p2
    · subst h12
      interval_cases cur <;>
        simp [first_distinct_before, first_distinct_after, hpt, List.range_succ, h01, h10] <;>
        simp [vertex_cross, line_pnts.ofList, line_pnts.xi, line_pnts.yi] <;>
        ring
    · have h21 : p2 ≠ p1 := fun h => h12 h.symm
      by_cases h20 : p2 = p0
      · subst h20
        interval_cases cur <;>
          simp [first_distinct_before, first_distinct_after, hpt, List.range_succ, h01, h10] <;>
          simp [vertex_cross, line_pnts.ofList, line_pnts.xi, line_pnts.yi] <;>
          ring
      · have h02 : p0 ≠ p2 := fun h => h20 h.symm
        interval_cases cur <;>
          simp [first_distinct_before, first_distinct_after, hpt, List.range_succ, h01, h10,
            h12, h21, h20, h02] <;>
          simp [vertex_cross, line_pnts.ofList, line_pnts.xi, line_pnts.yi] <;>
          ring

/-- When the cross at every vertex is the same value, so is the cross of each strategy. -/
theorem strategy_cross_const (P : line_pnts) (hn : 2 ≤ P.n_points) (D : ℚ)
    (h : ∀ cur, cur < P.n_points - 1 →
      vertex_cross P (first_distinct_before P (P.n_points - 1) cur) cur
        (first_distinct_after P (P.n_points - 1) cur) = D) :
    leftmost_highest.cross P = D ∧ rightmost_highest.cross P = D
      ∧ leftmost_lowest.cross P = D ∧ rightmost_lowest.cross P = D := by
  have hlp : 1 ≤ P.n_points - 1 := by omega
  have h1 := h _ (leftmost_highest_lt P _ hlp)
  have h2 := h _ (rightmost_highest_lt P _ hlp)
  have h3 := h _ (leftmost_lowest_lt P _ hlp)
  have h4 := h _ (rightmost_lowest_lt P _ hlp)
  rw [select_leftmost_highest] at h1
  rw [select_rightmost_highest] at h2
  rw [select_leftmost_lowest] at h3
  rw [select_rightmost_lowest] at h4
  exact ⟨h1, h2, h3, h4⟩

/-- C18: for a closed ring of exactly 4 points `p0, p1, p2, p0`, with no assumption on the
three points, the value returned by `dig_find_poly_orientation` is exactly twice the area
stored by `dig_find_area_poly`; the two agree in sign and are zero together. -/
theorem triangle_ring_orientation (fuel : Nat) (p0 p1 p2 : ℚ × ℚ) (hf : 3 ≤ fuel) :
    ∃ o, dig_find_poly_orientation fuel (line_pnts.ofList [p0, p1, p2, p0]) = some o
      ∧ o = 2 * (dig_find_area_poly (line_pnts.ofList [p0, p1, p2, p0])).2
      ∧ (o = 0 ↔ (dig_find_area_poly (line_pnts.ofList [p0, p1, p2, p0])).2 = 0)
      ∧ (0 < o ↔ 0 < (dig_find_area_poly (line_pnts.ofList [p0, p1, p2, p0])).2)
      ∧ (o < 0 ↔ (dig_find_area_poly (line_pnts.ofList [p0, p1, p2, p0])).2 < 0) := by
  have hnp : 2 ≤ (line_pnts.ofList [p0, p1, p2, p0]).n_points :=
    show 2 ≤ 4 by omega
  obtain ⟨h1, h2, h3, h4⟩ := strategy_cross_const (line_pnts.ofList [p0, p1, p2, p0])
    hnp _ (fun cur hcur => triangle_cross_at p0 p1 p2 cur hcur)
  have hres := dig_find_poly_orientation_cases fuel (line_pnts.ofList [p0, p1, p2, p0])
    hnp hf
  rw [h1, h2, h3, h4] at hres
  simp only [ite_self] at hres
  refine ⟨_, hres, ?_, ?_, ?_, ?_⟩
  · rw [triangle_area]; ring
  · rw [triangle_area]; constructor <;> intro h <;> linarith
  · rw [triangle_area]; constructor <;> intro h <;> linarith
  · rw [triangle_area]; constructor <;> intro h <;> linarith

/-- Instance of C18: the degenerate triangle ring `(0,0), (0,0), (1,1), (0,0)` has
orientation `0`. -/
theorem triangle_ring_orientation_witness :
    dig_find_poly_orientation 3 (line_pnts.ofList [(0, 0), (0, 0), (1, 1), (0, 0)]) = some 0 := by
  obtain ⟨o, h1, h2, _⟩ := triangle_ring_orientation 3 (0, 0) (0, 0) (1, 1) (by decide)
  rw [h1, h2, triangle_area]
  norm_num

/-! ## Duplicating a vertex -/

theorem ofList_pt (l : List (ℚ × ℚ)) (i : Nat) : (line_pnts.ofList l).pt i = l.getD i (0, 0) := by
  unfold line_pnts.pt line_pnts.xi line_pnts.yi line_pnts.ofList
  by_cases hi : i < l.length
  · rw [List.getD_eq_getElem _ _ (by simpa using hi), List.getD_eq_getElem _ _ (by simpa using hi),
      List.getD_eq_getElem _ _ hi]
    simp
  · rw [List.getD_eq_default _ _ (by simpa using hi), List.getD_eq_default _ _ (by simpa using hi),
      List.getD_eq_default _ _ (by omega)]

theorem dup_at_length (l : List (ℚ × ℚ)) (k : Nat) (hk : k < l.length) :
    (dup_at l k).length = l.length + 1 := by
  unfold dup_at
  rw [List.length_append, List.length_take, List.length_drop]
  omega

/-- The elements of a list with its element `k` duplicated. -/
theorem dup_at_getD (l : List (ℚ × ℚ)) (k i : Nat) (hk : k < l.length) :
    (dup_at l k).getD i (0, 0) = if i ≤ k then l.getD i (0, 0) else l.getD (i - 1) (0, 0) := by
  unfold dup_at
  have hlen : (l.take (k + 1)).length = k + 1 := by rw [List.length_take]; omega
  by_cases hi : i ≤ k
  · rw [if_pos hi, List.getD_append _ _ _ _ (by omega), List.getD_eq_getElem _ _ (by omega),
      List.getD_eq_getElem _ _ (by omega), List.getElem_take]
  · rw [if_neg hi, List.getD_append_right _ _ _ _ (by omega), hlen]
    by_cases hi2 : i - 1 < l.length
    · rw [List.getD_eq_getElem _ _ (by rw [List.length_drop]; omega),
        List.getD_eq_getElem _ _ hi2, List.getElem_drop]
      congr 1; omega
    · rw [List.getD_eq_default _ _ (by rw [List.length_drop]; omega),
        List.getD_eq_default _ _ (by omega)]

/-- Duplicating one term of a closed chain adds a zero term to the shoelace sum. -/
theorem shoelace_sum_dup (x y : Nat → ℚ) (k : Nat) :
    ∀ n, k ≤ n →
      ∑ i in Finset.range (n + 1),
          ((if i ≤ k then x i else x (i - 1)) * (if i + 1 ≤ k then y (i + 1) else y (i + 1 - 1))
            - (if i + 1 ≤ k then x (i + 1) else x (i + 1 - 1)) * (if i ≤ k then y i else y (i - 1)))
        = ∑ i in Finset.range n, (x i * y (i + 1) - x (i + 1) * y i) := by
  intro n hn
  induction n, hn using Nat.le_induction with
  | base =>
    rw [Finset.sum_range_succ]
    have h0 : ∀ i ∈ Finset.range k,
        ((if i ≤ k then x i else x (i - 1)) * (if i + 1 ≤ k then y (i + 1) else y (i + 1 - 1))
          - (if i + 1 ≤ k then x (i + 1) else x (i + 1 - 1))
              * (if i ≤ k then y i else y (i - 1)))
        = x i * y (i + 1) - x (i + 1) * y i := by
      intro i hi
      have hi' : i < k := Finset.mem_range.1 hi
      rw [if_pos (by omega), if_pos (by omega), if_pos (by omega), if_pos (by omega)]
    rw [Finset.sum_congr rfl h0]
    rw [if_pos le_rfl, if_neg (by omega), if_neg (by omega), if_pos le_rfl]
    simp
  | succ n hn ih =>
    rw [Finset.sum_range_succ, ih, Finset.sum_range_succ]
    rw [if_neg (by omega), if_neg (by omega), if_neg (by omega), if_neg (by omega)]
    simp

/-- The points of a sequence with its point `k` duplicated. -/
theorem dup_pt (P : line_pnts) (k i : Nat) (hk : k < P.n_points) (hi : i ≤ P.n_points) :
    (line_pnts.ofList (dup_at P.pts k)).pt i = if i ≤ k then P.pt i else P.pt (i - 1) := by
  have hkl : k < P.pts.length := by rw [pts_length]; exact hk
  rw [ofList_pt, dup_at_getD _ _ _ hkl]
  by_cases h : i ≤ k
  · rw [if_pos h, if_pos h, pts_getD P i (by omega)]
  · rw [if_neg h, if_neg h, pts_getD P (i - 1) (by omega)]

/-- The shoelace area is unchanged when a point is inserted a second time after itself. -/
theorem shoelace_dup (P : line_pnts) (k : Nat) (hk : k < P.n_points) :
    shoelace_area (line_pnts.ofList (dup_at P.pts k)) = shoelace_area P := by
  have hkl : k < P.pts.length := by rw [pts_length]; exact hk
  have hnp : (line_pnts.ofList (dup_at P.pts k)).n_points = P.n_points + 1 := by
    show (dup_at P.pts k).length = _
    rw [dup_at_length _ _ hkl, pts_length]
  have hx : ∀ i, i ≤ P.n_points →
      (line_pnts.ofList (dup_at P.pts k)).xi i = if i ≤ k then P.xi i else P.xi (i - 1) := by
    intro i hi
    have h := congrArg Prod.fst (dup_pt P k i hk hi)
    by_cases hik : i ≤ k
    · rw [if_pos hik] at h ⊢; exact h
    · rw [if_neg hik] at h ⊢; exact h
  have hy : ∀ i, i ≤ P.n_points →
      (line_pnts.ofList (dup_at P.pts k)).yi i = if i ≤ k then P.yi i else P.yi (i - 1) := by
    intro i hi
    have h := congrArg Prod.snd (dup_pt P k i hk hi)
    by_cases hik : i ≤ k
    · rw [if_pos hik] at h ⊢; exact h
    · rw [if_neg hik] at h ⊢; exact h
  unfold shoelace_area
  rw [hnp, Nat.add_sub_cancel]
  congr 1
  obtain ⟨n, hn⟩ : ∃ n, P.n_points = n + 1 := ⟨P.n_points - 1, by omega⟩
  rw [hn, Nat.add_sub_cancel, ← shoelace_sum_dup P.xi P.yi k n (by omega)]
  apply Finset.sum_congr rfl
  intro i hi
  have hi' : i < n + 1 := Finset.mem_range.1 hi
  rw [hx i (by omega), hx (i + 1) (by omega), hy i (by omega), hy (i + 1) (by omega)]

/-- C19: for a closed ring of at least 2 points and a position `k` in it, the area stored by
`dig_find_area_poly` for the ring with point `k` inserted a second time immediately after
itself equals the area stored for the ring. -/
theorem dig_find_area_poly_dup (P : line_pnts) (k : Nat) (hn : 2 ≤ P.n_points)
    (hclosed : P.closed) (hk : k < P.n_points) :
    (dig_find_area_poly (line_pnts.ofList (dup_at P.pts k))).2 = (dig_find_area_poly P).2 := by
  have hkl : k < P.pts.length := by rw [pts_length]; exact hk
  have hnp : (line_pnts.ofList (dup_at P.pts k)).n_points = P.n_points + 1 := by
    show (dup_at P.pts k).length = _
    rw [dup_at_length _ _ hkl, pts_length]
  have hy : P.yi 0 = P.yi (P.n_points - 1) := congrArg Prod.snd hclosed
  have hy' : (line_pnts.ofList (dup_at P.pts k)).yi 0
      = (line_pnts.ofList (dup_at P.pts k)).yi
          ((line_pnts.ofList (dup_at P.pts k)).n_points - 1) := by
    rw [hnp, Nat.add_sub_cancel]
    have h0 := congrArg Prod.snd (dup_pt P k 0 hk (by omega))
    have h1 := congrArg Prod.snd (dup_pt P k P.n_points hk le_rfl)
    rw [if_pos (Nat.zero_le _)] at h0
    rw [if_neg (by omega)] at h1
    exact h0.trans (hy.trans h1.symm)
  rw [area_eq_neg_shoelace P hn hy, area_eq_neg_shoelace _ (by omega) hy', shoelace_dup P k hk]

/-- Instance of C19: the unit square with its vertex `1` duplicated keeps the area `-1`. -/
theorem dig_find_area_poly_dup_witness :
    line_pnts.ofList (dup_at unit_square.pts 1)
        = line_pnts.ofList [(0, 0), (1, 0), (1, 0), (1, 1), (0, 1), (0, 0)]
      ∧ (dig_find_area_poly (line_pnts.ofList (dup_at unit_square.pts 1))).2
          = (dig_find_area_poly unit_square).2 :=
  ⟨by decide, dig_find_area_poly_dup unit_square 1 (by decide) (by decide) (by decide)⟩

/-! ## Reversing a ring of distinct points -/

theorem next_mod (lp i : Nat) (hi : i < lp) :
    (i + 1) % lp = if i + 1 < lp then i + 1 else 0 := by
  split
  · next h => exact Nat.mod_eq_of_lt h
  · next h =>
    have : i + 1 = lp := by omega
    rw [this, Nat.mod_self]

theorem prev_mod (lp i : Nat) (hi : i < lp) :
    (i + lp - 1) % lp = if i = 0 then lp - 1 else i - 1 := by
  split
  · next h =>
    subst h
    rw [Nat.zero_add, Nat.mod_eq_of_lt (by omega)]
  · next h =>
    rw [show i + lp - 1 = i - 1 + lp by omega, Nat.add_mod_right, Nat.mod_eq_of_lt (by omega)]

theorem refl_mod (lp i : Nat) (hi : i < lp) :
    (lp - i) % lp = if i = 0 then 0 else lp - i := by
  split
  · next h => subst h; rw [Nat.sub_zero, Nat.mod_self]
  · next h => exact Nat.mod_eq_of_lt (by omega)

theorem refl_mod_lt (lp i : Nat) (hi : i < lp) : (lp - i) % lp < lp :=
  Nat.mod_lt _ (by omega)

theorem refl_mod_refl (lp i : Nat) (hi : i < lp) : (lp - (lp - i) % lp) % lp = i := by
  rw [refl_mod lp i hi]
  split
  · next h => subst h; rw [Nat.sub_zero, Nat.mod_self]
  · next h => rw [refl_mod lp (lp - i) (by omega), if_neg (by omega)]; omega

/-- Reflection of indices exchanges the cyclic successor and predecessor. -/
theorem refl_mod_next (lp i : Nat) (hi : i < lp) :
    (lp - ((lp - i) % lp + 1) % lp) % lp = (i + lp - 1) % lp := by
  have h1 := refl_mod lp i hi
  have h2 := next_mod lp ((lp - i) % lp) (refl_mod_lt lp i hi)
  have h3 := prev_mod lp i hi
  have h4 := refl_mod lp (((lp - i) % lp + 1) % lp) (Nat.mod_lt _ (by omega))
  rw [h4, h3]
  generalize ((lp - i) % lp + 1) % lp = b at h2 ⊢
  generalize (lp - i) % lp = a at h1 h2
  split_ifs at h1 h2 ⊢ <;> omega

theorem refl_mod_prev (lp i : Nat) (hi : i < lp) :
    (lp - ((lp - i) % lp + lp - 1) % lp) % lp = (i + 1) % lp := by
  have h1 := refl_mod lp i hi
  have h2 := prev_mod lp ((lp - i) % lp) (refl_mod_lt lp i hi)
  have h3 := next_mod lp i hi
  have h4 := refl_mod lp (((lp - i) % lp + lp - 1) % lp) (Nat.mod_lt _ (by omega))
  rw [h4, h3]
  generalize ((lp - i) % lp + lp - 1) % lp = b at h2 ⊢
  generalize (lp - i) % lp = a at h1 h2
  split_ifs at h1 h2 ⊢ <;> omega

/-- Two selection loops over the same points listed in reflected order select the same point,
when different indices carry different keys. -/
theorem select_vertex_reflect (u v u' v' : Nat → ℚ) (step step' : Nat → Nat → Nat)
    (hstep : ∀ c k, step c k = if toLex (u k, v k) < toLex (u c, v c) then c else k)
    (hstep' : ∀ c k, step' c k = if toLex (u' k, v' k) < toLex (u' c, v' c) then c else k)
    (lp : Nat) (hlp : 1 ≤ lp)
    (hu : ∀ i, i < lp → u' i = u ((lp - i) % lp))
    (hv : ∀ i, i < lp → v' i = v ((lp - i) % lp))
    (hinj : ∀ i j, i < lp → j < lp → u i = u j → v i = v j → i = j) :
    select_vertex step' lp = (lp - select_vertex step lp) % lp := by
  obtain ⟨hc, ha, _⟩ := select_vertex_lex u v step hstep lp hlp
  obtain ⟨hc', ha', _⟩ := select_vertex_lex u' v' step' hstep' lp hlp
  have hr := refl_mod_lt lp _ hc
  have hr' := refl_mod_lt lp _ hc'
  have h1 := ha' _ hr
  rw [hu _ hr, hv _ hr, refl_mod_refl lp _ hc, hu _ hc', hv _ hc'] at h1
  have h2 := ha _ hr'
  have hue : u ((lp - select_vertex step' lp) % lp) = u (select_vertex step lp) :=
    le_antisymm h2.1 h1.1
  have hve : v ((lp - select_vertex step' lp) % lp) = v (select_vertex step lp) :=
    le_antisymm (h2.2 hue) (h1.2 hue.symm)
  have := hinj _ _ hr' hc hue hve
  rw [← this, refl_mod_refl lp _ hc']

/-- The points of the reversed closed ring below `lastpoint`, by reflected index. -/
theorem reverse_pt_reflect (P : line_pnts) (hwf : P.wf) (hn : 2 ≤ P.n_points)
    (hclosed : P.closed) (i : Nat) (hi : i < P.n_points - 1) :
    P.reverse.pt i = P.pt ((P.n_points - 1 - i) % (P.n_points - 1)) := by
  have hpt : P.reverse.pt i = P.pt (P.n_points - 1 - i) := by
    unfold line_pnts.pt
    rw [reverse_xi P hwf i (by omega), reverse_yi P hwf i (by omega)]
  rw [hpt, refl_mod _ i hi]
  split
  · next h => subst h; exact hclosed.symm
  · rfl

/-- With pairwise distinct points the forward search stops at the cyclic successor. -/
theorem first_distinct_after_distinct (P : line_pnts) (lp cur : Nat) (hcur : cur < lp)
    (hdist : ∀ i j, i < lp → j < lp → P.pt i = P.pt j → i = j) :
    first_distinct_after P lp cur = (cur + 1) % lp := by
  obtain ⟨k, hk1, hk2, h1, h2, _⟩ := first_distinct_after_spec P lp cur hcur
  have hk : k = 1 := by
    by_contra hne
    have h := hdist _ _ (Nat.mod_lt _ (by omega)) hcur (h2 1 le_rfl (by omega))
    rw [next_mod lp cur hcur] at h
    split_ifs at h <;> omega
  rw [h1, hk]

/-- With pairwise distinct points the backward search stops at the cyclic predecessor. -/
theorem first_distinct_before_distinct (P : line_pnts) (lp cur : Nat) (hcur : cur < lp)
    (hdist : ∀ i j, i < lp → j < lp → P.pt i = P.pt j → i = j) :
    first_distinct_before P lp cur = (cur + lp - 1) % lp := by
  obtain ⟨k, hk1, hk2, h1, h2, _⟩ := first_distinct_before_spec P lp cur hcur
  have hk : k = 1 := by
    by_contra hne
    have h := hdist _ _ (Nat.mod_lt _ (by omega)) hcur (h2 1 le_rfl (by omega))
    rw [prev_mod lp cur hcur] at h
    split_ifs at h <;> omega
  rw [h1, hk]

/-- The cross at a vertex of the reversed ring is the negated cross at the same vertex of
the ring, for a closed ring of pairwise distinct points. -/
theorem vertex_cross_reverse (P : line_pnts) (hwf : P.wf) (hn : 2 ≤ P.n_points)
    (hclosed : P.closed)
    (hdist : ∀ i j, i < P.n_points - 1 → j < P.n_points - 1 → P.pt i = P.pt j → i = j)
    (c : Nat) (hc : c < P.n_points - 1) :
    vertex_cross P.reverse
        (first_distinct_before P.reverse (P.n_points - 1)
          ((P.n_points - 1 - c) % (P.n_points - 1)))
        ((P.n_points - 1 - c) % (P.n_points - 1))
        (first_distinct_after P.reverse (P.n_points - 1)
          ((P.n_points - 1 - c) % (P.n_points - 1)))
      = - vertex_cross P (first_distinct_before P (P.n_points - 1) c) c
          (first_distinct_after P (P.n_points - 1) c) := by
  have hlp : 0 < P.n_points - 1 := by omega
  have hr := refl_mod_lt _ c hc
  have hdistR : ∀ i j, i < P.n_points - 1 → j < P.n_points - 1 →
      P.reverse.pt i = P.reverse.pt j → i = j := by
    intro i j hi hj h
    rw [reverse_pt_reflect P hwf hn hclosed i hi, reverse_pt_reflect P hwf hn hclosed j hj] at h
    have := hdist _ _ (refl_mod_lt _ i hi) (refl_mod_lt _ j hj) h
    rw [← refl_mod_refl _ i hi, ← refl_mod_refl _ j hj, this]
  rw [first_distinct_after_distinct P.reverse _ _ hr hdistR,
    first_distinct_before_distinct P.reverse _ _ hr hdistR,
    first_distinct_after_distinct P _ _ hc hdist,
    first_distinct_before_distinct P _ _ hc hdist]
  have e1 := reverse_pt_reflect P hwf hn hclosed _ hr
  have e2 := reverse_pt_reflect P hwf hn hclosed
    (((P.n_points - 1 - c) % (P.n_points - 1) + 1) % (P.n_points - 1)) (Nat.mod_lt _ hlp)
  have e3 := reverse_pt_reflect P hwf hn hclosed
    (((P.n_points - 1 - c) % (P.n_points - 1) + (P.n_points - 1) - 1) % (P.n_points - 1))
    (Nat.mod_lt _ hlp)
  rw [refl_mod_refl _ c hc] at e1
  rw [refl_mod_next _ c hc] at e2
  rw [refl_mod_prev _ c hc] at e3
  have x1 : P.reverse.xi ((P.n_points - 1 - c) % (P.n_points - 1)) = P.xi c :=
    congrArg Prod.fst e1
  have y1 : P.reverse.yi ((P.n_points - 1 - c) % (P.n_points - 1)) = P.yi c :=
    congrArg Prod.snd e1
  have x2 : P.reverse.xi (((P.n_points - 1 - c) % (P.n_points - 1) + 1) % (P.n_points - 1))
      = P.xi ((c + (P.n_points - 1) - 1) % (P.n_points - 1)) := congrArg Prod.fst e2
  have y2 : P.reverse.yi (((P.n_points - 1 - c) % (P.n_points - 1) + 1) % (P.n_points - 1))
      = P.yi ((c + (P.n_points - 1) - 1) % (P.n_points - 1)) := congrArg Prod.snd e2
  have x3 : P.reverse.xi
      (((P.n_points - 1 - c) % (P.n_points - 1) + (P.n_points - 1) - 1) % (P.n_points - 1))
      = P.xi ((c + 1) % (P.n_points - 1)) := congrArg Prod.fst e3
  have y3 : P.reverse.yi
      (((P.n_points - 1 - c) % (P.n_points - 1) + (P.n_points - 1) - 1) % (P.n_points - 1))
      = P.yi ((c + 1) % (P.n_points - 1)) := congrArg Prod.snd e3
  unfold vertex_cross
  rw [x1, y1, x2, y2, x3, y3]
  ring

/-- One block of `dig_find_poly_orientation` on the reversed ring, for a selection loop
driven by a lexicographic key of the coordinates. -/
theorem block_reverse (P : line_pnts) (hwf : P.wf) (hn : 2 ≤ P.n_points) (hclosed : P.closed)
    (hdist : ∀ i j, i < P.n_points - 1 → j < P.n_points - 1 → P.pt i = P.pt j → i = j)
    (step : line_pnts → Nat → Nat → Nat) (u v : ℚ × ℚ → ℚ)
    (hkey : ∀ (Q : line_pnts) (c k : Nat), step Q c k
      = if toLex (u (Q.pt k), v (Q.pt k)) < toLex (u (Q.pt c), v (Q.pt c)) then c else k)
    (hinj : ∀ p q : ℚ × ℚ, u p = u q → v p = v q → p = q) :
    vertex_cross P.reverse
        (first_distinct_before P.reverse (P.n_points - 1)
          (select_vertex (step P.reverse) (P.n_points - 1)))
        (select_vertex (step P.reverse) (P.n_points - 1))
        (first_distinct_after P.reverse (P.n_points - 1)
          (select_vertex (step P.reverse) (P.n_points - 1)))
      = - vertex_cross P
          (first_distinct_before P (P.n_points - 1) (select_vertex (step P) (P.n_points - 1)))
          (select_vertex (step P) (P.n_points - 1))
          (first_distinct_after P (P.n_points - 1) (select_vertex (step P) (P.n_points - 1))) := by
  have hlp : 1 ≤ P.n_points - 1 := by omega
  have hsel := select_vertex_reflect (fun i => u (P.pt i)) (fun i => v (P.pt i))
    (fun i => u (P.reverse.pt i)) (fun i => v (P.reverse.pt i)) (step P) (step P.reverse)
    (hkey P) (hkey P.reverse) (P.n_points - 1) hlp
    (fun i hi => by simp only [reverse_pt_reflect P hwf hn hclosed i hi])
    (fun i hi => by simp only [reverse_pt_reflect P hwf hn hclosed i hi])
    (fun i j hi hj h1 h2 => hdist i j hi hj (hinj _ _ h1 h2))
  have hc : select_vertex (step P) (P.n_points - 1) < P.n_points - 1 :=
    (select_vertex_lex _ _ (step P) (hkey P) _ hlp).1
  rw [hsel]
  exact vertex_cross_reverse P hwf hn hclosed hdist _ hc

/-- The cross of each strategy on the reversed ring is the negated cross on the ring. -/
theorem strategy_cross_reverse (P : line_pnts) (hwf : P.wf) (hn : 2 ≤ P.n_points)
    (hclosed : P.closed)
    (hdist : ∀ i j, i < P.n_points - 1 → j < P.n_points - 1 → P.pt i = P.pt j → i = j) :
    leftmost_highest.cross P.reverse = - leftmost_highest.cross P
      ∧ rightmost_highest.cross P.reverse = - rightmost_highest.cross P
      ∧ leftmost_lowest.cross P.reverse = - leftmost_lowest.cross P
      ∧ rightmost_lowest.cross P.reverse = - rightmost_lowest.cross P := by
  have h1 := block_reverse P hwf hn hclosed hdist leftmost_highest_step
    (fun p => p.2) (fun p => - p.1) (fun Q c k => leftmost_highest_key Q c k)
    (fun p q h1 h2 => Prod.ext (neg_inj.1 h2) h1)
  have h2 := block_reverse P hwf hn hclosed hdist rightmost_highest_step
    (fun p => p.2) (fun p => p.1) (fun Q c k => rightmost_highest_key Q c k)
    (fun p q h1 h2 => Prod.ext h2 h1)
  have h3 := block_reverse P hwf hn hclosed hdist leftmost_lowest_step
    (fun p => - p.2) (fun p => - p.1) (fun Q c k => leftmost_lowest_key Q c k)
    (fun p q h1 h2 => Prod.ext (neg_inj.1 h2) (neg_inj.1 h1))
  have h4 := block_reverse P hwf hn hclosed hdist rightmost_lowest_step
    (fun p => - p.2) (fun p => p.1) (fun Q c k => rightmost_lowest_key Q c k)
    (fun p q h1 h2 => Prod.ext h2 (neg_inj.1 h1))
  rw [select_leftmost_highest, select_leftmost_highest] at h1
  rw [select_rightmost_highest, select_rightmost_highest] at h2
  rw [select_leftmost_lowest, select_leftmost_lowest] at h3
  rw [select_rightmost_lowest, select_rightmost_lowest] at h4
  exact ⟨h1, h2, h3, h4⟩

/-- C17: for a closed ring of at least 2 points whose points other than the closing point are
pairwise distinct, `dig_find_poly_orientation` applied to the reversed ring returns exactly
the negation of the value it returns for the ring; a ring reported negative is reported
positive in reverse order. -/
theorem dig_find_poly_orientation_reverse (fuel : Nat) (P : line_pnts) (hwf : P.wf)
    (hn : 2 ≤ P.n_points) (hclosed : P.closed)
    (hdist : ∀ i j, i < P.n_points - 1 → j < P.n_points - 1 → P.pt i = P.pt j → i = j)
    (hf : P.n_points - 1 ≤ fuel) :
    ∃ o, dig_find_poly_orientation fuel P = some o
      ∧ dig_find_poly_orientation fuel P.reverse = some (- o)
      ∧ (o < 0 → 0 < - o) := by
  obtain ⟨h1, h2, h3, h4⟩ := strategy_cross_reverse P hwf hn hclosed hdist
  have hP := dig_find_poly_orientation_cases fuel P hn hf
  have hR := dig_find_poly_orientation_cases fuel P.reverse hn hf
  rw [h1, h2, h3, h4] at hR
  refine ⟨_, hP, ?_, fun h => by linarith⟩
  rw [hR]
  congr 1
  simp only [ne_eq, neg_eq_zero]
  split_ifs <;> rfl

/-- Instance of C17: the unit square is reported `-1`, its reverse `1`. -/
theorem dig_find_poly_orientation_reverse_witness :
    ∃ o, dig_find_poly_orientation 4 unit_square = some o
      ∧ dig_find_poly_orientation 4 unit_square.reverse = some (- o) ∧ o = -1 := by
  obtain ⟨o, h1, h2, _⟩ := dig_find_poly_orientation_reverse 4 unit_square (by decide)
    (by decide) (by decide)
    (by
      intro i j hi hj
      have hi4 : i < 4 := hi
      have hj4 : j < 4 := hj
      interval_cases i <;> interval_cases j <;> decide)
    (by decide)
  refine ⟨o, h1, h2, ?_⟩
  have h3 := unit_square_values.2
  rw [h1] at h3
  exact Option.some.inj h3

/-! ## Claims on the loop of `main` -/

/-- The iterations are made for the lines `1, 2, …` in this order, one iteration each. -/
theorem main_after_succ {LP LC : Type} (ops : map_ops LP LC) (quiet : Bool) (write_cats : Int)
    (points : LP) (cats : LC) (k : Nat) :
    main_after ops quiet write_cats points cats (k + 1)
      = main_body ops quiet write_cats (main_after ops quiet write_cats points cats k) (k + 1) := by
  unfold main_after
  rw [List.range'_concat, Nat.one_mul, List.foldl_append, List.foldl_cons, List.foldl_nil,
    Nat.add_comm 1 k]

/-- What one iteration writes to the output map. -/
theorem main_body_Out {LP LC : Type} (ops : map_ops LP LC) (quiet : Bool) (write_cats : Int)
    (s : main_state LP LC) (line : Nat) :
    (s.lines_visited line ≠ 0 → (main_body ops quiet write_cats s line).Out = s.Out)
    ∧ (s.lines_visited line = 0 →
        ∃ pts cats, (main_body ops quiet write_cats s line).Out
          = s.Out ++ [(ops.read_line (ops.walk_back line), pts, cats)]) := by
  constructor
  · intro h
    unfold main_body
    simp only [h, ne_eq, not_false_eq_true, if_true]
  · intro h
    unfold main_body
    simp only [h, ne_eq, not_true_eq_false, if_false]
    exact ⟨_, _, rfl⟩

/-- What one iteration does to the two counters. -/
theorem main_body_counters {LP LC : Type} (ops : map_ops LP LC) (quiet : Bool)
    (write_cats : Int) (s : main_state LP LC) (line : Nat) :
    (main_body ops quiet write_cats s line).nlines
        = s.nlines + (if line_like ops line then 1 else 0)
    ∧ (main_body ops quiet write_cats s line).polyline
        = s.polyline
          + (if line_like ops line && decide (s.lines_visited line = 0) then 1 else 0) := by
  unfold main_body line_like
  by_cases hv : s.lines_visited line = 0 <;>
    by_cases hl : Int.land (ops.read_line line) ops.GV_LINES = 0 <;>
    simp [hv, hl]

/-- The record types written by the lines `1 .. n` are the types of the start lines of
those found unvisited, in order. -/
theorem main_after_Out_types {LP LC : Type} (ops : map_ops LP LC) (quiet : Bool)
    (write_cats : Int) (points : LP) (cats : LC) (n : Nat) :
    (main_after ops quiet write_cats points cats n).Out.map Prod.fst
      = ((List.range' 1 n).filter (reached_unvisited ops quiet write_cats points cats)).map
          fun line => ops.read_line (ops.walk_back line) := by
  induction n with
  | zero => rfl
  | succ n ih =>
    rw [main_after_succ, List.range'_concat, Nat.one_mul, List.filter_append, List.map_append,
      ← ih, Nat.add_comm 1 n]
    obtain ⟨hv, hu⟩ := main_body_Out ops quiet write_cats
      (main_after ops quiet write_cats points cats n) (n + 1)
    by_cases h : (main_after ops quiet write_cats points cats n).lines_visited (n + 1) = 0
    · obtain ⟨pts, cs, he⟩ := hu h
      rw [he]
      simp [reached_unvisited, h]
    · rw [hv h]
      simp [reached_unvisited, h]

/-- The counters after the lines `1 .. k`. -/
theorem main_after_counters {LP LC : Type} (ops : map_ops LP LC) (quiet : Bool)
    (write_cats : Int) (points : LP) (cats : LC) (k : Nat) :
    (main_after ops quiet write_cats points cats k).nlines
        = (((List.range' 1 k).filter (line_like ops)).length : Int)
    ∧ (main_after ops quiet write_cats points cats k).polyline
        = (((List.range' 1 k).filter fun line =>
            line_like ops line && reached_unvisited ops quiet write_cats points cats line).length
            : Int) := by
  induction k with
  | zero => exact ⟨rfl, rfl⟩
  | succ k ih =>
    obtain ⟨h1, h2⟩ := main_body_counters ops quiet write_cats
      (main_after ops quiet write_cats points cats k) (k + 1)
    rw [main_after_succ, h1, h2, ih.1, ih.2, List.range'_concat, Nat.one_mul,
      List.filter_append, List.filter_append, List.length_append, List.length_append,
      Nat.add_comm 1 k]
    constructor
    · by_cases hl : line_like ops (k + 1) = true <;> simp [hl]
    · have hr : reached_unvisited ops quiet write_cats points cats (k + 1)
          = decide ((main_after ops quiet write_cats points cats k).lines_visited (k + 1) = 0) := by
        unfold reached_unvisited
        rw [Nat.add_sub_cancel]
      rw [← hr]
      by_cases hl : (line_like ops (k + 1)
          && reached_unvisited ops quiet write_cats points cats (k + 1)) = true
      · rw [if_pos hl, List.filter_cons_of_pos (by exact hl)]
        simp
      · rw [if_neg hl, List.filter_cons_of_neg (by exact hl)]
        simp

/-- C12: in the loop of `main`, with `walk_back` and `walk_forward_and_pick_up_coords` as
external operations, the lines `1 .. N` are examined once each in increasing order: the
state after line `line` is the loop body applied to the state after lines `1 .. line-1`.
A line that is marked visited when it is reached writes no record; a line that is not
writes exactly one record, whose type is the type of the line returned by `walk_back`
for it.  So the types of the records written by the whole loop are those of the start
lines of the lines found unvisited, in order. -/
theorem main_loop_records {LP LC : Type} (ops : map_ops LP LC) (quiet : Bool)
    (write_cats : Int) (points : LP) (cats : LC) (line : Nat) (h1 : 1 ≤ line)
    (_hN : line ≤ ops.num_lines) :
    main_after ops quiet write_cats points cats line
        = main_body ops quiet write_cats
            (main_after ops quiet write_cats points cats (line - 1)) line
    ∧ ((main_after ops quiet write_cats points cats (line - 1)).lines_visited line ≠ 0 →
        (main_after ops quiet write_cats points cats line).Out
          = (main_after ops quiet write_cats points cats (line - 1)).Out)
    ∧ ((main_after ops quiet write_cats points cats (line - 1)).lines_visited line = 0 →
        ∃ pts cs, (main_after ops quiet write_cats points cats line).Out
          = (main_after ops quiet write_cats points cats (line - 1)).Out
              ++ [(ops.read_line (ops.walk_back line), pts, cs)])
    ∧ (main_loop ops quiet write_cats points cats).Out.map Prod.fst
        = ((List.range' 1 ops.num_lines).filter
            (reached_unvisited ops quiet write_cats points cats)).map
            fun l => ops.read_line (ops.walk_back l) := by
  obtain ⟨k, rfl⟩ : ∃ k, line = k + 1 := ⟨line - 1, by omega⟩
  rw [Nat.add_sub_cancel, main_after_succ]
  exact ⟨rfl, (main_body_Out ops quiet write_cats _ (k + 1)).1,
    (main_body_Out ops quiet write_cats _ (k + 1)).2,
    main_after_Out_types ops quiet write_cats points cats ops.num_lines⟩

/-- Witness of C12: in the sample map, line 1 (a boundary, type 4) is unvisited when reached
and its record has the type 2 of its start line 2; line 2 is then skipped. -/
theorem main_loop_records_witness :
    1 ≤ 1 ∧ 1 ≤ sample_ops.num_lines
    ∧ sample_ops.read_line 1 = 4
    ∧ (main_after sample_ops false 0 [] [] 1).Out = [(2, [2, 1], [])]
    ∧ (main_after sample_ops false 0 [] [] 2).Out = [(2, [2, 1], [])]
    ∧ (main_loop sample_ops false 0 [] []).Out = [(2, [2, 1], []), (1, [3], [])]
    ∧ (main_after sample_ops false 0 ([] : List Nat) ([] : List Nat) 1
        = main_body sample_ops false 0 (main_after sample_ops false 0 [] [] (1 - 1)) 1
      ∧ ((main_after sample_ops false 0 ([] : List Nat) ([] : List Nat) (1 - 1)).lines_visited 1
            ≠ 0 →
          (main_after sample_ops false 0 [] [] 1).Out
            = (main_after sample_ops false 0 [] [] (1 - 1)).Out)
      ∧ ((main_after sample_ops false 0 ([] : List Nat) ([] : List Nat) (1 - 1)).lines_visited 1
            = 0 →
          ∃ pts cs, (main_after sample_ops false 0 [] [] 1).Out
            = (main_after sample_ops false 0 [] [] (1 - 1)).Out
                ++ [(sample_ops.read_line (sample_ops.walk_back 1), pts, cs)])
      ∧ (main_loop sample_ops false 0 [] []).Out.map Prod.fst
          = ((List.range' 1 sample_ops.num_lines).filter
              (reached_unvisited sample_ops false 0 [] [])).map
              fun l => sample_ops.read_line (sample_ops.walk_back l)) :=
  ⟨by decide, by decide, by decide, by decide, by decide, by decide,
    main_loop_records sample_ops false 0 [] [] 1 (by decide) (by decide)⟩

/-- C13: after the lines `1 .. k` of the loop of `main` (any `k ≤ N`, so after every
iteration and at the end), `nlines` is the number of those lines whose type has a
`GV_LINES` bit, visited or not, and `polyline` is the number of those that have such a
type and were not marked visited when reached; hence `polyline ≤ nlines`. -/
theorem main_loop_counters {LP LC : Type} (ops : map_ops LP LC) (quiet : Bool)
    (write_cats : Int) (points : LP) (cats : LC) (k : Nat) (_hk : k ≤ ops.num_lines) :
    (main_after ops quiet write_cats points cats k).nlines
        = (((List.range' 1 k).filter (line_like ops)).length : Int)
    ∧ (main_after ops quiet write_cats points cats k).polyline
        = (((List.range' 1 k).filter fun line =>
            line_like ops line && reached_unvisited ops quiet write_cats points cats line).length
            : Int)
    ∧ (main_after ops quiet write_cats points cats k).polyline
        ≤ (main_after ops quiet write_cats points cats k).nlines
    ∧ (main_loop ops quiet write_cats points cats).nlines
        = (((List.range' 1 ops.num_lines).filter (line_like ops)).length : Int)
    ∧ (main_loop ops quiet write_cats points cats).polyline
        = (((List.range' 1 ops.num_lines).filter fun line =>
            line_like ops line && reached_unvisited ops quiet write_cats points cats line).length
            : Int) := by
  obtain ⟨h1, h2⟩ := main_after_counters ops quiet write_cats points cats k
  refine ⟨h1, h2, ?_, main_after_counters ops quiet write_cats points cats ops.num_lines⟩
  rw [h1, h2]
  have hle : ((List.range' 1 k).filter fun line =>
      line_like ops line && reached_unvisited ops quiet write_cats points cats line).length
      ≤ ((List.range' 1 k).filter (line_like ops)).length := by
    apply List.Sublist.length_le
    apply List.monotone_filter_right
    intro a ha
    simp only [Bool.and_eq_true] at ha
    exact ha.1
  exact_mod_cast hle

/-- Witness of C13: in the sample map the lines 1 and 2 are line-like, so `nlines = 2`,
and only line 1 of them is unvisited when reached, so `polyline = 1`. -/
theorem main_loop_counters_witness :
    3 ≤ sample_ops.num_lines
    ∧ (main_loop sample_ops false 0 ([] : List Nat) ([] : List Nat)).nlines = 2
    ∧ (main_loop sample_ops false 0 ([] : List Nat) ([] : List Nat)).polyline = 1
    ∧ ((main_after sample_ops false 0 ([] : List Nat) ([] : List Nat) 3).nlines
          = (((List.range' 1 3).filter (line_like sample_ops)).length : Int)
      ∧ (main_after sample_ops false 0 ([] : List Nat) ([] : List Nat) 3).polyline
          = (((List.range' 1 3).filter fun line =>
              line_like sample_ops line
                && reached_unvisited sample_ops false 0 [] [] line).length : Int)
      ∧ (main_after sample_ops false 0 ([] : List Nat) ([] : List Nat) 3).polyline
          ≤ (main_after sample_ops false 0 ([] : List Nat) ([] : List Nat) 3).nlines
      ∧ (main_loop sample_ops false 0 ([] : List Nat) ([] : List Nat)).nlines
          = (((List.range' 1 sample_ops.num_lines).filter (line_like sample_ops)).length : Int)
      ∧ (main_loop sample_ops false 0 ([] : List Nat) ([] : List Nat)).polyline
          = (((List.range' 1 sample_ops.num_lines).filter fun line =>
              line_like sample_ops line
                && reached_unvisited sample_ops false 0 [] [] line).length : Int)) :=
  ⟨by decide, by decide, by decide,
    main_loop_counters sample_ops false 0 [] [] 3 (by decide)⟩

end Diglib
